import Mathlib

/-!
Verification of the Remi template checker (src/templateChecker.ts).

The TypeScript source is shallowly embedded: every string-rewriting pass of
the checker (variable extraction, conditional partial evaluation, template
expression validation, HTML generation, pretty-printing) is translated to a
computable Lean function over `List Char`, mirroring the exact semantics of
the JavaScript regular expressions and string operations used by the source
(leftmost matching, greedy quantifiers with the backtracking the concrete
patterns allow, first-occurrence `indexOf`/`replace`, `Map.set` overwrite).

JavaScript `eval` (used by `evaluateExpression` in the source) is external to
the repository; it is embedded by `jsEval`, a partial model that covers the
literal grammar the design guarantees (string/number/boolean literals) plus
the `undefined` expression and the empty program, and treats every other
expression as throwing.  All concrete inputs appearing in theorems below use
only expressions on which this model agrees with a JavaScript engine.
-/

namespace Remi

/-- Character strings are modelled as lists of characters. -/
abbrev Str := List Char

/-- Characters matched by the JavaScript `\s` class and removed by `trim`
(restricted to the ASCII whitespace actually occurring in this pipeline). -/
def wsChar (c : Char) : Bool :=
  c = ' ' || c = '\t' || c = '\n' || c = '\r'

/-- Model of `String.prototype.trim`: drop whitespace from both ends. -/
def trim (s : Str) : Str :=
  ((s.dropWhile wsChar).reverse.dropWhile wsChar).reverse

/-- Runtime values produced by expression evaluation.  `undef` stands for the
JavaScript `undefined`, which is both the value of an absent `value` field and
a possible result of `eval`. -/
inductive JsValue where
  | num (n : Int)
  | str (s : Str)
  | bool (b : Bool)
  | undef
deriving DecidableEq, Repr

/-- JavaScript truthiness of a value. -/
def JsValue.truthy : JsValue → Bool
  | .num n => n ≠ 0
  | .str s => s ≠ []
  | .bool b => b
  | .undef => false

/-- JavaScript `typeof v === "boolean"`. -/
def JsValue.isBool : JsValue → Bool
  | .bool _ => true
  | _ => false

/-- JavaScript string coercion of a value, as applied to the return value of a
`String.prototype.replace` callback. -/
def JsValue.toStr : JsValue → Str
  | .num n => (toString n).data
  | .str s => s
  | .bool b => (if b then "true" else "false").data
  | .undef => "undefined".data

/-- Decimal digit test. -/
def isDigit (c : Char) : Bool := '0' ≤ c && c ≤ '9'

/-- Decimal value of a digit run. -/
def digitsToNat (s : Str) : Nat :=
  s.foldl (fun a c => 10 * a + (c.toNat - '0'.toNat)) 0

/-- Model of JavaScript `eval` on an already-trimmed expression; `none` means
the evaluation throws.  Covered: boolean literals, `undefined`, the empty
program (which yields `undefined`), decimal integer literals with an optional
sign, and double-quoted strings without escapes or inner quotes. -/
def jsEvalTrimmed (s : Str) : Option JsValue :=
  if s = [] then some .undef
  else if s = "true".data then some (.bool true)
  else if s = "false".data then some (.bool false)
  else if s = "undefined".data then some .undef
  else if s.all isDigit then some (.num (digitsToNat s))
  else if s.head? = some '-' ∧ s.tail ≠ [] ∧ s.tail.all isDigit then
    some (.num (-(digitsToNat s.tail : Int)))
  else
    match s with
    | '"' :: rest =>
      if rest ≠ [] ∧ rest.getLast? = some '"' ∧ ¬ '"' ∈ rest.dropLast then
        some (.str rest.dropLast)
      else none
    | _ => none

/-- Model of JavaScript `eval` on an expression string (leading and trailing
whitespace is insignificant in an expression statement). -/
def jsEval (s : Str) : Option JsValue := jsEvalTrimmed (trim s)

/-- Execution-context tag of a declared variable (source `Variable.type`). -/
inductive VarKind where
  | client | server | pub | sset | readable
deriving DecidableEq, Repr

/-- Symbol-table entry (source interface `Variable`).  The optional field
`value?: any` is modelled with `undef` standing for an absent or undefined
value, exactly as every JavaScript read of the field sees it. -/
structure Variable where
  type : VarKind
  value : JsValue
  initialized : Bool
deriving DecidableEq, Repr

/-- One collected error (source `CompileState.errors` element). -/
structure Diagnostic where
  lineNumber : Nat
  message : Str
deriving DecidableEq, Repr

/-- Compile state threaded through the whole run. -/
structure CompileState where
  vars : List (Str × Variable)
  errors : List Diagnostic
deriving DecidableEq, Repr

/-- Model of `Map.prototype.set`: overwrite in place, else append. -/
def mapSet (m : List (Str × Variable)) (k : Str) (v : Variable) :
    List (Str × Variable) :=
  match m with
  | [] => [(k, v)]
  | (k', v') :: rest =>
    if k' = k then (k, v) :: rest else (k', v') :: mapSet rest k v

/-- Model of `Map.prototype.get` (first binding of the key). -/
def mapGet (m : List (Str × Variable)) (k : Str) : Option Variable :=
  match m with
  | [] => none
  | (k', v') :: rest => if k' = k then some v' else mapGet rest k

/-- Source `evaluateExpression`: try `eval` on the text, and on a throw fall
back to a symbol-table lookup of the trimmed text, which succeeds only for an
initialized variable whose value is not `undefined`.  `none` models a throw. -/
def evaluateExpression (expr : Str) (st : CompileState) : Option JsValue :=
  match jsEval expr with
  | some v => some v
  | none =>
    match mapGet st.vars (trim expr) with
    | some v =>
      if v.initialized ∧ v.value ≠ .undef then some v.value else none
    | none => none

/-- Source `isResolvableAtCompileTime`: evaluation succeeds with a value other
than `undefined`. -/
def isResolvableAtCompileTime (expr : Str) (st : CompileState) : Bool :=
  match evaluateExpression expr st with
  | some v => v ≠ .undef
  | none => false

/-- Characters of the JavaScript `\w` class. -/
def wordChar (c : Char) : Bool :=
  ('a' ≤ c && c ≤ 'z') || ('A' ≤ c && c ≤ 'Z') || isDigit c || c = '_'

/-- One match of the declaration pattern
`@(client|server|public|sset|readable)\s+(const|let|var)?\s+(\w+)(?:\s*=\s*([^;]+))?`. -/
structure VarDecl where
  type : VarKind
  declKind : Option Str
  name : Str
  init : Option Str
deriving DecidableEq, Repr

/-- Annotation keywords in the order the regex alternation lists them (no
keyword is a prefix of another, so the order cannot matter). -/
def varKindTable : List (Str × VarKind) :=
  [("client".data, .client), ("server".data, .server), ("public".data, .pub),
   ("sset".data, .sset), ("readable".data, .readable)]

/-- Try each annotation keyword as a prefix of the input, returning the kind
and the number of characters consumed. -/
def matchVarKind (s : Str) : Option (VarKind × Nat) :=
  (varKindTable.filter (fun kv => kv.1.isPrefixOf s)).head?.map
    (fun kv => (kv.2, kv.1.length))

/-- Declaration keywords of the optional `(const|let|var)` group. -/
def declKindTable : List Str := ["const".data, "let".data, "var".data]

/-- Match the fragment `\s+(const|let|var)?\s+(\w+)` at the head of the input,
with the backtracking the two greedy `\s+` quantifiers allow: a declaration
keyword may directly follow the single whitespace run, and in its absence the
run must be split between the two `\s+`, which requires at least two
whitespace characters.  Returns the optional keyword, the name, and the
number of characters consumed. -/
def matchNamePart (s : Str) : Option (Option Str × Str × Nat) :=
  let n := (s.takeWhile wsChar).length
  let r := s.drop n
  let bare :=
    let nm := r.takeWhile wordChar
    if n ≥ 2 ∧ nm ≠ [] then some (none, nm, n + nm.length) else none
  if n = 0 then none
  else
    match (declKindTable.filter (fun kw => kw.isPrefixOf r)).head? with
    | some kw =>
      let r2 := r.drop kw.length
      let m := (r2.takeWhile wsChar).length
      let nm := (r2.drop m).takeWhile wordChar
      if m ≥ 1 ∧ nm ≠ [] then some (some kw, nm, n + kw.length + m + nm.length)
      else bare
    | none => bare

/-- Match the optional fragment `(?:\s*=\s*([^;]+))?` at the head of the
input: skip whitespace, require `=`, skip whitespace, then capture a nonempty
run of non-semicolon characters — backtracking the inner `\s*` by one when
the run would otherwise be empty.  Returns the captured initializer (when the
group participates) and the number of characters consumed. -/
def matchInitPart (s : Str) : Option Str × Nat :=
  let p := (s.takeWhile wsChar).length
  match s.drop p with
  | '=' :: t =>
    let q := (t.takeWhile wsChar).length
    let run := (t.drop q).takeWhile (· ≠ ';')
    if run ≠ [] then (some run, p + 1 + q + run.length)
    else if q ≥ 1 then (some [t.getD (q - 1) ' '], p + 1 + q)
    else (none, 0)
  | _ => (none, 0)

/-- Match the full declaration pattern immediately after a `@`, returning the
declaration and the number of characters consumed after the `@`. -/
def matchDeclAfterAt (s : Str) : Option (VarDecl × Nat) :=
  match matchVarKind s with
  | none => none
  | some (k, k1) =>
    match matchNamePart (s.drop k1) with
    | none => none
    | some (dk, nm, k2) =>
      let (ini, k3) := matchInitPart ((s.drop k1).drop k2)
      some (⟨k, dk, nm, ini⟩, k1 + k2 + k3)

/-- Scan the whole input for declaration matches, left to right, resuming
after each match (the semantics of `RegExp.prototype.exec` with the `g`
flag). -/
def scanVarDecls : Str → List VarDecl
  | [] => []
  | c :: cs =>
    if c = '@' then
      match matchDeclAfterAt cs with
      | some (d, k) => d :: scanVarDecls (cs.drop k)
      | none => scanVarDecls cs
    else scanVarDecls cs
termination_by s => s.length
decreasing_by
  · simp [List.length_drop]; omega
  · simp [List.length_cons]
  · simp [List.length_cons]

/-- Source `var Data` construction inside the `parseVariables` loop: default
uninitialized entry, upgraded when the initializer text evaluates without a
throw (the evaluated value may itself be `undefined`). -/
def mkVariable (d : VarDecl) : Variable :=
  match d.init with
  | none => ⟨d.type, .undef, false⟩
  | some s =>
    match jsEval s with
    | some v => ⟨d.type, v, true⟩
    | none => ⟨d.type, .undef, false⟩

/-- Source `parseVariables`: populate the symbol table from every declaration
match in the whole source text; errors are never touched here. -/
def parseVariables (code : Str) (st : CompileState) : CompileState :=
  { st with vars :=
      (scanVarDecls code).foldl (fun m d => mapSet m d.name (mkVariable d)) st.vars }

/-- Split at the first occurrence of a character: `some (a, b)` means the
input is `a ++ stop :: b` with no `stop` inside `a`. -/
def splitAtChar (stop : Char) : Str → Option (Str × Str)
  | [] => none
  | c :: cs =>
    if c = stop then some ([], cs)
    else (splitAtChar stop cs).map (fun p => (c :: p.1, p.2))

theorem splitAtChar_spec {stop : Char} {s a b : Str}
    (h : splitAtChar stop s = some (a, b)) : s = a ++ stop :: b := by
  induction s generalizing a with
  | nil => simp [splitAtChar] at h
  | cons c cs ih =>
    by_cases hc : c = stop
    · simp [splitAtChar, hc] at h
      obtain ⟨h1, h2⟩ := h
      subst h1
      subst h2
      simp [hc]
    · simp [splitAtChar, hc] at h
      cases hr : splitAtChar stop cs with
      | none => rw [hr] at h; simp at h
      | some p =>
        rw [hr] at h
        simp at h
        obtain ⟨a1, hp, ha⟩ := h
        have := ih (a := a1) (by rw [hr, hp])
        rw [← ha, this]
        simp

/-- Model of the fragment `\s*([^X]+)X` of the ternary regex, for a stop
character `X`: a greedy whitespace skip, a nonempty capture running to the
first `X`, and the `X` itself; when the whitespace run is immediately
followed by `X`, the regex backtracks and the capture is the last whitespace
character.  Returns the skipped whitespace, the capture, and the input
remaining after `X`. -/
def scanPart (stop : Char) (s : Str) : Option (Str × Str × Str) :=
  let w := s.takeWhile wsChar
  let u := s.dropWhile wsChar
  match splitAtChar stop u with
  | none => none
  | some (t, u') =>
    if _ht : t = [] then
      match w.getLast? with
      | some lc => some (w.dropLast, [lc], u')
      | none => none
    else some (w, t, u')

theorem scanPart_spec {stop : Char} {s w t u' : Str}
    (h : scanPart stop s = some (w, t, u')) :
    s = w ++ t ++ stop :: u' ∧ t ≠ [] := by
  simp only [scanPart] at h
  cases hs : splitAtChar stop (s.dropWhile wsChar) with
  | none => rw [hs] at h; simp at h
  | some p =>
    obtain ⟨pt, pu⟩ := p
    rw [hs] at h
    simp only at h
    have hdec : s = s.takeWhile wsChar ++ (pt ++ stop :: pu) := by
      conv_lhs => rw [← List.takeWhile_append_dropWhile (p := wsChar) (l := s)]
      rw [@splitAtChar_spec stop (s.dropWhile wsChar) pt pu (by rw [hs])]
    by_cases ht : pt = []
    · rw [dif_pos ht] at h
      cases hl : (s.takeWhile wsChar).getLast? with
      | none => rw [hl] at h; simp at h
      | some lc =>
        rw [hl] at h
        injection h with h
        injection h with h1 h
        injection h with h2 h3
        have hlast : (s.takeWhile wsChar).dropLast ++ [lc] = s.takeWhile wsChar := by
          have hne : s.takeWhile wsChar ≠ [] := by
            intro hq
            rw [hq] at hl
            simp at hl
          have hgl : (s.takeWhile wsChar).getLast hne = lc := by
            rw [List.getLast?_eq_getLast _ hne] at hl
            exact Option.some.inj hl
          rw [← hgl]
          exact List.dropLast_append_getLast hne
        refine ⟨?_, by rw [← h2]; simp⟩
        rw [← h1, ← h2, ← h3]
        conv_lhs => rw [hdec, ht, ← hlast]
        simp
    · rw [dif_neg ht] at h
      injection h with h
      injection h with h1 h
      injection h with h2 h3
      refine ⟨?_, by rw [← h2]; exact ht⟩
      rw [← h1, ← h2, ← h3]
      conv_lhs => rw [hdec]
      simp

/-- One match of the ternary pattern `\(([^?]+)\s*\?\s*([^:]+)\s*:\s*([^)]+)\)`
located in the scanned text. -/
structure TernMatch where
  start : Nat
  full : Str
  cond : Str
  tb : Str
  fb : Str
deriving Repr

/-- Attempt the ternary pattern at the head of the input; on success return
the whole matched text, the three captures, and the input remaining after the
match. -/
def tryTernaryAt (s : Str) : Option (Str × Str × Str × Str × Str) :=
  match s with
  | [] => none
  | c :: rest =>
    if c = '(' then
      match splitAtChar '?' rest with
      | none => none
      | some (cnd, r1) =>
        if cnd = [] then none
        else
          match scanPart ':' r1 with
          | none => none
          | some (w1, tb, r2) =>
            match scanPart ')' r2 with
            | none => none
            | some (w2, fb, r3) =>
              some ('(' :: (cnd ++ '?' :: (w1 ++ (tb ++ ':' :: (w2 ++ (fb ++ [')']))))),
                cnd, tb, fb, r3)
    else none

theorem tryTernaryAt_spec {s full cnd tb fb r3 : Str}
    (h : tryTernaryAt s = some (full, cnd, tb, fb, r3)) :
    s = full ++ r3 ∧ tb.length + 4 ≤ full.length ∧ fb.length + 4 ≤ full.length := by
  cases s with
  | nil => simp [tryTernaryAt] at h
  | cons c rest =>
    by_cases hc : c = '('
    · simp only [tryTernaryAt, hc, if_pos rfl] at h
      cases h1 : splitAtChar '?' rest with
      | none => rw [h1] at h; simp at h
      | some p1 =>
        obtain ⟨cnd1, r1⟩ := p1
        rw [h1] at h
        simp only at h
        by_cases hcne : cnd1 = []
        · rw [if_pos hcne] at h; simp at h
        · rw [if_neg hcne] at h
          cases h2 : scanPart ':' r1 with
          | none => rw [h2] at h; simp at h
          | some q1 =>
            obtain ⟨w1, tb1, r2⟩ := q1
            rw [h2] at h
            simp only at h
            cases h3 : scanPart ')' r2 with
            | none => rw [h3] at h; simp at h
            | some q2 =>
              obtain ⟨w2, fb1, r3x⟩ := q2
              rw [h3] at h
              simp only at h
              injection h with h
              injection h with hf h
              injection h with hcnd h
              injection h with htb h
              injection h with hfb hr
              have e1 := @splitAtChar_spec '?' rest cnd1 r1 (by rw [h1])
              have e2 := @scanPart_spec ':' r1 w1 tb1 r2 (by rw [h2])
              have e3 := @scanPart_spec ')' r2 w2 fb1 r3x (by rw [h3])
              have hcl : 1 ≤ cnd1.length := by
                cases hp : cnd1 with
                | nil => exact absurd hp hcne
                | cons a b => simp
              have htl : 1 ≤ tb1.length := by
                cases hp : tb1 with
                | nil => exact absurd hp e2.2
                | cons a b => simp
              have hfl : 1 ≤ fb1.length := by
                cases hp : fb1 with
                | nil => exact absurd hp e3.2
                | cons a b => simp
              refine ⟨?_, ?_, ?_⟩
              · subst hc
                rw [← hf, ← hr, e1, e2.1, e3.1]
                simp
              · rw [← hf, ← htb]
                simp only [List.length_cons, List.length_append]
                omega
              · rw [← hf, ← hfb]
                simp only [List.length_cons, List.length_append]
                omega
    · simp [tryTernaryAt, hc] at h

/-- Scan for the leftmost ternary match beginning at or after the current
absolute index `j` (the suffix argument is the text from `j` on). -/
def goTern : Str → Nat → Option TernMatch
  | [], _ => none
  | c :: cs, j =>
    match tryTernaryAt (c :: cs) with
    | some (full, cnd, tb, fb, _) => some ⟨j, full, cnd, tb, fb⟩
    | none => goTern cs (j + 1)

/-- Model of `RegExp.prototype.exec` for the ternary pattern with `lastIndex`
set to `i`: the leftmost match starting at index `i` or later. -/
def findTernaryFrom (cs : Str) (i : Nat) : Option TernMatch :=
  goTern (cs.drop i) i

theorem goTern_spec {t : Str} {j : Nat} {m : TernMatch}
    (h : goTern t j = some m) :
    ∃ pre post, t = pre ++ m.full ++ post ∧ pre.length + j = m.start ∧
      m.tb.length + 4 ≤ m.full.length ∧ m.fb.length + 4 ≤ m.full.length := by
  induction t generalizing j with
  | nil => simp [goTern] at h
  | cons c cs ih =>
    rw [goTern] at h
    cases ht : tryTernaryAt (c :: cs) with
    | some r =>
      rw [ht] at h
      simp only [Option.some.injEq] at h
      obtain ⟨hs, hb1, hb2⟩ :=
        @tryTernaryAt_spec (c :: cs) r.1 r.2.1 r.2.2.1 r.2.2.2.1 r.2.2.2.2 (by rw [ht])
      subst h
      exact ⟨[], r.2.2.2.2, by simpa using hs, by simp, hb1, hb2⟩
    | none =>
      rw [ht] at h
      obtain ⟨pre, post, hsplit, hlen, hb1, hb2⟩ := ih h
      exact ⟨c :: pre, post, by rw [hsplit]; simp, by simp [List.length_cons]; omega,
        hb1, hb2⟩

theorem findTernaryFrom_spec {cs : Str} {i : Nat} {m : TernMatch}
    (h : findTernaryFrom cs i = some m) :
    ∃ pre post, cs = pre ++ m.full ++ post ∧ pre.length = m.start ∧ i ≤ m.start ∧
      m.tb.length + 4 ≤ m.full.length ∧ m.fb.length + 4 ≤ m.full.length := by
  unfold findTernaryFrom at h
  obtain ⟨pre, post, hsplit, hlen, hb1, hb2⟩ := goTern_spec h
  have hne : cs.drop i ≠ [] := by
    intro he
    rw [he] at h
    simp [goTern] at h
  have hi : i ≤ cs.length := by
    by_contra hgt
    exact hne (List.drop_eq_nil_of_le (by omega))
  refine ⟨cs.take i ++ pre, post, ?_, ?_, by omega, hb1, hb2⟩
  · conv_lhs => rw [← List.take_append_drop i cs]
    rw [hsplit]
    simp
  · simp [List.length_take]
    omega

/-- Model of `String.prototype.replace` with a plain-string pattern: replace
the first occurrence of `needle`, or return the input unchanged if there is
none. -/
def replaceFirst : Str → Str → Str → Str
  | [], needle, repl => if needle.isPrefixOf [] then repl else []
  | c :: cs, needle, repl =>
    if needle.isPrefixOf (c :: cs) then repl ++ (c :: cs).drop needle.length
    else c :: replaceFirst cs needle repl

theorem replaceFirst_length_of_occurs {a needle b repl : Str} :
    (replaceFirst (a ++ needle ++ b) needle repl).length =
      a.length + repl.length + b.length := by
  induction a with
  | nil =>
    simp only [List.nil_append, List.length_nil, Nat.zero_add]
    cases hnb : needle ++ b with
    | nil =>
      have hn : needle = [] := (List.append_eq_nil.mp hnb).1
      have hb : b = [] := (List.append_eq_nil.mp hnb).2
      subst hn
      subst hb
      simp [replaceFirst]
    | cons c cs =>
      rw [replaceFirst, if_pos (show needle.isPrefixOf (c :: cs) = true by
        exact List.isPrefixOf_iff_prefix.mpr ⟨b, hnb⟩)]
      have hd : (c :: cs : Str).drop needle.length = b := by
        have := List.drop_left needle b
        rwa [hnb] at this
      rw [hd]
      simp [List.length_append]
  | cons c a ih =>
    have hshape : ((c :: a) ++ needle ++ b : Str) = c :: (a ++ needle ++ b) := by simp
    rw [hshape, replaceFirst]
    by_cases hp : needle.isPrefixOf (c :: (a ++ needle ++ b)) = true
    · rw [if_pos hp]
      simp only [List.length_append, List.length_cons, List.length_drop]
      omega
    · rw [if_neg hp]
      simp only [List.length_cons, ih]
      omega

/-- Model of `String.prototype.indexOf`: index of the first occurrence of the
needle, `none` standing for the JavaScript result `-1`. -/
def indexOfSub : Str → Str → Option Nat
  | s, needle =>
    if needle.isPrefixOf s then some 0
    else
      match s with
      | [] => none
      | _ :: cs => (indexOfSub cs needle).map (· + 1)

/-- Variant of `indexOfSub` returning the JavaScript `-1` convention. -/
def indexOfInt (s needle : Str) : Int :=
  match indexOfSub s needle with
  | some i => (i : Int)
  | none => -1

/-- Model of `String.prototype.includes`. -/
def containsSub (s needle : Str) : Bool :=
  (indexOfSub s needle).isSome

/-- Source `getLineNumber`, generalized to the integer positions the callers
can produce: `text.substring(0, position).split("\n").length`, where
`substring` clamps a negative position to `0`. -/
def getLineNumber (text : Str) (position : Int) : Nat :=
  ((text.take position.toNat).count '\n') + 1

/-- Model of `String.prototype.split` with a nonempty string separator,
scanning left to right for non-overlapping occurrences.  The first argument
accumulates the current piece in reverse. -/
def splitGo (sep : Str) (acc : Str) : Str → List Str
  | [] => [acc.reverse]
  | c :: cs =>
    if sep.isPrefixOf (c :: cs) then
      acc.reverse :: splitGo sep [] (cs.drop (sep.length - 1))
    else splitGo sep (c :: acc) cs
termination_by s => s.length
decreasing_by
  · simp [List.length_drop]; omega
  · simp [List.length_cons]

/-- Model of `String.prototype.split` on a string separator (the separators
appearing in the source are never empty). -/
def splitOnSub (s sep : Str) : List Str :=
  if sep = [] then [s] else splitGo sep [] s

/-- Match the event-binding pattern `on:[^=]+=\{[^}]+\}` at the head of the
input, returning the number of characters consumed. -/
def matchOnAttrAt (s : Str) : Option Nat :=
  if "on:".data.isPrefixOf s then
    match splitAtChar '=' (s.drop 3) with
    | none => none
    | some (t, r) =>
      if t = [] then none
      else
        match r with
        | '{' :: r2 =>
          match splitAtChar '}' r2 with
          | none => none
          | some (u, _) =>
            if u = [] then none else some (3 + t.length + 2 + u.length + 1)
        | _ => none
  else none

/-- Placeholder text `__PLACEHOLDER_<k>__` substituted for masked
event-binding attributes. -/
def placeholderText (k : Nat) : Str :=
  "__PLACEHOLDER_".data ++ (toString k).data ++ "__".data

/-- Mask every event-binding attribute occurrence with a numbered placeholder
(the `content.replace(tagAttributeRegex, ...)` pass), scanning left to right
and resuming after each replacement. -/
def maskOn : Str → Nat → Str
  | [], _ => []
  | c :: cs, k =>
    match matchOnAttrAt (c :: cs) with
    | some len => placeholderText k ++ maskOn (cs.drop (len - 1)) (k + 1)
    | none => c :: maskOn cs k
termination_by s _ => s.length
decreasing_by
  · simp [List.length_drop]; omega
  · simp [List.length_cons]

/-- All matches of the template pattern `{([^}]+)}` in order, as pairs of the
whole match and the capture. -/
def scanBraces : Str → List (Str × Str)
  | [] => []
  | c :: cs =>
    if c = '{' then
      match h : splitAtChar '}' cs with
      | some (t, rest) =>
        if t = [] then scanBraces cs
        else ('{' :: (t ++ ['}']), t) :: scanBraces rest
      | none => scanBraces cs
    else scanBraces cs
termination_by s => s.length
decreasing_by
  · simp [List.length_cons]
  · have := splitAtChar_spec h
    simp [this, List.length_append]
    omega
  · simp [List.length_cons]
  · simp [List.length_cons]

/-- Separator of the deferred placeholder form. -/
def untilSep : Str := " until ".data

/-- Diagnostic message for an unresolvable fallback expression. -/
def fallbackMsg (fallbackExpr : Str) : Str :=
  "Fallback expression \"".data ++ fallbackExpr ++
    "\" cannot be resolved at compile time".data

/-- Diagnostic message for an unresolvable template expression. -/
def templateMsg (expr : Str) : Str :=
  "Template expression \"".data ++ expr ++
    "\" cannot be resolved at compile time".data

/-- Character offset used for a diagnostic: the first verbatim occurrence of
the matched text in the full source when it can be found there, else the
approximation `fullCode.indexOf(content) + masked.indexOf(fullMatch)` over
the JavaScript `-1` convention. -/
def diagPosition (fullCode content masked fullMatch : Str) : Int :=
  match indexOfSub fullCode fullMatch with
  | some p => (p : Int)
  | none => indexOfInt fullCode content + indexOfInt masked fullMatch

/-- Processing of one `{expr}` match inside `checkTemplateExpressions`: locate
the match text in the original source (falling back to an approximated offset
when the masked rewriting hid it), then validate either the `until` fallback
expression or the whole expression. -/
def processOne (content masked fullCode fullMatch expr : Str)
    (st : CompileState) : CompileState :=
  let line := getLineNumber fullCode (diagPosition fullCode content masked fullMatch)
  if containsSub expr untilSep then
    let parts := (splitOnSub expr untilSep).map trim
    let fallbackExpr := parts.headD []
    if isResolvableAtCompileTime fallbackExpr st then st
    else { st with errors := st.errors ++ [⟨line, fallbackMsg fallbackExpr⟩] }
  else
    if isResolvableAtCompileTime expr st then st
    else { st with errors := st.errors ++ [⟨line, templateMsg expr⟩] }

/-- Source `checkTemplateExpressions`: mask event-binding attributes, then
validate every remaining `{expr}` in order, accumulating diagnostics. -/
def checkTemplateExpressions (content : Str) (st : CompileState)
    (fullCode : Str) : CompileState :=
  let masked := maskOn content 0
  (scanBraces masked).foldl
    (fun acc fm => processOne content masked fullCode fm.1 fm.2 acc) st

/-- Source `evaluateConditionals` while loop over `(result, lastIndex)`: a
boolean condition folds the match to the selected branch and restarts the
scan; any other outcome recursively validates both branches (the source uses
the mutually recursive `checkRenderContent`, whose body — this loop followed
by `checkTemplateExpressions` — is inlined at the two recursive positions) and
resumes after the match.  The non-boolean-value case and the
evaluation-failure case of the source run identical code and are merged into
the catch-all arm. -/
def evalCondLoop (result : Str) (i : Nat) (st : CompileState)
    (fullCode : Str) : Str × CompileState :=
  match hm : findTernaryFrom result i with
  | none => (result, st)
  | some m =>
    match evaluateExpression (trim m.cond) st with
    | some (.bool bv) =>
      evalCondLoop (replaceFirst result m.full (if bv then m.tb else m.fb)) 0
        st fullCode
    | _ =>
      let p1 := evalCondLoop m.tb 0 st fullCode
      let st1 := checkTemplateExpressions p1.1 p1.2 fullCode
      let p2 := evalCondLoop m.fb 0 st1 fullCode
      let st2 := checkTemplateExpressions p2.1 p2.2 fullCode
      evalCondLoop result (m.start + m.full.length) st2 fullCode
termination_by (result.length, result.length - i)
decreasing_by
  · obtain ⟨pre, post, hsplit, hpre, hile, hb1, hb2⟩ := findTernaryFrom_spec hm
    apply Prod.Lex.left
    rw [hsplit, replaceFirst_length_of_occurs]
    have hblen : (if bv then m.tb else m.fb).length + 4 ≤ m.full.length := by
      cases bv <;> simpa
    simp only [List.length_append, dite_eq_ite]
    omega
  · obtain ⟨pre, post, hsplit, hpre, hile, hb1, hb2⟩ := findTernaryFrom_spec hm
    apply Prod.Lex.left
    rw [hsplit]
    simp only [List.length_append]
    omega
  · obtain ⟨pre, post, hsplit, hpre, hile, hb1, hb2⟩ := findTernaryFrom_spec hm
    apply Prod.Lex.left
    rw [hsplit]
    simp only [List.length_append]
    omega
  · obtain ⟨pre, post, hsplit, hpre, hile, hb1, hb2⟩ := findTernaryFrom_spec hm
    apply Prod.Lex.right
    have hlen : m.start + m.full.length ≤ result.length := by
      rw [hsplit]
      simp only [List.length_append]
      omega
    omega

/-- Source `checkRenderContent`: partially evaluate the conditionals, then
validate the template expressions of the processed content. -/
def checkRenderContent (content : Str) (st : CompileState) (fullCode : Str) :
    CompileState :=
  let pr := evalCondLoop content 0 st fullCode
  checkTemplateExpressions pr.1 pr.2 fullCode

theorem length_dropWhileLe (p : Char → Bool) (l : Str) :
    (l.dropWhile p).length ≤ l.length :=
  (List.dropWhile_suffix p).length_le

/-- First attribute-stripping pass of the generator, the global replacement
of `\s+on:[^=]+=\{[^}]+\}` with the empty string: a maximal whitespace run
immediately followed by an event-binding attribute is removed, and scanning
resumes after the match. -/
def stripOn1 : Str → Str
  | [] => []
  | c :: cs =>
    if wsChar c then
      match matchOnAttrAt ((c :: cs).dropWhile wsChar) with
      | some len =>
        stripOn1 (((c :: cs).dropWhile wsChar).drop len)
      | none => c :: stripOn1 cs
    else c :: stripOn1 cs
termination_by s => s.length
decreasing_by
  · have h2 : (c :: cs).dropWhile wsChar = cs.dropWhile wsChar := by
      simp_all [List.dropWhile_cons]
    have h3 : (cs.dropWhile wsChar).length ≤ cs.length :=
      length_dropWhileLe wsChar cs
    simp only [h2, List.length_drop, List.length_cons]
    omega
  · simp [List.length_cons]
  · simp [List.length_cons]

/-- Generation-time ternary folding pass: the single global
`String.prototype.replace` over the ternary pattern with a callback that
evaluates the condition, picks a branch by JavaScript truthiness of the
resulting value, and falls back to the true branch when evaluation throws.
Replacement text is not rescanned (`replace` semantics). -/
def genCondPass (st : CompileState) : Str → Str
  | [] => []
  | c :: cs =>
    match tryTernaryAt (c :: cs) with
    | some (full, cnd, tb, fb, _) =>
      let repl :=
        match evaluateExpression (trim cnd) st with
        | some v => if v.truthy then tb else fb
        | none => tb
      repl ++ genCondPass st (cs.drop (full.length - 1))
    | none => c :: genCondPass st cs
termination_by s => s.length
decreasing_by
  · simp only [List.length_drop, List.length_cons]
    omega
  · simp [List.length_cons]

/-- Substitution value of one `{expr}` placeholder during generation
(the body of the `templateRegex` replace callback): deferred placeholders
prefer the runtime variable when it is initialized with a defined value, then
the fallback expression through `|| ""`, and plain placeholders substitute
their value through `|| ""`. -/
def substValue (st : CompileState) (expr : Str) : Str :=
  if containsSub expr untilSep then
    let parts := (splitOnSub expr untilSep).map trim
    let fallbackExpr := parts.headD []
    let varName := (parts.drop 1).headD []
    match mapGet st.vars (trim varName) with
    | some v =>
      if v.initialized ∧ v.value ≠ .undef then v.value.toStr
      else
        match evaluateExpression fallbackExpr st with
        | some w => if w.truthy then w.toStr else []
        | none => []
    | none =>
      match evaluateExpression fallbackExpr st with
      | some w => if w.truthy then w.toStr else []
      | none => []
  else
    match evaluateExpression expr st with
    | some w => if w.truthy then w.toStr else []
    | none => []

/-- Placeholder substitution pass of the generator: global replacement of
`{([^}]+)}` by `substValue`. -/
def substituteTemplates (st : CompileState) : Str → Str
  | [] => []
  | c :: cs =>
    if c = '{' then
      match h : splitAtChar '}' cs with
      | some (t, rest) =>
        if t = [] then c :: substituteTemplates st cs
        else substValue st t ++ substituteTemplates st rest
      | none => c :: substituteTemplates st cs
    else c :: substituteTemplates st cs
termination_by s => s.length
decreasing_by
  · simp [List.length_cons]
  · have := splitAtChar_spec h
    simp [this, List.length_append]
    omega
  · simp [List.length_cons]
  · simp [List.length_cons]

/-- Attribute-name characters of the second stripping pass (`[a-z0-9_-]` with
the `i` flag). -/
def attrNameChar (c : Char) : Bool :=
  ('a' ≤ c && c ≤ 'z') || ('A' ≤ c && c ≤ 'Z') || isDigit c || c = '_' || c = '-'

/-- Case-insensitive match of the literal `on:` (the second pass regex
carries the `i` flag). -/
def onColonCI (s : Str) : Bool :=
  match s with
  | a :: b :: c :: _ => (a = 'o' || a = 'O') && (b = 'n' || b = 'N') && c = ':'
  | _ => false

/-- Match, after a whitespace run, the tail of the second-pass pattern
`on:[a-z0-9_-]+(=|\s*=\s*)([^>\s]*|"[^"]*"|'[^']*')` (case-insensitive).  The
first alternative of the value group, `[^>\s]*`, always matches (possibly
emptily), so the quoted alternatives are dead and the group is equivalent to
`[^>\s]*`; likewise a bare `=` is consumed by the first alternative of the
equals group without skipping the whitespace that follows it.  Returns the
number of characters consumed. -/
def matchOn2At (s : Str) : Option Nat :=
  if onColonCI s then
    let nm := (s.drop 3).takeWhile attrNameChar
    if nm = [] then none
    else
      let rest := (s.drop 3).drop nm.length
      let eaten :=
        match rest with
        | '=' :: _ => some 1
        | _ =>
          let w1 := (rest.takeWhile wsChar).length
          match rest.drop w1 with
          | '=' :: t2 => some (w1 + 1 + (t2.takeWhile wsChar).length)
          | _ => none
      match eaten with
      | some e =>
        let val := ((rest.drop e).takeWhile (fun c => ¬ (c = '>' || wsChar c)))
        some (3 + nm.length + e + val.length)
      | none => none
  else none

/-- Second attribute-stripping pass of the generator (the defensive global
replacement running after substitution). -/
def stripOn2 : Str → Str
  | [] => []
  | c :: cs =>
    if wsChar c then
      match matchOn2At ((c :: cs).dropWhile wsChar) with
      | some len =>
        stripOn2 (((c :: cs).dropWhile wsChar).drop len)
      | none => c :: stripOn2 cs
    else c :: stripOn2 cs
termination_by s => s.length
decreasing_by
  · have h2 : (c :: cs).dropWhile wsChar = cs.dropWhile wsChar := by
      simp_all [List.dropWhile_cons]
    have h3 : (cs.dropWhile wsChar).length ≤ cs.length :=
      length_dropWhileLe wsChar cs
    simp only [h2, List.length_drop, List.length_cons]
    omega
  · simp [List.length_cons]
  · simp [List.length_cons]

/-- Tokenizer of the pretty-printer, the global match
`/<[^>]+>|[^<>]+/g`: tags from `<` to the next `>` (nonempty inside), and
maximal runs free of angle brackets; characters matching neither alternative
are skipped. -/
def tokenize : Str → List Str
  | [] => []
  | c :: cs =>
    if c = '<' then
      match h : splitAtChar '>' cs with
      | some (t, rest) =>
        if t = [] then tokenize cs
        else ('<' :: (t ++ ['>'])) :: tokenize rest
      | none => tokenize cs
    else if c = '>' then tokenize cs
    else
      let t := (c :: cs).takeWhile (fun x => ¬ (x = '<' || x = '>'))
      t :: tokenize ((c :: cs).drop t.length)
termination_by s => s.length
decreasing_by
  · simp [List.length_cons]
  · have := splitAtChar_spec h
    simp [this, List.length_append]
    omega
  · simp [List.length_cons]
  · simp [List.length_cons]
  · have ht : ((c :: cs).takeWhile (fun x => ¬ (x = '<' || x = '>'))).length ≥ 1 := by
      rw [List.takeWhile_cons]
      split
      · simp
      · simp_all
    simp only [List.length_drop, List.length_cons]
    omega

/-- Emission of one output line at an indent level: `" ".repeat(level * 2)`
throws a `RangeError` for a negative count, modelled by `none`. -/
def emitAt (level : Int) (body : Str) : Option Str :=
  if level < 0 then none
  else some (List.replicate (2 * level.toNat) ' ' ++ body ++ ['\n'])

/-- Tag classification helpers of the pretty-printer. -/
def isClosingTag (t : Str) : Bool := "</".data.isPrefixOf t

/-- Token starts with `<`. -/
def isTagToken (t : Str) : Bool := "<".data.isPrefixOf t

/-- Tags that do not increase the indent: self-closing, declaration, or
processing-instruction tags. -/
def noIndentTag (t : Str) : Bool :=
  "/>".data.isSuffixOf t || "<!".data.isPrefixOf t || "<?".data.isPrefixOf t

/-- Absorption of the text token following an opening tag (`content =
tokens[i+1].trim()`): an empty trimmed content emits nothing, otherwise one
line at the incremented level; `line` is the already-emitted opening line
and `res` the formatting of the remaining tokens. -/
def absorbText (line content : Str) (lvl : Int) (res : Option Str) : Option Str :=
  if content = [] then res.map (line ++ ·)
  else
    match emitAt (lvl + 1) content with
    | none => none
    | some extra => res.map ((line ++ extra) ++ ·)

/-- Emission of a standalone text token (`content = token.trim()`): nothing
when the trimmed content is empty, otherwise one line at the current level,
prepended to the formatting `res` of the remaining tokens. -/
def emitText (content : Str) (lvl : Int) (res : Option Str) : Option Str :=
  if content = [] then res
  else
    match emitAt lvl content with
    | none => none
    | some line => res.map (line ++ ·)

/-- Main loop of the pretty-printer over the token list: closing tags
decrement the indent before emitting, opening tags emit then increment and
absorb an immediately following text token at the deeper level, and text
tokens emit trimmed.  `none` models the `RangeError` thrown by a negative
`repeat` count. -/
def fmtLoop : List Str → Int → Option Str
  | [], _ => some []
  | t :: rest, lvl =>
    if isClosingTag t then
      match emitAt (lvl - 1) t with
      | none => none
      | some line => (fmtLoop rest (lvl - 1)).map (line ++ ·)
    else if isTagToken t then
      match emitAt lvl t with
      | none => none
      | some line =>
        if noIndentTag t then (fmtLoop rest lvl).map (line ++ ·)
        else
          match rest with
          | t2 :: rest2 =>
            if isTagToken t2 then (fmtLoop (t2 :: rest2) (lvl + 1)).map (line ++ ·)
            else absorbText line (trim t2) lvl (fmtLoop rest2 (lvl + 1))
          | [] => (fmtLoop [] (lvl + 1)).map (line ++ ·)
    else emitText (trim t) lvl (fmtLoop rest lvl)
termination_by ts _ => ts.length
decreasing_by
  all_goals simp only [List.length_cons, List.length_nil]
  all_goals omega

/-- Blank-line collapse `replace(/\n\s*\n+/g, "\n")`: a newline followed by a
whitespace run containing another newline is replaced by a single newline up
to the last newline of the run, and scanning resumes there. -/
def collapseBlank : Str → Str
  | [] => []
  | c :: cs =>
    if c = '\n' then
      let w := cs.takeWhile wsChar
      let tn := (w.reverse.takeWhile (· ≠ '\n')).length
      if tn < w.length then '\n' :: collapseBlank (cs.drop (w.length - tn))
      else c :: collapseBlank cs
    else c :: collapseBlank cs
termination_by s => s.length
decreasing_by
  · simp only [List.length_drop, List.length_cons]
    omega
  · simp [List.length_cons]
  · simp [List.length_cons]

/-- Line terminators recognised by the multiline `\x24` anchor: `\n` and
`\r` (both are LineTerminators in JavaScript regular expressions). -/
def nlChar (c : Char) : Bool := c = '\n' || c = '\r'

/-- Trailing-whitespace strip `replace(/\s+\x24/gm, "")` (the dollar anchor
with the `m` flag matches before every line terminator and at the end):
inside each maximal whitespace run the match extends greedily to the run end
when the input ends there, otherwise up to (excluding) the last line
terminator of the run; a run whose only terminator is its first character
admits no match starting at the run head, and scanning then advances into
the run. -/
def stripTrailingWs : Str → Str
  | [] => []
  | c :: cs =>
    if wsChar c then
      if cs.drop (cs.takeWhile wsChar).length = [] then []
      else
        if h : ((c :: cs.takeWhile wsChar).reverse.takeWhile (fun x => !(nlChar x))).length
              < (c :: cs.takeWhile wsChar).length ∧
            1 ≤ (c :: cs.takeWhile wsChar).length -
              ((c :: cs.takeWhile wsChar).reverse.takeWhile (fun x => !(nlChar x))).length
              - 1 then
          stripTrailingWs
            ((c :: cs.takeWhile wsChar).drop
                ((c :: cs.takeWhile wsChar).length -
                  ((c :: cs.takeWhile wsChar).reverse.takeWhile
                    (fun x => !(nlChar x))).length - 1) ++
              cs.drop (cs.takeWhile wsChar).length)
        else c :: stripTrailingWs cs
    else c :: stripTrailingWs cs
termination_by s => s.length
decreasing_by
  · have hw : (cs.takeWhile wsChar).length ≤ cs.length :=
      (List.takeWhile_prefix wsChar).length_le
    obtain ⟨h1, h2⟩ := h
    simp only [List.length_append, List.length_drop, List.length_cons] at *
    omega
  · simp [List.length_cons]
  · simp [List.length_cons]

/-- Source `formatHtml`: tokenize, run the indenting loop from level zero,
then collapse blank lines and strip trailing whitespace.  `none` models the
`RangeError` a negative indent level raises. -/
def formatHtml (html : Str) : Option Str :=
  (fmtLoop (tokenize html) 0).map (fun out => stripTrailingWs (collapseBlank out))

/-- Source `generateHtml`: strip event bindings, fold ternaries leniently,
substitute placeholders, strip again, wrap in a root `div`, and
pretty-print. -/
def generateHtml (renderContent : Str) (st : CompileState) : Option Str :=
  let h1 := stripOn1 renderContent
  let h2 := genCondPass st h1
  let h3 := substituteTemplates st h2
  let h4 := stripOn2 h3
  formatHtml ("<div>".data ++ h4 ++ "</div>".data)

/-- Extraction of the render block, the first match of
`/<render>([\s\S]*?)<\/render>/`: the content between the first `<render>`
and the first `</render>` after it. -/
def extractRender (code : Str) : Option Str :=
  match indexOfSub code "<render>".data with
  | none => none
  | some i =>
    let after := code.drop (i + 8)
    match indexOfSub after "</render>".data with
    | none => none
    | some j => some (after.take j)

/-- Formatting of one diagnostic line of the aggregated failure message. -/
def diagLine (d : Diagnostic) : Str :=
  "Line ".data ++ (toString d.lineNumber).data ++ ": ".data ++ d.message

/-- Aggregated message of the error thrown on a failed validation. -/
def failureMessage (errors : List Diagnostic) : Str :=
  "Template checking failed:\n".data ++
    (List.intercalate "\n".data (errors.map diagLine))

/-- Output path written on success: `join("./out", filename.replace(".remi",
".html"))` (Node's `path.join` normalizes away the leading `./`). -/
def outPath (filename : Str) : Str :=
  "out/".data ++ replaceFirst filename ".remi".data ".html".data

/-- Observable outcome of one `checkTemplates` run: a normal return carrying
the returned text and the optional file write, the `Error` thrown on failed
validation, or the `RangeError` escaping from `formatHtml`. -/
inductive Outcome where
  | ok (returned : Str) (written : Option (Str × Str))
  | checkFailure (message : Str)
  | rangeError
deriving DecidableEq, Repr

/-- Source `checkTemplates`, the top-level entry: extract variables, find the
render block (returning the input unchanged when absent), validate, throw the
aggregated failure when any diagnostic was collected, otherwise generate and
write the HTML output and return the input for piping. -/
def checkTemplates (code filename : Str) : Outcome :=
  let st0 : CompileState := ⟨[], []⟩
  let st1 := parseVariables code st0
  match extractRender code with
  | none => .ok code none
  | some renderContent =>
    let st2 := checkRenderContent renderContent st1 code
    if st2.errors ≠ [] then .checkFailure (failureMessage st2.errors)
    else
      match generateHtml renderContent st2 with
      | some html => .ok code (some (outPath filename, html))
      | none => .rangeError

/-! Structural facts about the validator: no pass ever touches the symbol
table, and diagnostics are only ever appended. -/

theorem processOne_vars (content masked fullCode fullMatch expr : Str)
    (st : CompileState) :
    (processOne content masked fullCode fullMatch expr st).vars = st.vars := by
  simp only [processOne]
  split_ifs <;> rfl

theorem processOne_errors (content masked fullCode fullMatch expr : Str)
    (st : CompileState) :
    ∃ l, (processOne content masked fullCode fullMatch expr st).errors =
      st.errors ++ l := by
  simp only [processOne]
  split_ifs
  all_goals first
    | exact ⟨_, rfl⟩
    | exact ⟨[], by simp⟩

theorem checkTemplateExpressions_vars (content : Str) (st : CompileState)
    (fullCode : Str) :
    (checkTemplateExpressions content st fullCode).vars = st.vars := by
  simp only [checkTemplateExpressions]
  generalize scanBraces (maskOn content 0) = ms
  induction ms generalizing st with
  | nil => rfl
  | cons fm rest ih =>
    simp only [List.foldl_cons]
    rw [ih, processOne_vars]

theorem checkTemplateExpressions_errors (content : Str) (st : CompileState)
    (fullCode : Str) :
    ∃ l, (checkTemplateExpressions content st fullCode).errors =
      st.errors ++ l := by
  simp only [checkTemplateExpressions]
  generalize scanBraces (maskOn content 0) = ms
  induction ms generalizing st with
  | nil => exact ⟨[], by simp⟩
  | cons fm rest ih =>
    simp only [List.foldl_cons]
    obtain ⟨l1, h1⟩ := processOne_errors content (maskOn content 0) fullCode
      fm.1 fm.2 st
    obtain ⟨l2, h2⟩ := ih (processOne content (maskOn content 0) fullCode
      fm.1 fm.2 st)
    exact ⟨l1 ++ l2, by rw [h2, h1, List.append_assoc]⟩

/-! Unfolding equations of the conditional-evaluation loop, phrased by the
outcome of the match search and condition evaluation. -/

theorem evalCondLoop_eq_none {result : Str} {i : Nat} {st : CompileState}
    {fullCode : Str} (h : findTernaryFrom result i = none) :
    evalCondLoop result i st fullCode = (result, st) := by
  rw [evalCondLoop]
  split
  · rfl
  · next m hm => rw [h] at hm; exact absurd hm (by simp)

theorem evalCondLoop_eq_bool {result : Str} {i : Nat} {st : CompileState}
    {fullCode : Str} {m : TernMatch} {bv : Bool}
    (h : findTernaryFrom result i = some m)
    (hb : evaluateExpression (trim m.cond) st = some (.bool bv)) :
    evalCondLoop result i st fullCode =
      evalCondLoop (replaceFirst result m.full (if bv then m.tb else m.fb)) 0
        st fullCode := by
  rw [evalCondLoop]
  split
  · next hm => rw [h] at hm; exact absurd hm (by simp)
  · next m' hm =>
    rw [h] at hm
    obtain rfl : m' = m := by simpa using hm.symm
    split
    · next bv' hb' =>
      rw [hb] at hb'
      obtain rfl : bv' = bv := by simpa using hb'.symm
      simp
    · next hother =>
      exact absurd hb (hother bv)

theorem evalCondLoop_eq_other {result : Str} {i : Nat} {st : CompileState}
    {fullCode : Str} {m : TernMatch}
    (h : findTernaryFrom result i = some m)
    (hnb : ∀ bv : Bool, evaluateExpression (trim m.cond) st ≠ some (.bool bv)) :
    evalCondLoop result i st fullCode =
      evalCondLoop result (m.start + m.full.length)
        (checkTemplateExpressions
          (evalCondLoop m.fb 0
            (checkTemplateExpressions (evalCondLoop m.tb 0 st fullCode).1
              (evalCondLoop m.tb 0 st fullCode).2 fullCode) fullCode).1
          (evalCondLoop m.fb 0
            (checkTemplateExpressions (evalCondLoop m.tb 0 st fullCode).1
              (evalCondLoop m.tb 0 st fullCode).2 fullCode) fullCode).2
          fullCode) fullCode := by
  rw [evalCondLoop]
  split
  · next hm => rw [h] at hm; exact absurd hm (by simp)
  · next m' hm =>
    rw [h] at hm
    obtain rfl : m' = m := by simpa using hm.symm
    split
    · next bv' hb' => exact absurd hb' (hnb bv')
    · rfl

theorem appendChainFive {A : Type} {e0 e1 e2 e3 e4 e5 : List A}
    {l1 l2 l3 l4 l5 : List A}
    (h5 : e5 = e4 ++ l5) (h4 : e4 = e3 ++ l4) (h3 : e3 = e2 ++ l3)
    (h2 : e2 = e1 ++ l2) (h1 : e1 = e0 ++ l1) :
    e5 = e0 ++ (l1 ++ (l2 ++ (l3 ++ (l4 ++ l5)))) := by
  subst h5 h4 h3 h2 h1
  simp [List.append_assoc]

theorem evalCondLoop_vars (result : Str) (i : Nat) (st : CompileState)
    (fullCode : Str) :
    (evalCondLoop result i st fullCode).2.vars = st.vars := by
  induction result, i, st, fullCode using evalCondLoop.induct with
  | case1 result i st fullCode hm =>
    rw [evalCondLoop_eq_none hm]
  | case2 result i st fullCode m hm bv hbv ih =>
    rw [evalCondLoop_eq_bool hm hbv]
    simpa [dite_eq_ite] using ih
  | case3 result i st fullCode m hm p1 st1 p2 st2 hnb ihtb ihfb ihfb2 ihcont =>
    rw [evalCondLoop_eq_other hm (fun bv hb => hnb bv hb)]
    exact ihcont.trans ((checkTemplateExpressions_vars _ _ _).trans
      (ihfb.trans ((checkTemplateExpressions_vars _ _ _).trans ihtb)))

theorem evalCondLoop_errors (result : Str) (i : Nat) (st : CompileState)
    (fullCode : Str) :
    ∃ l, (evalCondLoop result i st fullCode).2.errors = st.errors ++ l := by
  induction result, i, st, fullCode using evalCondLoop.induct with
  | case1 result i st fullCode hm =>
    rw [evalCondLoop_eq_none hm]
    exact ⟨[], by simp⟩
  | case2 result i st fullCode m hm bv hbv ih =>
    rw [evalCondLoop_eq_bool hm hbv]
    simpa [dite_eq_ite] using ih
  | case3 result i st fullCode m hm p1 st1 p2 st2 hnb ihtb ihfb ihfb2 ihcont =>
    rw [evalCondLoop_eq_other hm (fun bv hb => hnb bv hb)]
    obtain ⟨l1, e1⟩ := ihtb
    obtain ⟨l2, e2⟩ := checkTemplateExpressions_errors p1.1 p1.2 fullCode
    obtain ⟨l3, e3⟩ := ihfb
    obtain ⟨l4, e4⟩ := checkTemplateExpressions_errors p2.1 p2.2 fullCode
    obtain ⟨l5, e5⟩ := ihcont
    exact ⟨l1 ++ (l2 ++ (l3 ++ (l4 ++ l5))), appendChainFive e5 e4 e3 e2 e1⟩

theorem checkRenderContent_vars (content : Str) (st : CompileState)
    (fullCode : Str) :
    (checkRenderContent content st fullCode).vars = st.vars := by
  unfold checkRenderContent
  rw [checkTemplateExpressions_vars, evalCondLoop_vars]

theorem checkRenderContent_errors (content : Str) (st : CompileState)
    (fullCode : Str) :
    ∃ l, (checkRenderContent content st fullCode).errors = st.errors ++ l := by
  unfold checkRenderContent
  obtain ⟨l1, h1⟩ := evalCondLoop_errors content 0 st fullCode
  obtain ⟨l2, h2⟩ := checkTemplateExpressions_errors
    (evalCondLoop content 0 st fullCode).1 (evalCondLoop content 0 st fullCode).2
    fullCode
  exact ⟨l1 ++ l2, by rw [h2, h1, List.append_assoc]⟩

/-! Symbol-table lookup after the extraction fold. -/

theorem mapGet_mapSet_self (m : List (Str × Variable)) (k : Str) (v : Variable) :
    mapGet (mapSet m k v) k = some v := by
  induction m with
  | nil => simp [mapSet, mapGet]
  | cons kv rest ih =>
    obtain ⟨k', v'⟩ := kv
    by_cases h : k' = k
    · simp [mapSet, mapGet, h]
    · simp [mapSet, mapGet, h, ih]

theorem mapGet_mapSet_ne (m : List (Str × Variable)) (k : Str) (v : Variable)
    (k' : Str) (h : k' ≠ k) : mapGet (mapSet m k v) k' = mapGet m k' := by
  induction m with
  | nil =>
    simp only [mapSet, mapGet]
    rw [if_neg (fun hc => h hc.symm)]
  | cons kv rest ih =>
    obtain ⟨k0, v0⟩ := kv
    by_cases h0 : k0 = k
    · subst h0
      simp only [mapSet, if_pos rfl, mapGet]
      rw [if_neg (fun hc => h hc.symm), if_neg (fun hc => h hc.symm)]
    · by_cases h1 : k0 = k'
      · simp [mapSet, mapGet, h0, h1, h]
      · simp [mapSet, mapGet, h0, h1, h, ih]

theorem foldl_mapSet_lookup (ds : List VarDecl)
    (m0 : List (Str × Variable)) (n : Str) :
    mapGet (ds.foldl (fun m d => mapSet m d.name (mkVariable d)) m0) n =
      match (ds.filter (fun d => d.name = n)).getLast? with
      | some d => some (mkVariable d)
      | none => mapGet m0 n := by
  induction ds generalizing m0 with
  | nil => simp
  | cons d ds ih =>
    simp only [List.foldl_cons]
    rw [ih]
    by_cases hd : d.name = n
    · have hcons : (d :: ds).filter (fun x => x.name = n) =
          d :: ds.filter (fun x => x.name = n) := by
        simp [List.filter_cons, hd]
      rw [hcons]
      cases hq : ds.filter (fun x => x.name = n) with
      | nil =>
        subst hd
        show mapGet (mapSet m0 d.name (mkVariable d)) d.name = some (mkVariable d)
        exact mapGet_mapSet_self m0 d.name (mkVariable d)
      | cons a b =>
        rw [show ((d :: a :: b : List VarDecl).getLast? = (a :: b).getLast?) from rfl]
        cases hgl : (a :: b : List VarDecl).getLast? with
        | none =>
          have := List.getLast?_eq_none_iff.mp hgl
          simp at this
        | some x => rfl
    · have hcons : (d :: ds).filter (fun x => x.name = n) =
          ds.filter (fun x => x.name = n) := by
        simp [List.filter_cons, hd]
      rw [hcons]
      cases hl : (ds.filter (fun x => x.name = n)).getLast? with
      | some d' => rfl
      | none =>
        show mapGet (mapSet m0 d.name (mkVariable d)) n = mapGet m0 n
        exact mapGet_mapSet_ne m0 d.name (mkVariable d) n (fun hc => hd hc.symm)

/-- Characterization of an initialized extractor entry: the initializer was
present and its evaluation returned a value. -/
theorem mkVariable_initialized {d : VarDecl}
    (h : (mkVariable d).initialized = true) :
    ∃ s w, d.init = some s ∧ jsEval s = some w ∧
      mkVariable d = ⟨d.type, w, true⟩ := by
  obtain ⟨ty, dk, nm, ini⟩ := d
  cases ini with
  | none => simp [mkVariable] at h
  | some sInit =>
    cases hev : jsEval sInit with
    | none => simp [mkVariable, hev] at h
    | some w => exact ⟨sInit, w, rfl, hev, by simp [mkVariable, hev]⟩

/-! ## Claims -/

/-- C8: for every source text containing no `<render>...</render>` block,
`checkTemplates` returns the input text unchanged, accumulates zero
diagnostics, and writes no output file. -/
theorem claim_C8 (code filename : Str) (h : extractRender code = none) :
    checkTemplates code filename = .ok code none ∧
    (parseVariables code ⟨[], []⟩).errors = [] := by
  constructor
  · simp only [checkTemplates, h]
  · rfl

theorem claim_C8_witness :
    extractRender "hello world".data = none ∧
    checkTemplates "hello world".data "f.remi".data = .ok "hello world".data none ∧
    (parseVariables "hello world".data ⟨[], []⟩).errors = [] := by
  have hext : extractRender "hello world".data = none := by decide
  exact ⟨hext, (claim_C8 "hello world".data "f.remi".data hext).1,
    (claim_C8 "hello world".data "f.remi".data hext).2⟩

/-- C1: validation never aborts early and failure is all-or-nothing: for a
source unit with a render block, the diagnostics of the whole
`checkRenderContent` run are aggregated, and whenever at least one was
collected the run raises a single combined failure whose message joins one
line per diagnostic, with no markup generated and no file written (the
`checkFailure` outcome carries no write); moreover every pass only appends
diagnostics, never discarding ones already collected. -/
theorem claim_C1 (code filename rc : Str) (hrc : extractRender code = some rc)
    (hne : (checkRenderContent rc (parseVariables code ⟨[], []⟩) code).errors ≠ []) :
    checkTemplates code filename = .checkFailure
      ("Template checking failed:\n".data ++ List.intercalate "\n".data
        ((checkRenderContent rc (parseVariables code ⟨[], []⟩) code).errors.map
          diagLine)) ∧
    (∀ ret w, checkTemplates code filename ≠ .ok ret w) ∧
    (∀ st : CompileState, ∃ l,
      (checkRenderContent rc st code).errors = st.errors ++ l) := by
  have heq : checkTemplates code filename = .checkFailure
      (failureMessage (checkRenderContent rc (parseVariables code ⟨[], []⟩)
        code).errors) := by
    simp only [checkTemplates, hrc]
    rw [if_pos hne]
  refine ⟨heq, ?_, fun st => checkRenderContent_errors rc st code⟩
  intro ret w hc
  rw [heq] at hc
  exact Outcome.noConfusion hc

unseal scanVarDecls splitGo maskOn scanBraces evalCondLoop in
theorem claim_C1_witness :
    extractRender "@client let x;\n<render>{x} and {y}</render>".data =
      some "{x} and {y}".data ∧
    (checkRenderContent "{x} and {y}".data
      (parseVariables "@client let x;\n<render>{x} and {y}</render>".data
        ⟨[], []⟩) "@client let x;\n<render>{x} and {y}</render>".data).errors ≠ [] ∧
    checkTemplates "@client let x;\n<render>{x} and {y}</render>".data
      "f.remi".data = .checkFailure
      ("Template checking failed:\n".data ++ List.intercalate "\n".data
        ((checkRenderContent "{x} and {y}".data
          (parseVariables "@client let x;\n<render>{x} and {y}</render>".data
            ⟨[], []⟩)
          "@client let x;\n<render>{x} and {y}</render>".data).errors.map
          diagLine)) := by
  have h1 : extractRender "@client let x;\n<render>{x} and {y}</render>".data =
      some "{x} and {y}".data := by decide
  have h2 : (checkRenderContent "{x} and {y}".data
      (parseVariables "@client let x;\n<render>{x} and {y}</render>".data
        ⟨[], []⟩) "@client let x;\n<render>{x} and {y}</render>".data).errors ≠ [] := by
    decide
  exact ⟨h1, h2, (claim_C1 _ "f.remi".data _ h1 h2).1⟩

unseal scanVarDecls in
/-- C4 counterexample: the initializer `undefined` evaluates without a throw,
so the extractor records `initialized = true` with an undefined value,
refuting the claimed invariant that `initialized = true` implies a defined
value. -/
theorem claim_C4_counterexample :
    ¬ (∀ (n : Str) (v : Variable),
        mapGet (parseVariables "@client const x = undefined".data
          ⟨[], []⟩).vars n = some v →
        v.initialized = true → v.value ≠ .undef) := by
  intro hall
  exact hall "x".data ⟨.client, .undef, true⟩ (by decide) rfl rfl

/-- C4 (amended): `initialized = true` implies the declaration carried an
initializer whose evaluation did not throw — but the evaluated value may
itself be `undefined`; downstream, `evaluateExpression` reads a variable
value only when it is both initialized and defined. -/
theorem claim_C4_amended (code n : Str) (v : Variable)
    (h : mapGet (parseVariables code ⟨[], []⟩).vars n = some v)
    (hi : v.initialized = true) :
    (∃ d ∈ scanVarDecls code, ∃ s w, d.init = some s ∧ jsEval s = some w ∧
      v = ⟨d.type, w, true⟩) ∧
    (∀ (expr : Str) (st : CompileState) (w : JsValue), jsEval expr = none →
      evaluateExpression expr st = some w →
      ∃ u, mapGet st.vars (trim expr) = some u ∧ u.initialized = true ∧
        u.value ≠ .undef ∧ w = u.value) := by
  constructor
  · have hfold := foldl_mapSet_lookup (scanVarDecls code) [] n
    have h' : mapGet ((scanVarDecls code).foldl
        (fun m d => mapSet m d.name (mkVariable d)) []) n = some v := h
    rw [hfold] at h'
    cases hl : ((scanVarDecls code).filter (fun d => d.name = n)).getLast? with
    | none => rw [hl] at h'; simp [mapGet] at h'
    | some d =>
      rw [hl] at h'
      have hmem : d ∈ scanVarDecls code := by
        exact List.mem_of_mem_filter (List.mem_of_mem_getLast? hl)
      have hv : mkVariable d = v := by simpa using h'
      refine ⟨d, hmem, ?_⟩
      obtain ⟨sInit, w, hinit, hev, hform⟩ :=
        mkVariable_initialized (d := d) (by rw [hv]; exact hi)
      exact ⟨sInit, w, hinit, hev, by rw [← hv, hform]⟩
  · intro expr st w hje hev
    unfold evaluateExpression at hev
    rw [hje] at hev
    cases hmg : mapGet st.vars (trim expr) with
    | none => rw [hmg] at hev; simp at hev
    | some u =>
      rw [hmg] at hev
      replace hev : (if u.initialized = true ∧ u.value ≠ JsValue.undef then
          some u.value else none) = some w := hev
      by_cases hcond : u.initialized = true ∧ u.value ≠ JsValue.undef
      · rw [if_pos hcond] at hev
        exact ⟨u, rfl, hcond.1, hcond.2, by simpa using hev.symm⟩
      · rw [if_neg hcond] at hev
        simp at hev

unseal scanVarDecls in
theorem claim_C4_amended_witness :
    (∃ d ∈ scanVarDecls "@client const x = 5".data, ∃ s w, d.init = some s ∧
      jsEval s = some w ∧
      (⟨VarKind.client, JsValue.num 5, true⟩ : Variable) = ⟨d.type, w, true⟩) ∧
    (∀ (expr : Str) (st : CompileState) (w : JsValue), jsEval expr = none →
      evaluateExpression expr st = some w →
      ∃ u, mapGet st.vars (trim expr) = some u ∧ u.initialized = true ∧
        u.value ≠ .undef ∧ w = u.value) :=
  claim_C4_amended "@client const x = 5".data "x".data
    ⟨VarKind.client, JsValue.num 5, true⟩ (by decide) rfl

/-- C7: variable extraction — a declaration whose initializer evaluates
without error yields an entry with `initialized = true` and the evaluated
value; the symbol table maps each name to the entry of the last declaration
of that name in source order, completely overwriting earlier ones; a failing
initializer leaves the entry uninitialized and produces no diagnostic. -/
theorem claim_C7 (code n : Str) (st : CompileState) :
    (∀ (d : VarDecl) (s : Str) (w : JsValue), d.init = some s →
      jsEval s = some w → mkVariable d = ⟨d.type, w, true⟩) ∧
    (∀ (d : VarDecl) (s : Str), d.init = some s → jsEval s = none →
      mkVariable d = ⟨d.type, .undef, false⟩) ∧
    (parseVariables code st).errors = st.errors ∧
    (mapGet (parseVariables code st).vars n =
      match ((scanVarDecls code).filter (fun d => d.name = n)).getLast? with
      | some d => some (mkVariable d)
      | none => mapGet st.vars n) := by
  refine ⟨?_, ?_, rfl, ?_⟩
  · intro d s w hs hw
    unfold mkVariable
    rw [hs]
    simp [hw]
  · intro d s hs hw
    unfold mkVariable
    rw [hs]
    simp [hw]
  · exact foldl_mapSet_lookup (scanVarDecls code) st.vars n

unseal scanVarDecls in
theorem claim_C7_witness :
    mapGet (parseVariables
      "@client const a = 1;\n@server let a = 2;\n@public let b = nope;".data
      ⟨[], []⟩).vars "a".data = some ⟨VarKind.server, JsValue.num 2, true⟩ ∧
    mapGet (parseVariables
      "@client const a = 1;\n@server let a = 2;\n@public let b = nope;".data
      ⟨[], []⟩).vars "b".data = some ⟨VarKind.pub, JsValue.undef, false⟩ ∧
    (parseVariables
      "@client const a = 1;\n@server let a = 2;\n@public let b = nope;".data
      ⟨[], []⟩).errors = [] := by
  have h := claim_C7
    "@client const a = 1;\n@server let a = 2;\n@public let b = nope;".data
    "a".data ⟨[], []⟩
  refine ⟨?_, ?_, h.2.2.1⟩
  · rw [h.2.2.2]
    decide
  · rw [(claim_C7
      "@client const a = 1;\n@server let a = 2;\n@public let b = nope;".data
      "b".data ⟨[], []⟩).2.2.2]
    decide

/-! Computation lemmas for cleanly delimited matches, used to state the
claims about single-construct contents in full generality. -/

theorem splitAtChar_append {x : Char} {pre post : Str} (h : x ∉ pre) :
    splitAtChar x (pre ++ x :: post) = some (pre, post) := by
  induction pre with
  | nil => simp [splitAtChar]
  | cons c cs ih =>
    have hcx : c ≠ x := by
      intro hc
      exact h (by simp [hc])
    have hstep : ((c :: cs : Str) ++ x :: post) = c :: (cs ++ x :: post) := rfl
    rw [hstep, splitAtChar, if_neg hcx, ih (by intro hm; exact h (by simp [hm]))]
    rfl

theorem scanPart_clean {x : Char} {a rest : Str} (ha : a ≠ []) (hx : x ∉ a)
    (hw : wsChar (a.headD ' ') = false) :
    scanPart x (a ++ x :: rest) = some ([], a, rest) := by
  cases a with
  | nil => exact absurd rfl ha
  | cons hd tl =>
    have hhd : wsChar hd = false := by simpa using hw
    have htw : ((hd :: tl : Str) ++ x :: rest).takeWhile wsChar = [] := by
      simp [List.takeWhile_cons, hhd]
    have hdw : ((hd :: tl : Str) ++ x :: rest).dropWhile wsChar =
        (hd :: tl : Str) ++ x :: rest := by
      simp [List.dropWhile_cons, hhd]
    simp only [scanPart, htw, hdw]
    rw [splitAtChar_append hx]
    simp

theorem tryTernaryAt_clean {c a b post : Str}
    (hc : c ≠ []) (hcq : '?' ∉ c)
    (ha : a ≠ []) (hac : ':' ∉ a) (haw : wsChar (a.headD ' ') = false)
    (hb : b ≠ []) (hbp : ')' ∉ b) (hbw : wsChar (b.headD ' ') = false) :
    tryTernaryAt ('(' :: (c ++ '?' :: (a ++ ':' :: (b ++ ')' :: post)))) =
      some ('(' :: (c ++ '?' :: (a ++ ':' :: (b ++ [')']))), c, a, b, post) := by
  simp only [tryTernaryAt, if_pos rfl]
  rw [splitAtChar_append hcq]
  simp only [if_neg hc]
  rw [show (a ++ ':' :: (b ++ ')' :: post) : Str) = a ++ ':' :: (b ++ ')' :: post)
    from rfl]
  rw [scanPart_clean ha hac haw]
  simp only []
  rw [scanPart_clean hb hbp hbw]
  simp

/-- The whole matched ternary text for cleanly delimited captures. -/
def ternFull (c a b : Str) : Str :=
  '(' :: (c ++ '?' :: (a ++ ':' :: (b ++ [')'])))

theorem findTernaryFrom_clean {c a b post : Str}
    (hc : c ≠ []) (hcq : '?' ∉ c)
    (ha : a ≠ []) (hac : ':' ∉ a) (haw : wsChar (a.headD ' ') = false)
    (hb : b ≠ []) (hbp : ')' ∉ b) (hbw : wsChar (b.headD ' ') = false) :
    findTernaryFrom ('(' :: (c ++ '?' :: (a ++ ':' :: (b ++ ')' :: post)))) 0 =
      some ⟨0, ternFull c a b, c, a, b⟩ := by
  unfold findTernaryFrom
  rw [List.drop_zero, goTern, tryTernaryAt_clean hc hcq ha hac haw hb hbp hbw]
  rfl

theorem replaceFirst_self (s r : Str) : replaceFirst s s r = r := by
  cases s with
  | nil => simp [replaceFirst, List.isPrefixOf]
  | cons x xs =>
    rw [replaceFirst, if_pos (List.isPrefixOf_iff_prefix.mpr (by simp))]
    simp

theorem ternFull_length (c a b : Str) :
    (ternFull c a b).length = c.length + a.length + b.length + 4 := by
  simp [ternFull, List.length_append]
  omega

unseal genCondPass in
/-- C2 counterexample: the condition `0` evaluates to the non-boolean value
`0`, which cannot be resolved to a boolean, yet the generator substitutes the
false branch `b`, not the true branch `a` the claim requires (the callback
applies JavaScript truthiness to the evaluated value; only an evaluation
throw defaults to the true branch). -/
theorem claim_C2_counterexample :
    evaluateExpression "0".data ⟨[], []⟩ = some (.num 0) ∧
    (JsValue.num 0).isBool = false ∧
    tryTernaryAt "(0?a:b)".data =
      some ("(0?a:b)".data, "0".data, "a".data, "b".data, []) ∧
    genCondPass ⟨[], []⟩ "(0?a:b)".data = "b".data ∧
    "b".data ≠ "a".data := by
  refine ⟨rfl, rfl, by decide, by decide, by decide⟩

/-- C2 (amended): during HTML generation, a ternary whose condition fails to
evaluate is folded to the true branch; a ternary whose condition evaluates to
any value — boolean or not — is folded by JavaScript truthiness of that
value, so a resolvable non-boolean falsy condition (such as `0`) selects the
false branch. -/
theorem claim_C2_amended (st : CompileState) (c a b post : Str)
    (hc : c ≠ []) (hcq : '?' ∉ c)
    (ha : a ≠ []) (hac : ':' ∉ a) (haw : wsChar (a.headD ' ') = false)
    (hb : b ≠ []) (hbp : ')' ∉ b) (hbw : wsChar (b.headD ' ') = false) :
    genCondPass st ('(' :: (c ++ '?' :: (a ++ ':' :: (b ++ ')' :: post)))) =
      (match evaluateExpression (trim c) st with
       | some v => if v.truthy then a else b
       | none => a) ++ genCondPass st post := by
  rw [genCondPass]
  rw [tryTernaryAt_clean hc hcq ha hac haw hb hbp hbw]
  simp only []
  have hshape : (c ++ '?' :: (a ++ ':' :: (b ++ ')' :: post)) : Str) =
      (c ++ '?' :: (a ++ ':' :: (b ++ [')']))) ++ post := by
    simp
  have hlen : (('(' :: (c ++ '?' :: (a ++ ':' :: (b ++ [')'])))) : Str).length - 1 =
      ((c ++ '?' :: (a ++ ':' :: (b ++ [')']))) : Str).length := by
    simp [List.length_cons]
  rw [hshape, hlen, List.drop_left]

unseal genCondPass in
theorem claim_C2_amended_witness :
    genCondPass ⟨[], []⟩ "(0?a:b)".data =
      (match evaluateExpression (trim "0".data) ⟨[], []⟩ with
       | some v => if v.truthy then "a".data else "b".data
       | none => "a".data) ++ genCondPass ⟨[], []⟩ [] := by
  exact claim_C2_amended ⟨[], []⟩ "0".data "a".data "b".data []
    (by decide) (by decide) (by decide) (by decide) (by decide)
    (by decide) (by decide) (by decide)

theorem matchOnAttrAt_front {s : Str} {k : Nat} (h : matchOnAttrAt s = some k) :
    "on:".data.isPrefixOf s = true := by
  unfold matchOnAttrAt at h
  by_cases hp : "on:".data.isPrefixOf s = true
  · exact hp
  · rw [if_neg hp] at h
    simp at h

theorem containsSub_cons_false {n : Str} {c : Char} {cs : Str}
    (h : containsSub (c :: cs) n = false) : containsSub cs n = false := by
  unfold containsSub at h ⊢
  rw [indexOfSub] at h
  by_cases hp : n.isPrefixOf (c :: cs) = true
  · rw [if_pos hp] at h
    simp at h
  · rw [if_neg hp] at h
    cases hi : indexOfSub cs n with
    | none => simp
    | some j => rw [hi] at h; simp at h

theorem containsSub_of_isPrefixOf {n s : Str} (h : n.isPrefixOf s = true) :
    containsSub s n = true := by
  unfold containsSub
  cases s with
  | nil => rw [indexOfSub, if_pos h]; rfl
  | cons c cs => rw [indexOfSub, if_pos h]; rfl

/-- Masking is the identity on content free of the `on:` marker. -/
theorem maskOn_id (s : Str) (k : Nat)
    (h : containsSub s "on:".data = false) : maskOn s k = s := by
  induction s generalizing k with
  | nil => rw [maskOn]
  | cons c cs ih =>
    rw [maskOn]
    cases hm : matchOnAttrAt (c :: cs) with
    | some len =>
      have := containsSub_of_isPrefixOf (matchOnAttrAt_front hm)
      rw [this] at h
      exact absurd h (by simp)
    | none =>
      rw [ih k (containsSub_cons_false h)]

theorem scanBraces_clean {e : Str} (post : Str) (he : e ≠ []) (hbr : '}' ∉ e) :
    scanBraces ('{' :: (e ++ '}' :: post)) =
      ('{' :: (e ++ ['}']), e) :: scanBraces post := by
  rw [scanBraces, if_pos rfl]
  split
  · next t rest hsp =>
    rw [splitAtChar_append hbr] at hsp
    obtain ⟨rfl, rfl⟩ : t = e ∧ rest = post := by
      constructor <;> [exact (Prod.mk.injEq .. ▸ Option.some.inj hsp).1.symm;
        exact (Prod.mk.injEq .. ▸ Option.some.inj hsp).2.symm]
    rw [if_neg he]
  · next hsp =>
    rw [splitAtChar_append hbr] at hsp
    exact absurd hsp (by simp)

theorem substituteTemplates_clean (st : CompileState) {e : Str} (post : Str)
    (he : e ≠ []) (hbr : '}' ∉ e) :
    substituteTemplates st ('{' :: (e ++ '}' :: post)) =
      substValue st e ++ substituteTemplates st post := by
  rw [substituteTemplates, if_pos rfl]
  split
  · next t rest hsp =>
    rw [splitAtChar_append hbr] at hsp
    obtain ⟨rfl, rfl⟩ : t = e ∧ rest = post := by
      constructor <;> [exact (Prod.mk.injEq .. ▸ Option.some.inj hsp).1.symm;
        exact (Prod.mk.injEq .. ▸ Option.some.inj hsp).2.symm]
    rw [if_neg he]
  · next hsp =>
    rw [splitAtChar_append hbr] at hsp
    exact absurd hsp (by simp)

unseal substituteTemplates splitGo in
/-- C6 counterexample: the deferred placeholder `{0 until y}` with `y` absent
from the symbol table has the compile-time-resolvable fallback `0`, yet the
generator substitutes the empty string instead of the fallback value `0`,
because the callback passes the evaluated fallback through `|| ""` and `0` is
falsy. -/
theorem claim_C6_counterexample :
    isResolvableAtCompileTime "0".data ⟨[], []⟩ = true ∧
    mapGet (⟨[], []⟩ : CompileState).vars "y".data = none ∧
    substituteTemplates ⟨[], []⟩ "{0 until y}".data = [] ∧
    ([] : Str) ≠ (JsValue.num 0).toStr := by
  refine ⟨by decide, rfl, by decide, by decide⟩

/-- C6 (amended): generation-time placeholder substitution — an `until`-form
is replaced by the deferred variable's raw value when that variable is
initialized with a defined value; else by the fallback expression's evaluated
value when it evaluates **and is truthy**, falsy-but-defined fallback values
(such as `0` or `false`) becoming the empty string exactly like plain
placeholders; else by the empty string.  A plain placeholder is replaced by
its evaluated value when resolvable and truthy, and by the empty string
otherwise. -/
theorem claim_C6_amended (st : CompileState) (e post : Str) (he : e ≠ [])
    (hbr : '}' ∉ e) :
    (substituteTemplates st ('{' :: (e ++ '}' :: post)) =
      substValue st e ++ substituteTemplates st post) ∧
    (∀ (fb vn : Str) (rest : List Str), containsSub e untilSep = true →
      (splitOnSub e untilSep).map trim = fb :: vn :: rest →
      substValue st e =
        match mapGet st.vars (trim vn) with
        | some v =>
          if v.initialized = true ∧ v.value ≠ .undef then v.value.toStr
          else
            match evaluateExpression fb st with
            | some w => if w.truthy then w.toStr else []
            | none => []
        | none =>
          match evaluateExpression fb st with
          | some w => if w.truthy then w.toStr else []
          | none => []) ∧
    (containsSub e untilSep = false →
      substValue st e =
        match evaluateExpression e st with
        | some w => if w.truthy then w.toStr else []
        | none => []) := by
  refine ⟨substituteTemplates_clean st post he hbr, ?_, ?_⟩
  · intro fb vn rest hu hsplit
    simp only [substValue]
    rw [if_pos hu, hsplit]
    rfl
  · intro hu
    simp only [substValue]
    rw [if_neg (by simp [hu])]

unseal substituteTemplates splitGo in
theorem claim_C6_amended_witness :
    substituteTemplates ⟨[], []⟩ "{0 until y}".data =
      substValue ⟨[], []⟩ "0 until y".data ++ substituteTemplates ⟨[], []⟩ [] ∧
    substValue ⟨[], []⟩ "0 until y".data =
      match mapGet (⟨[], []⟩ : CompileState).vars (trim "y".data) with
      | some v =>
        if v.initialized = true ∧ v.value ≠ .undef then v.value.toStr
        else
          match evaluateExpression "0".data ⟨[], []⟩ with
          | some w => if w.truthy then w.toStr else []
          | none => []
      | none =>
        match evaluateExpression "0".data ⟨[], []⟩ with
        | some w => if w.truthy then w.toStr else []
        | none => [] := by
  have h := claim_C6_amended ⟨[], []⟩ "0 until y".data [] (by decide) (by decide)
  exact ⟨h.1, h.2.1 "0".data "y".data [] (by decide) (by decide)⟩

/-- C5: for a placeholder `{fallbackExpr until varName}`, validation emits the
diagnostic `Fallback expression "<fallbackExpr>" cannot be resolved at compile
time` at the expression's computed source line exactly when the fallback is
not compile-time-resolvable; the deferred variable never influences the
outcome, so a resolvable fallback validates with the state unchanged even
when the deferred variable is undeclared or uninitialized. -/
theorem claim_C5 (st : CompileState) (fullCode e fb vn : Str)
    (rest : List Str) (he : e ≠ []) (hbr : '}' ∉ e)
    (hon : containsSub ('{' :: (e ++ ['}'])) "on:".data = false)
    (hu : containsSub e untilSep = true)
    (hsplit : (splitOnSub e untilSep).map trim = fb :: vn :: rest) :
    checkTemplateExpressions ('{' :: (e ++ ['}'])) st fullCode =
      (if isResolvableAtCompileTime fb st then st
       else { st with errors := st.errors ++
         [⟨getLineNumber fullCode
             (diagPosition fullCode ('{' :: (e ++ ['}'])) ('{' :: (e ++ ['}']))
               ('{' :: (e ++ ['}']))), fallbackMsg fb⟩] }) := by
  have hmask : maskOn ('{' :: (e ++ ['}'])) 0 = '{' :: (e ++ ['}']) :=
    maskOn_id _ _ hon
  simp only [checkTemplateExpressions, hmask]
  have hscan : scanBraces ('{' :: (e ++ ['}'])) = [('{' :: (e ++ ['}']), e)] := by
    have h := scanBraces_clean (e := e) ([]) he hbr
    have h0 : scanBraces ([] : Str) = [] := by rw [scanBraces]
    rw [h0] at h
    simpa using h
  rw [hscan]
  simp only [List.foldl_cons, List.foldl_nil]
  simp only [processOne]
  rw [if_pos hu, hsplit]
  rfl

unseal splitGo maskOn scanBraces in
theorem claim_C5_witness :
    checkTemplateExpressions "\x7b\"ok\" until y\x7d".data ⟨[], []⟩
      "\x7b\"ok\" until y\x7d".data =
      (if isResolvableAtCompileTime "\"ok\"".data ⟨[], []⟩ then
        (⟨[], []⟩ : CompileState)
       else { (⟨[], []⟩ : CompileState) with errors :=
         [⟨getLineNumber "\x7b\"ok\" until y\x7d".data
             (diagPosition "\x7b\"ok\" until y\x7d".data "\x7b\"ok\" until y\x7d".data
               "\x7b\"ok\" until y\x7d".data "\x7b\"ok\" until y\x7d".data),
           fallbackMsg "\"ok\"".data⟩] }) ∧
    isResolvableAtCompileTime "\"ok\"".data ⟨[], []⟩ = true := by
  have h := claim_C5 ⟨[], []⟩ "\x7b\"ok\" until y\x7d".data
    "\"ok\" until y".data "\"ok\"".data "y".data [] (by decide) (by decide)
    (by decide) (by decide) (by decide)
  constructor
  · have hshape : ("\x7b\"ok\" until y\x7d".data : Str) =
        '{' :: ("\"ok\" until y".data ++ ['}']) := by decide
    rw [hshape]
    simpa using h
  · decide

theorem indexOfSub_first {s n : Str} {i : Nat} (h : indexOfSub s n = some i) :
    n.isPrefixOf (s.drop i) = true ∧ ∀ j < i, n.isPrefixOf (s.drop j) = false := by
  induction s generalizing i with
  | nil =>
    rw [indexOfSub] at h
    by_cases hp : n.isPrefixOf ([] : Str) = true
    · rw [if_pos hp] at h
      obtain rfl : i = 0 := by simpa using h.symm
      exact ⟨hp, by omega⟩
    · rw [if_neg hp] at h
      simp at h
  | cons c cs ih =>
    rw [indexOfSub] at h
    by_cases hp : n.isPrefixOf (c :: cs) = true
    · rw [if_pos hp] at h
      obtain rfl : i = 0 := by simpa using h.symm
      exact ⟨by simpa using hp, by omega⟩
    · rw [if_neg hp] at h
      cases hsub : indexOfSub cs n with
      | none => rw [hsub] at h; simp at h
      | some i' =>
        rw [hsub] at h
        obtain rfl : i = i' + 1 := by simpa using h.symm
        obtain ⟨hpre, hmin⟩ := ih hsub
        refine ⟨by simpa using hpre, ?_⟩
        intro j hj
        cases j with
        | zero =>
          rw [List.drop_zero]
          exact Bool.eq_false_iff.mpr hp
        | succ j' =>
          have : (c :: cs : Str).drop (j' + 1) = cs.drop j' := by simp
          rw [this]
          exact hmin j' (by omega)

unseal splitGo maskOn scanBraces evalCondLoop in
/-- C10: every diagnostic's line number is computed from the offset of the
first verbatim occurrence of the placeholder text in the full source text —
`indexOf` returns the least occurrence index, every diagnostic appended by
`processOne` carries the line of `diagPosition` (the first occurrence when
the text is found verbatim, else the approximated masked offset) — so with
identical placeholder text occurring twice, the diagnostic triggered by the
second occurrence carries the first occurrence's line number, as the closing
concrete run shows: both `{x}` placeholders of the two-occurrence source sit
on lines 2 and 4, yet both diagnostics carry line 2. -/
theorem claim_C10 :
    (∀ (s n : Str) (i : Nat), indexOfSub s n = some i →
      n.isPrefixOf (s.drop i) = true ∧ ∀ j < i, n.isPrefixOf (s.drop j) = false) ∧
    (∀ (content masked fullCode fm e : Str) (st : CompileState),
      ∃ l, (processOne content masked fullCode fm e st).errors =
          st.errors ++ l ∧
        ∀ d ∈ l, d.lineNumber =
          getLineNumber fullCode (diagPosition fullCode content masked fm)) ∧
    (indexOfSub "<render>a\n{x}\nb\n{x}</render>".data "{x}".data = some 10 ∧
     getLineNumber "<render>a\n{x}\nb\n{x}</render>".data 10 = 2 ∧
     indexOfSub ("<render>a\n{x}\nb\n{x}</render>".data.drop 11) "{x}".data =
       some 5 ∧
     getLineNumber "<render>a\n{x}\nb\n{x}</render>".data 16 = 4 ∧
     (checkRenderContent "a\n{x}\nb\n{x}".data ⟨[], []⟩
       "<render>a\n{x}\nb\n{x}</render>".data).errors =
       [⟨2, templateMsg "x".data⟩, ⟨2, templateMsg "x".data⟩]) := by
  refine ⟨fun s n i h => indexOfSub_first h, ?_, ?_⟩
  · intro content masked fullCode fm e st
    simp only [processOne]
    split_ifs
    · exact ⟨[], by simp, by simp⟩
    · exact ⟨_, rfl, by simp⟩
    · exact ⟨[], by simp, by simp⟩
    · exact ⟨_, rfl, by simp⟩
  · refine ⟨by decide, by decide, by decide, by decide, ?_⟩
    decide

theorem claim_C10_witness :
    "{x}".data.isPrefixOf
        ("<render>a\n{x}\nb\n{x}</render>".data.drop 10) = true ∧
    ∀ j < 10, "{x}".data.isPrefixOf
        ("<render>a\n{x}\nb\n{x}</render>".data.drop j) = false := by
  exact claim_C10.1 "<render>a\n{x}\nb\n{x}</render>".data "{x}".data 10
    (by decide)

theorem findTernaryFrom_none_of_ge {s : Str} {k : Nat} (h : s.length ≤ k) :
    findTernaryFrom s k = none := by
  unfold findTernaryFrom
  rw [List.drop_eq_nil_of_le h, goTern]

unseal splitGo maskOn scanBraces evalCondLoop in
/-- C3: during validation of a ternary conditional — when the condition
evaluates to a boolean, the run continues on the selected branch alone, so
the dead branch is never validated (the concrete `(true ? "yes" : missing)`
run collects no diagnostic although `missing` is unresolvable); when the
condition does not evaluate to a boolean (failure or non-boolean value, with
no truthy coercion), both branches are independently validated before the
scan resumes, and a diagnostic is produced for each failing branch
expression (the concrete `(flag ? {p} : {q})` run collects diagnostics for
both `p` and `q`). -/
theorem claim_C3 (st : CompileState) (fullCode c a b : Str)
    (hc : c ≠ []) (hcq : '?' ∉ c)
    (ha : a ≠ []) (hac : ':' ∉ a) (haw : wsChar (a.headD ' ') = false)
    (hb : b ≠ []) (hbp : ')' ∉ b) (hbw : wsChar (b.headD ' ') = false) :
    (∀ bv : Bool, evaluateExpression (trim c) st = some (.bool bv) →
      checkRenderContent ('(' :: (c ++ '?' :: (a ++ ':' :: (b ++ ')' :: []))))
          st fullCode =
        checkRenderContent (if bv then a else b) st fullCode) ∧
    ((∀ bv : Bool, evaluateExpression (trim c) st ≠ some (.bool bv)) →
      checkRenderContent ('(' :: (c ++ '?' :: (a ++ ':' :: (b ++ ')' :: []))))
          st fullCode =
        checkTemplateExpressions
          ('(' :: (c ++ '?' :: (a ++ ':' :: (b ++ ')' :: []))))
          (checkRenderContent b (checkRenderContent a st fullCode) fullCode)
          fullCode) ∧
    (checkRenderContent "(true ? \"yes\" : missing)".data ⟨[], []⟩
        "(true ? \"yes\" : missing)".data).errors = [] ∧
    (∃ d ∈ (checkRenderContent "(flag ? {p} : {q})".data ⟨[], []⟩
        "(flag ? {p} : {q})".data).errors, d.message = templateMsg "p".data) ∧
    (∃ d ∈ (checkRenderContent "(flag ? {p} : {q})".data ⟨[], []⟩
        "(flag ? {p} : {q})".data).errors, d.message = templateMsg "q".data) := by
  have hfind := @findTernaryFrom_clean c a b [] hc hcq ha hac haw hb hbp hbw
  refine ⟨?_, ?_, by decide, by decide, by decide⟩
  · intro bv hbv
    unfold checkRenderContent
    rw [evalCondLoop_eq_bool hfind hbv]
    simp only []
    rw [show replaceFirst ('(' :: (c ++ '?' :: (a ++ ':' :: (b ++ ')' :: []))))
        (ternFull c a b) (if bv then a else b) = (if bv then a else b) from by
      rw [show ternFull c a b =
          '(' :: (c ++ '?' :: (a ++ ':' :: (b ++ ')' :: []))) from rfl]
      exact replaceFirst_self _ _]
  · intro hnb
    unfold checkRenderContent
    rw [evalCondLoop_eq_other hfind hnb]
    rw [evalCondLoop_eq_none (findTernaryFrom_none_of_ge (by
      simp only [ternFull_length]
      simp [List.length_append]
      omega))]

unseal splitGo maskOn scanBraces evalCondLoop in
theorem claim_C3_witness :
    checkRenderContent "(true?x:y)".data ⟨[], []⟩ "(true?x:y)".data =
      checkRenderContent (if true then "x".data else "y".data) ⟨[], []⟩
        "(true?x:y)".data := by
  have h := (claim_C3 ⟨[], []⟩ "(true?x:y)".data "true".data "x".data "y".data
    (by decide) (by decide) (by decide) (by decide) (by decide)
    (by decide) (by decide) (by decide)).1 true (by decide)
  exact h


/-- Indentation string emitted at an (already checked nonnegative) level. -/
def indAt (l : Int) : Str := List.replicate (2 * l.toNat) ' '

/-- Maximal-run blocks of a string: runs of non-whitespace (`nw`) and runs
of whitespace (`ws`). -/
inductive Block where
  | nw (s : Str)
  | ws (s : Str)
deriving DecidableEq, Repr

/-- Underlying characters of a block. -/
def blockStr : Block → Str
  | .nw s => s
  | .ws s => s

/-- Concatenation of a block list back into a string. -/
def bjoin : List Block → Str
  | [] => []
  | blk :: rest => blockStr blk ++ bjoin rest

/-- Apply a function to every whitespace block, leaving the others alone. -/
def mapWs (f : Str → Str) : List Block → List Block
  | [] => []
  | .nw s :: rest => .nw s :: mapWs f rest
  | .ws s :: rest => .ws (f s) :: mapWs f rest

theorem bjoin_nil : bjoin [] = [] := rfl

theorem bjoin_cons (blk : Block) (L : List Block) :
    bjoin (blk :: L) = blockStr blk ++ bjoin L := rfl

theorem blockStr_nw (s : Str) : blockStr (Block.nw s) = s := rfl

theorem blockStr_ws (s : Str) : blockStr (Block.ws s) = s := rfl

theorem mapWs_nil (f : Str → Str) : mapWs f [] = [] := rfl

theorem mapWs_cons_nw (f : Str → Str) (s : Str) (L : List Block) :
    mapWs f (Block.nw s :: L) = Block.nw s :: mapWs f L := rfl

theorem mapWs_cons_ws (f : Str → Str) (s : Str) (L : List Block) :
    mapWs f (Block.ws s :: L) = Block.ws (f s) :: mapWs f L := rfl

/-- Greedy decomposition of a string into maximal whitespace and
non-whitespace runs. -/
def blocksOf : Str → List Block
  | [] => []
  | c :: cs =>
    if wsChar c then
      Block.ws ((c :: cs).takeWhile wsChar) :: blocksOf ((c :: cs).dropWhile wsChar)
    else
      Block.nw ((c :: cs).takeWhile (fun x => !(wsChar x))) ::
        blocksOf ((c :: cs).dropWhile (fun x => !(wsChar x)))
termination_by s => s.length
decreasing_by
  · have : (c :: cs).dropWhile wsChar = cs.dropWhile wsChar := by
      simp_all [List.dropWhile_cons]
    rw [this]
    have := length_dropWhileLe wsChar cs
    simp only [List.length_cons]
    omega
  · have : (c :: cs).dropWhile (fun x => !(wsChar x)) =
        cs.dropWhile (fun x => !(wsChar x)) := by
      simp_all [List.dropWhile_cons]
    rw [this]
    have := length_dropWhileLe (fun x => !(wsChar x)) cs
    simp only [List.length_cons]
    omega

/-- Rewriting of one whitespace run by a `\s+\x24` strip when the run does
not end the input: everything before the run's last line terminator is
removed, and a run without terminators is untouched. -/
def wsNorm (r : Str) : Str :=
  if (r.reverse.takeWhile (fun x => !(nlChar x))).length < r.length then
    r.drop (r.length - (r.reverse.takeWhile (fun x => !(nlChar x))).length - 1)
  else r

/-- Rewriting of one whitespace run by the blank-line collapse: a run with
at least two newlines keeps its part before the first newline, one newline,
and its part after the last newline. -/
def cbRun (r : Str) : Str :=
  match splitAtChar '\n' r with
  | none => r
  | some (pre, w) =>
    if '\n' ∈ w then pre ++ '\n' :: (w.reverse.takeWhile (· ≠ '\n')).reverse
    else r

theorem takeWhile_append_all {p : Char → Bool} {a : Str} (b : Str)
    (h : ∀ c ∈ a, p c = true) :
    (a ++ b).takeWhile p = a ++ b.takeWhile p := by
  rw [List.takeWhile_append, if_pos]
  rw [List.takeWhile_eq_self_iff.mpr h]

theorem dropWhile_append_all {p : Char → Bool} {a : Str} (b : Str)
    (h : ∀ c ∈ a, p c = true) :
    (a ++ b).dropWhile p = b.dropWhile p := by
  rw [List.dropWhile_append, if_pos]
  rw [List.dropWhile_eq_nil_iff.mpr h]
  rfl

theorem takeWhile_stop {p : Char → Bool} {b : Str}
    (h : ∀ x ∈ b.take 1, p x = false) : b.takeWhile p = [] := by
  cases b with
  | nil => rfl
  | cons x xs =>
    rw [List.takeWhile_cons, if_neg]
    have := h x (by simp)
    simp [this]

theorem dropWhile_stop {p : Char → Bool} {b : Str}
    (h : ∀ x ∈ b.take 1, p x = false) : b.dropWhile p = b := by
  cases b with
  | nil => rfl
  | cons x xs =>
    rw [List.dropWhile_cons, if_neg]
    have := h x (by simp)
    simp [this]

theorem takeWhile_run {p : Char → Bool} {a b : Str} (ha : ∀ c ∈ a, p c = true)
    (hb : ∀ x ∈ b.take 1, p x = false) : (a ++ b).takeWhile p = a := by
  rw [takeWhile_append_all b ha, takeWhile_stop hb, List.append_nil]

theorem dropWhile_run {p : Char → Bool} {a b : Str} (ha : ∀ c ∈ a, p c = true)
    (hb : ∀ x ∈ b.take 1, p x = false) : (a ++ b).dropWhile p = b := by
  rw [dropWhile_append_all b ha, dropWhile_stop hb]

theorem takeWhile_length_lt_iff {p : Char → Bool} {l : Str} :
    (l.takeWhile p).length < l.length ↔ ∃ c ∈ l, p c = false := by
  constructor
  · intro h
    by_contra hc
    push_neg at hc
    have : l.takeWhile p = l := List.takeWhile_eq_self_iff.mpr (by
      intro x hx
      have := hc x hx
      simpa using this)
    rw [this] at h
    omega
  · rintro ⟨c, hc, hpc⟩
    have hle : (l.takeWhile p).length ≤ l.length := (List.takeWhile_prefix p).length_le
    rcases eq_or_lt_of_le hle with he | hlt
    · exfalso
      have : l.takeWhile p = l := (List.takeWhile_prefix p).eq_of_length he
      have := List.takeWhile_eq_self_iff.mp this c hc
      rw [hpc] at this
      exact Bool.false_ne_true this
    · exact hlt

theorem mem_takeWhile_true {p : Char → Bool} :
    ∀ {l : Str} {x : Char}, x ∈ l.takeWhile p → p x = true := by
  intro l
  induction l with
  | nil => intro x hx; simp [List.takeWhile] at hx
  | cons c cs ih =>
    intro x hx
    rw [List.takeWhile_cons] at hx
    by_cases hc : p c = true
    · rw [if_pos hc] at hx
      rcases List.mem_cons.mp hx with rfl | hm
      · exact hc
      · exact ih hm
    · rw [if_neg hc] at hx
      simp at hx

theorem dropWhile_head_false {p : Char → Bool} :
    ∀ {l : Str} {x : Char}, x ∈ (l.dropWhile p).take 1 → p x = false := by
  intro l
  induction l with
  | nil => intro x hx; simp [List.dropWhile] at hx
  | cons c cs ih =>
    intro x hx
    rw [List.dropWhile_cons] at hx
    by_cases hc : p c = true
    · rw [if_pos hc] at hx
      exact ih hx
    · rw [if_neg hc] at hx
      simp at hx
      obtain ⟨rfl, _⟩ := hx
      simpa using hc

theorem drop_sub_takeWhile_reverse (p : Char → Bool) (l : Str) :
    l.drop (l.length - (l.reverse.takeWhile p).length) =
      (l.reverse.takeWhile p).reverse := by
  have key : ∀ d t : Str, (∀ c ∈ t, p c = true) → (∀ x ∈ d.reverse.take 1, p x = false) →
      (d ++ t).drop ((d ++ t).length - ((d ++ t).reverse.takeWhile p).length) =
        ((d ++ t).reverse.takeWhile p).reverse := by
    intro d t ht hd
    have h1 : (d ++ t).reverse.takeWhile p = t.reverse := by
      rw [List.reverse_append]
      exact takeWhile_run (by intro c hc; exact ht c (by simpa using hc)) hd
    rw [h1, List.reverse_reverse]
    have h2 : (d ++ t).length - t.reverse.length = d.length := by
      simp [List.length_append]
    rw [h2, List.drop_left]
  have hdecomp : l = (l.reverse.dropWhile p).reverse ++ (l.reverse.takeWhile p).reverse := by
    conv_lhs => rw [← l.reverse_reverse, ← List.takeWhile_append_dropWhile p l.reverse]
    rw [List.reverse_append]
  have ht : ∀ c ∈ (l.reverse.takeWhile p).reverse, p c = true := by
    intro c hc
    exact mem_takeWhile_true (by simpa using hc)
  have hd : ∀ x ∈ (l.reverse.dropWhile p).reverse.reverse.take 1, p x = false := by
    intro x hx
    rw [List.reverse_reverse] at hx
    exact dropWhile_head_false hx
  conv_lhs => rw [hdecomp]
  conv_rhs => rw [hdecomp]
  exact key (l.reverse.dropWhile p).reverse (l.reverse.takeWhile p).reverse ht hd

theorem drop_append_le {α : Type} {a b : List α} {n : Nat} (h : n ≤ a.length) :
    (a ++ b).drop n = a.drop n ++ b := by
  rw [List.drop_append_eq_append_drop]
  have : n - a.length = 0 := by omega
  rw [this, List.drop_zero]

theorem cb_cons_ne {c : Char} (s : Str) (h : ¬ c = '\n') :
    collapseBlank (c :: s) = c :: collapseBlank s := by
  rw [collapseBlank, if_neg h]

theorem cb_pre {n : Str} (s : Str) (h : ∀ c ∈ n, ¬ c = '\n') :
    collapseBlank (n ++ s) = n ++ collapseBlank s := by
  induction n with
  | nil => rfl
  | cons c cs ih =>
    rw [List.cons_append, cb_cons_ne _ (h c (by simp)),
      ih (fun x hx => h x (by simp [hx]))]
    simp

theorem cbRun_cons_ne {c : Char} (r : Str) (h : ¬ c = '\n') :
    cbRun (c :: r) = c :: cbRun r := by
  rw [cbRun, cbRun, splitAtChar, if_neg h]
  cases hs : splitAtChar '\n' r with
  | none => simp
  | some p =>
    obtain ⟨pre, w⟩ := p
    simp only [Option.map_some]
    by_cases hw : '\n' ∈ w
    · simp [hw]
    · simp [hw]

theorem cbRun_nil : cbRun [] = [] := by
  rw [cbRun]
  simp [splitAtChar]

theorem cb_run_aux : ∀ (n : Nat) (r rest : Str), r.length ≤ n →
    (∀ c ∈ r, wsChar c = true) → (∀ x ∈ rest.take 1, wsChar x = false) →
    collapseBlank (r ++ rest) = cbRun r ++ collapseBlank rest := by
  intro n
  induction n with
  | zero =>
    intro r rest hlen _ _
    have : r = [] := List.eq_nil_of_length_eq_zero (by omega)
    subst this
    rw [cbRun_nil]
    rfl
  | succ n ih =>
    intro r rest hlen hws hstop
    cases r with
    | nil => rw [cbRun_nil]; rfl
    | cons c r1 =>
      by_cases hc : c = '\n'
      · subst hc
        have hw : (r1 ++ rest).takeWhile wsChar = r1 :=
          takeWhile_run (fun x hx => hws x (by simp [hx])) hstop
        rw [List.cons_append, collapseBlank, if_pos rfl]
        simp only [hw]
        by_cases htn : (r1.reverse.takeWhile (· ≠ '\n')).length < r1.length
        · rw [if_pos htn]
          have hdrop : (r1 ++ rest).drop
                (r1.length - (r1.reverse.takeWhile (· ≠ '\n')).length) =
              r1.drop (r1.length - (r1.reverse.takeWhile (· ≠ '\n')).length) ++ rest :=
            drop_append_le (by omega)
          rw [hdrop, drop_sub_takeWhile_reverse]
          have hnt : ∀ x ∈ (r1.reverse.takeWhile (· ≠ '\n')).reverse, ¬ x = '\n' := by
            intro x hx
            have := mem_takeWhile_true (p := (· ≠ '\n')) (by simpa using hx)
            simpa using this
          rw [cb_pre _ hnt]
          have hmem : '\n' ∈ r1 := by
            have := takeWhile_length_lt_iff (p := (· ≠ '\n')) (l := r1.reverse)
            rw [List.length_reverse] at this
            obtain ⟨x, hx1, hx2⟩ := this.mp htn
            have : x = '\n' := by simpa using hx2
            subst this
            simpa using hx1
          rw [cbRun]
          have hsplit : splitAtChar '\n' ('\n' :: r1) = some ([], r1) := by
            rw [splitAtChar, if_pos rfl]
          rw [hsplit]
          simp [hmem]
        · rw [if_neg htn]
          have hle : (r1.reverse.takeWhile (· ≠ '\n')).length ≤ r1.length := by
            have := (List.takeWhile_prefix (l := r1.reverse) (· ≠ '\n')).length_le
            rw [List.length_reverse] at this
            exact this
          have hall : ∀ x ∈ r1, ¬ x = '\n' := by
            have heq : r1.reverse.takeWhile (· ≠ '\n') = r1.reverse :=
              (List.takeWhile_prefix _).eq_of_length (by
                rw [List.length_reverse]; omega)
            intro x hx
            have hxx := List.takeWhile_eq_self_iff.mp heq x (by simpa using hx)
            simpa using hxx
          rw [cb_pre _ hall]
          rw [cbRun]
          have hsplit : splitAtChar '\n' ('\n' :: r1) = some ([], r1) := by
            rw [splitAtChar, if_pos rfl]
          rw [hsplit]
          have hnm : ¬ '\n' ∈ r1 := by
            intro hmm
            exact hall '\n' hmm rfl
          simp [hnm]
      · rw [List.cons_append, cb_cons_ne _ hc, cbRun_cons_ne _ hc,
          ih r1 rest (by simp at hlen; omega)
            (fun x hx => hws x (by simp [hx])) hstop]
        simp

theorem cb_run {r rest : Str} (hws : ∀ c ∈ r, wsChar c = true)
    (hstop : ∀ x ∈ rest.take 1, wsChar x = false) :
    collapseBlank (r ++ rest) = cbRun r ++ collapseBlank rest :=
  cb_run_aux r.length r rest (Nat.le_refl _) hws hstop

theorem st_cons_nonws {c : Char} (s : Str) (h : wsChar c = false) :
    stripTrailingWs (c :: s) = c :: stripTrailingWs s := by
  rw [stripTrailingWs, if_neg (by simp [h])]

theorem st_pre {n : Str} (s : Str) (h : ∀ c ∈ n, wsChar c = false) :
    stripTrailingWs (n ++ s) = n ++ stripTrailingWs s := by
  induction n with
  | nil => rfl
  | cons c cs ih =>
    rw [List.cons_append, st_cons_nonws _ (h c (by simp)),
      ih (fun x hx => h x (by simp [hx]))]
    simp

theorem st_allws {r : Str} (hws : ∀ c ∈ r, wsChar c = true) :
    stripTrailingWs r = [] := by
  cases r with
  | nil => rw [stripTrailingWs]
  | cons c r1 =>
    rw [stripTrailingWs, if_pos (hws c (by simp))]
    have h1 : r1.takeWhile wsChar = r1 :=
      List.takeWhile_eq_self_iff.mpr (fun x hx => hws x (by simp [hx]))
    simp [h1, List.drop_length]

theorem takeWhile_length_ge_of_prefix {p : Char → Bool} :
    ∀ {a l : Str}, a <+: l → (∀ c ∈ a, p c = true) →
      a.length ≤ (l.takeWhile p).length := by
  intro a
  induction a with
  | nil => intro l _ _; simp
  | cons x a1 ih =>
    intro l hpre hall
    obtain ⟨s, hs⟩ := hpre
    subst hs
    rw [List.cons_append, List.takeWhile_cons, if_pos (hall x (by simp))]
    simp only [List.length_cons, Nat.add_le_add_iff_right]
    exact ih ⟨s, rfl⟩ (fun c hc => hall c (by simp [hc]))

theorem wsNorm_of_all_nonterm {r : Str} (h : ∀ c ∈ r, nlChar c = false) :
    wsNorm r = r := by
  rw [wsNorm, if_neg]
  intro hlt
  have heq : r.reverse.takeWhile (fun x => !(nlChar x)) = r.reverse :=
    List.takeWhile_eq_self_iff.mpr (fun x hx => by
      have := h x (by simpa using hx)
      simp [this])
  rw [heq, List.length_reverse] at hlt
  omega

theorem strip_drop_structure {R : Str}
    (hlt : ((R.reverse.takeWhile (fun x => !(nlChar x)))).length < R.length)
    (hk : 1 ≤ R.length - ((R.reverse.takeWhile (fun x => !(nlChar x)))).length - 1) :
    wsNorm (R.drop
        (R.length - ((R.reverse.takeWhile (fun x => !(nlChar x)))).length - 1)) =
      R.drop (R.length - ((R.reverse.takeWhile (fun x => !(nlChar x)))).length - 1) ∧
    wsNorm R =
      R.drop (R.length - ((R.reverse.takeWhile (fun x => !(nlChar x)))).length - 1) ∧
    (R.drop
        (R.length - ((R.reverse.takeWhile (fun x => !(nlChar x)))).length - 1)).length
      = ((R.reverse.takeWhile (fun x => !(nlChar x)))).length + 1 := by
  have htail : R.drop (R.length - (R.reverse.takeWhile (fun x => !(nlChar x))).length) =
      (R.reverse.takeWhile (fun x => !(nlChar x))).reverse :=
    drop_sub_takeWhile_reverse _ _
  have hulen : (R.drop
      (R.length - (R.reverse.takeWhile (fun x => !(nlChar x))).length - 1)).length =
      (R.reverse.takeWhile (fun x => !(nlChar x))).length + 1 := by
    rw [List.length_drop]
    omega
  have hne : R.drop
      (R.length - (R.reverse.takeWhile (fun x => !(nlChar x))).length - 1) ≠ [] := by
    intro hemp
    rw [hemp] at hulen
    simp at hulen
  have hdc : R.drop
      (R.length - (R.reverse.takeWhile (fun x => !(nlChar x))).length - 1) =
      (R.drop
        (R.length - (R.reverse.takeWhile (fun x => !(nlChar x))).length - 1)).head hne ::
      (R.reverse.takeWhile (fun x => !(nlChar x))).reverse := by
    have h1 : R.length - (R.reverse.takeWhile (fun x => !(nlChar x))).length =
        (R.length - (R.reverse.takeWhile (fun x => !(nlChar x))).length - 1) + 1 := by
      omega
    rw [h1] at htail
    have h2 := List.head_cons_tail
      (R.drop (R.length - (R.reverse.takeWhile (fun x => !(nlChar x))).length - 1)) hne
    rw [List.tail_drop, htail] at h2
    exact h2.symm
  have hhead : nlChar ((R.drop
      (R.length - (R.reverse.takeWhile (fun x => !(nlChar x))).length - 1)).head hne)
      = true := by
    by_contra hh
    have hall : ∀ x ∈ R.drop
        (R.length - (R.reverse.takeWhile (fun x => !(nlChar x))).length - 1),
        (fun x => !(nlChar x)) x = true := by
      intro x hx
      rw [hdc] at hx
      rcases List.mem_cons.mp hx with rfl | hm
      · simpa using hh
      · exact mem_takeWhile_true (by simpa using hm)
    have hpre : (R.drop
        (R.length - (R.reverse.takeWhile (fun x => !(nlChar x))).length - 1)).reverse
        <+: R.reverse :=
      List.reverse_prefix.mpr (List.drop_suffix _ _)
    have := takeWhile_length_ge_of_prefix hpre (by
      intro x hx
      exact hall x (by simpa using hx))
    rw [List.length_reverse, hulen] at this
    omega
  rw [List.head_drop] at hhead
  refine ⟨?_, ?_, hulen⟩
  · rw [wsNorm, if_pos, List.length_drop]
    · have harg : R.length -
          (R.length - (R.reverse.takeWhile (fun x => !(nlChar x))).length - 1) -
          ((R.drop
            (R.length - (R.reverse.takeWhile
              (fun x => !(nlChar x))).length - 1)).reverse.takeWhile
                (fun x => !(nlChar x))).length - 1 = 0 := by
        have : ((R.drop
            (R.length - (R.reverse.takeWhile
              (fun x => !(nlChar x))).length - 1)).reverse.takeWhile
                (fun x => !(nlChar x))).length =
            (R.reverse.takeWhile (fun x => !(nlChar x))).length := by
          conv_lhs => rw [hdc]
          rw [List.reverse_cons]
          rw [takeWhile_run
            (by
              intro x hx
              exact mem_takeWhile_true (by simpa using hx))
            (by
              intro x hx
              simp at hx
              subst hx
              simp [hhead])]
          simp
        rw [this]
        omega
      rw [harg, List.drop_zero]
    · have : ((R.drop
          (R.length - (R.reverse.takeWhile
            (fun x => !(nlChar x))).length - 1)).reverse.takeWhile
              (fun x => !(nlChar x))).length =
          (R.reverse.takeWhile (fun x => !(nlChar x))).length := by
        conv_lhs => rw [hdc]
        rw [List.reverse_cons]
        rw [takeWhile_run
          (by
            intro x hx
            exact mem_takeWhile_true (by simpa using hx))
          (by
            intro x hx
            simp at hx
            subst hx
            simp [hhead])]
        simp
      rw [this, hulen]
      omega
  · rw [wsNorm, if_pos hlt]

theorem st_run_aux : ∀ (n : Nat) (r rest : Str), r.length ≤ n →
    (∀ c ∈ r, wsChar c = true) → (∀ x ∈ rest.take 1, wsChar x = false) →
    rest ≠ [] →
    stripTrailingWs (r ++ rest) = wsNorm r ++ stripTrailingWs rest := by
  intro n
  induction n with
  | zero =>
    intro r rest hlen _ _ _
    have : r = [] := List.eq_nil_of_length_eq_zero (by omega)
    subst this
    rw [wsNorm]
    simp
  | succ n ih =>
    intro r rest hlen hws hstop hne
    cases r with
    | nil =>
      rw [wsNorm]
      simp
    | cons c r1 =>
      have hc := hws c (by simp)
      have hw : (r1 ++ rest).takeWhile wsChar = r1 :=
        takeWhile_run (fun x hx => hws x (by simp [hx])) hstop
      rw [List.cons_append, stripTrailingWs, if_pos hc]
      simp only [hw, List.drop_left]
      rw [if_neg hne]
      by_cases hcond : ((c :: r1).reverse.takeWhile (fun x => !(nlChar x))).length
            < (c :: r1).length ∧
          1 ≤ (c :: r1).length -
            ((c :: r1).reverse.takeWhile (fun x => !(nlChar x))).length - 1
      · rw [dif_pos hcond]
        obtain ⟨hfix, hwsn, hulen⟩ := strip_drop_structure hcond.1 hcond.2
        have hsub : ∀ x ∈ (c :: r1).drop
            ((c :: r1).length -
              ((c :: r1).reverse.takeWhile (fun x => !(nlChar x))).length - 1),
            wsChar x = true := by
          intro x hx
          exact hws x ((List.drop_suffix _ _).subset hx)
        have hlen2 : ((c :: r1).drop
            ((c :: r1).length -
              ((c :: r1).reverse.takeWhile (fun x => !(nlChar x))).length - 1)).length
            ≤ n := by
          rw [hulen]
          have h2 := hcond.2
          omega
        rw [ih _ rest hlen2 hsub hstop hne, hfix, ← hwsn]
      · rw [dif_neg hcond]
        have hle : ((c :: r1).reverse.takeWhile (fun x => !(nlChar x))).length ≤
            (c :: r1).length := by
          have := (List.takeWhile_prefix
            (l := (c :: r1).reverse) (fun x => !(nlChar x))).length_le
          rw [List.length_reverse] at this
          exact this
        have hall1 : ∀ x ∈ r1, nlChar x = false := by
          intro x hx
          have htn1 : r1.length ≤
              ((c :: r1).reverse.takeWhile (fun x => !(nlChar x))).length := by
            simp only [List.length_cons] at hcond hle
            omega
          have hpre2 : r1.reverse <+: (c :: r1).reverse := by
            rw [List.reverse_cons]
            exact ⟨[c], rfl⟩
          have hpre3 : r1.reverse <+:
              (c :: r1).reverse.takeWhile (fun x => !(nlChar x)) :=
            List.prefix_of_prefix_length_le hpre2 (List.takeWhile_prefix _)
              (by simpa using htn1)
          have := mem_takeWhile_true (hpre3.subset (List.mem_reverse.mpr hx))
          simpa using this
        have hih : stripTrailingWs (r1 ++ rest) = r1 ++ stripTrailingWs rest := by
          rw [ih r1 rest (by simp only [List.length_cons] at hlen; omega)
            (fun x hx => hws x (by simp [hx])) hstop hne,
            wsNorm_of_all_nonterm hall1]
        rw [hih]
        have hwn : wsNorm (c :: r1) = c :: r1 := by
          by_cases htn2 : ((c :: r1).reverse.takeWhile (fun x => !(nlChar x))).length
              < (c :: r1).length
          · rw [wsNorm, if_pos htn2]
            have hz : (c :: r1).length -
                ((c :: r1).reverse.takeWhile (fun x => !(nlChar x))).length - 1 = 0 := by
              rcases Decidable.not_and_iff_or_not.mp hcond with hna | hnb
            -- hmm name
              · exact absurd htn2 hna
              · omega
            rw [hz, List.drop_zero]
          · have hteq : (c :: r1).reverse.takeWhile (fun x => !(nlChar x)) =
                (c :: r1).reverse :=
              (List.takeWhile_prefix _).eq_of_length (by
                rw [List.length_reverse]; omega)
            refine wsNorm_of_all_nonterm ?_
            intro x hx
            have := List.takeWhile_eq_self_iff.mp hteq x (List.mem_reverse.mpr hx)
            simpa using this
        rw [hwn]
        simp

theorem st_run {r rest : Str} (hws : ∀ c ∈ r, wsChar c = true)
    (hstop : ∀ x ∈ rest.take 1, wsChar x = false) (hne : rest ≠ []) :
    stripTrailingWs (r ++ rest) = wsNorm r ++ stripTrailingWs rest :=
  st_run_aux r.length r rest (Nat.le_refl _) hws hstop hne

theorem split_at_trailing {p : Char → Bool} {l : Str} (h : ∃ c ∈ l, p c = false) :
    ∃ u e, p e = false ∧ (∀ c ∈ (l.reverse.takeWhile p).reverse, p c = true) ∧
      l = u ++ e :: (l.reverse.takeWhile p).reverse := by
  have hne : l.reverse.dropWhile p ≠ [] := by
    intro hd
    obtain ⟨c, hc, hpc⟩ := h
    have := List.dropWhile_eq_nil_iff.mp hd c (List.mem_reverse.mpr hc)
    rw [hpc] at this
    exact Bool.false_ne_true this
  obtain ⟨e, m, hm⟩ := List.exists_cons_of_ne_nil hne
  refine ⟨m.reverse, e, ?_, ?_, ?_⟩
  · have : e ∈ (l.reverse.dropWhile p).take 1 := by rw [hm]; simp
    exact dropWhile_head_false this
  · intro c hc
    exact mem_takeWhile_true (by simpa using hc)
  · conv_lhs => rw [← l.reverse_reverse, ← List.takeWhile_append_dropWhile p l.reverse]
    rw [hm, List.reverse_append, List.reverse_cons]
    simp

theorem wsNorm_last_term {a b : Str} {d : Char} (hd : nlChar d = true)
    (hb : ∀ c ∈ b, nlChar c = false) :
    wsNorm (a ++ d :: b) = d :: b := by
  have htw : (a ++ d :: b).reverse.takeWhile (fun x => !(nlChar x)) = b.reverse := by
    rw [List.reverse_append, List.reverse_cons, List.append_assoc]
    refine takeWhile_run (fun c hc => by simp [hb c (by simpa using hc)]) ?_
    intro x hx
    simp at hx
    rw [hx, hd]
    rfl
  rw [wsNorm]
  rw [if_pos]
  · rw [htw]
    have harg : (a ++ d :: b).length - b.reverse.length - 1 = a.length := by
      simp [List.length_append]
      omega
    rw [harg]
    have := List.drop_left a (d :: b)
    simpa using this
  · rw [htw]
    simp [List.length_append]
    omega

theorem wsNorm_shape {r : Str} (h : ∃ c ∈ r, nlChar c = true) :
    ∃ u e t, nlChar e = true ∧ (∀ c ∈ t, nlChar c = false) ∧
      r = u ++ e :: t ∧ wsNorm r = e :: t := by
  obtain ⟨u, e, he, ht, hr⟩ :=
    split_at_trailing (p := fun x => !(nlChar x)) (by
      obtain ⟨c, hc, hnc⟩ := h
      exact ⟨c, hc, by simp [hnc]⟩)
  refine ⟨u, e, (r.reverse.takeWhile (fun x => !(nlChar x))).reverse, by simpa using he,
    fun c hc => by simpa using ht c hc, hr, ?_⟩
  conv_lhs => rw [hr]
  exact wsNorm_last_term (by simpa using he) (fun c hc => by simpa using ht c hc)

theorem wsNorm_of_no_term {r : Str} (h : ∀ c ∈ r, nlChar c = false) :
    wsNorm r = r := wsNorm_of_all_nonterm h

theorem wsNorm_idem (r : Str) : wsNorm (wsNorm r) = wsNorm r := by
  by_cases h : ∃ c ∈ r, nlChar c = true
  · obtain ⟨u, e, t, he, ht, hr, hw⟩ := wsNorm_shape h
    rw [hw]
    have : (e :: t) = [] ++ e :: t := rfl
    rw [this]
    exact wsNorm_last_term he ht
  · push_neg at h
    have hall : ∀ c ∈ r, nlChar c = false := by
      intro c hc
      have := h c hc
      simpa using this
    rw [wsNorm_of_all_nonterm hall, wsNorm_of_all_nonterm hall]

theorem wsNorm_cbRun (r : Str) : wsNorm (cbRun r) = wsNorm r := by
  rw [cbRun]
  cases hs : splitAtChar '\n' r with
  | none => rfl
  | some pw =>
    obtain ⟨pre, w⟩ := pw
    simp only
    by_cases hw : '\n' ∈ w
    · rw [if_pos hw]
      have hrw : r = pre ++ '\n' :: w := splitAtChar_spec hs
      by_cases hterm : ∃ c ∈ (w.reverse.takeWhile (· ≠ '\n')).reverse, nlChar c = true
      · obtain ⟨u2, e2, he2, ht2, hteq⟩ :=
          split_at_trailing (p := fun x => !(nlChar x)) (by
            obtain ⟨c, hc, hnc⟩ := hterm
            exact ⟨c, hc, by simp [hnc]⟩)
        have ht2n : ∀ c ∈ ((w.reverse.takeWhile (· ≠ '\n')).reverse.reverse.takeWhile
            (fun x => !(nlChar x))).reverse, nlChar c = false :=
          fun c hc => by simpa using ht2 c hc
        have he2n : nlChar e2 = true := by simpa using he2
        rw [hteq]
        have h1 : pre ++ '\n' :: (u2 ++ e2 :: ((w.reverse.takeWhile
            (· ≠ '\n')).reverse.reverse.takeWhile (fun x => !(nlChar x))).reverse) =
            (pre ++ '\n' :: u2) ++ e2 :: ((w.reverse.takeWhile
            (· ≠ '\n')).reverse.reverse.takeWhile (fun x => !(nlChar x))).reverse := by
          simp
        rw [h1, wsNorm_last_term he2n ht2n]
        obtain ⟨u3, e3, he3, ht3, hw3⟩ :=
          split_at_trailing (p := (· ≠ '\n')) (l := w) (by
            exact ⟨'\n', hw, by simp⟩)
        have he3n : e3 = '\n' := by simpa using he3
        subst he3n
        conv_rhs => rw [hrw, hw3]
        have h2 : pre ++ '\n' :: (u3 ++ '\n' :: (w.reverse.takeWhile (· ≠ '\n')).reverse) =
            (pre ++ '\n' :: u3) ++ '\n' :: (w.reverse.takeWhile (· ≠ '\n')).reverse := by
          simp
        rw [h2]
        conv_rhs => rw [show (w.reverse.takeWhile (· ≠ '\n')).reverse =
          u2 ++ e2 :: ((w.reverse.takeWhile
            (· ≠ '\n')).reverse.reverse.takeWhile (fun x => !(nlChar x))).reverse from hteq]
        rw [show (pre ++ '\n' :: u3) ++ '\n' :: (u2 ++ e2 :: ((w.reverse.takeWhile
            (· ≠ '\n')).reverse.reverse.takeWhile (fun x => !(nlChar x))).reverse) =
            ((pre ++ '\n' :: u3) ++ '\n' :: u2) ++ e2 :: ((w.reverse.takeWhile
            (· ≠ '\n')).reverse.reverse.takeWhile (fun x => !(nlChar x))).reverse from by simp]
        rw [wsNorm_last_term he2n ht2n]
      · push_neg at hterm
        have htnon : ∀ c ∈ (w.reverse.takeWhile (· ≠ '\n')).reverse, nlChar c = false := by
          intro c hc
          have := hterm c hc
          simpa using this
        rw [show pre ++ '\n' :: (w.reverse.takeWhile (· ≠ '\n')).reverse =
          pre ++ '\n' :: (w.reverse.takeWhile (· ≠ '\n')).reverse from rfl]
        rw [wsNorm_last_term (by rfl) htnon]
        obtain ⟨u3, e3, he3, ht3, hw3⟩ :=
          split_at_trailing (p := (· ≠ '\n')) (l := w) (by
            exact ⟨'\n', hw, by simp⟩)
        have he3n : e3 = '\n' := by simpa using he3
        subst he3n
        conv_rhs => rw [hrw, hw3]
        rw [show pre ++ '\n' :: (u3 ++ '\n' :: (w.reverse.takeWhile (· ≠ '\n')).reverse) =
            (pre ++ '\n' :: u3) ++ '\n' :: (w.reverse.takeWhile (· ≠ '\n')).reverse from by
          simp]
        rw [wsNorm_last_term (by rfl) htnon]
    · rw [if_neg hw]

theorem wsNorm_subset {r : Str} : ∀ x ∈ wsNorm r, x ∈ r := by
  rw [wsNorm]
  split
  · intro x hx
    exact (List.drop_suffix _ _).subset hx
  · intro x hx
    exact hx

theorem wsNorm_ne {r : Str} (h : r ≠ []) : wsNorm r ≠ [] := by
  by_cases hterm : ∃ c ∈ r, nlChar c = true
  · obtain ⟨u, e, t, _, _, _, hw⟩ := wsNorm_shape hterm
    rw [hw]
    simp
  · push_neg at hterm
    rw [wsNorm_of_all_nonterm (fun c hc => by simpa using hterm c hc)]
    exact h

theorem cbRun_subset {r : Str} : ∀ x ∈ cbRun r, x ∈ r := by
  rw [cbRun]
  cases hs : splitAtChar '\n' r with
  | none => intro x hx; exact hx
  | some pw =>
    obtain ⟨pre, w⟩ := pw
    simp only
    by_cases hw : '\n' ∈ w
    · rw [if_pos hw]
      have hrw : r = pre ++ '\n' :: w := splitAtChar_spec hs
      intro x hx
      rw [hrw]
      rcases List.mem_append.mp hx with hx1 | hx2
      · exact List.mem_append.mpr (Or.inl hx1)
      · rcases List.mem_cons.mp hx2 with rfl | hx3
        · simp
        · have hx4 : x ∈ w.reverse.takeWhile (· ≠ '\n') := by simpa using hx3
          have : x ∈ w := List.mem_reverse.mp ((List.takeWhile_prefix _).sublist.subset hx4)
          simp [this]
    · rw [if_neg hw]
      intro x hx
      exact hx

theorem cbRun_ne {r : Str} (h : r ≠ []) : cbRun r ≠ [] := by
  rw [cbRun]
  cases hs : splitAtChar '\n' r with
  | none => exact h
  | some pw =>
    obtain ⟨pre, w⟩ := pw
    simp only
    by_cases hw : '\n' ∈ w
    · rw [if_pos hw]
      simp
    · rw [if_neg hw]
      exact h

/-- A nonempty all-non-whitespace block. -/
def NwOk (m : Str) : Prop := m ≠ [] ∧ ∀ c ∈ m, wsChar c = false

/-- A nonempty all-whitespace block. -/
def WsOk (r : Str) : Prop := r ≠ [] ∧ ∀ c ∈ r, wsChar c = true

/-- Well-formed alternating block lists: they begin and end with non-whitespace
blocks and alternate strictly. -/
inductive BWF : List Block → Prop
  | nil : BWF []
  | last (m : Str) : NwOk m → BWF [Block.nw m]
  | step (m r : Str) (rest : List Block) : NwOk m → WsOk r → rest ≠ [] → BWF rest →
      BWF (Block.nw m :: Block.ws r :: rest)

theorem BWF_head : ∀ {L : List Block} {X : Block} {L2 : List Block},
    BWF (X :: L2) → L = X :: L2 → ∃ m, X = Block.nw m ∧ NwOk m := by
  intro L X L2 h _
  cases h with
  | last m hm => exact ⟨m, rfl, hm⟩
  | step m r rest hm _ _ _ => exact ⟨m, rfl, hm⟩

theorem bjoin_head_nonws {L : List Block} (hL : BWF L) (hne : L ≠ []) :
    ∃ m s, bjoin L = m ++ s ∧ NwOk m := by
  cases hL with
  | nil => exact absurd rfl hne
  | last m hm => exact ⟨m, [], by simp only [bjoin_nil, bjoin_cons, blockStr_nw], hm⟩
  | step m r rest hm hr hrne hrest =>
    exact ⟨m, blockStr (Block.ws r) ++ bjoin rest, by simp only [bjoin_cons, blockStr_nw], hm⟩

theorem take1_stop_of_nwok {m s : Str} (hm : NwOk m) :
    ∀ x ∈ (m ++ s).take 1, wsChar x = false := by
  obtain ⟨hne, hall⟩ := hm
  cases m with
  | nil => exact absurd rfl hne
  | cons c cs =>
    intro x hx
    simp at hx
    rw [hx]
    exact hall c (by simp)

theorem cb_fixed_tail {T : Str} (hT : T = [] ∨ T = ['\n']) : collapseBlank T = T := by
  rcases hT with rfl | rfl
  · rw [collapseBlank]
  · rw [collapseBlank, if_pos rfl]
    simp only [List.takeWhile_nil]
    rw [if_neg (by simp)]
    rw [collapseBlank]

theorem cb_blocks {T : Str} (hT : T = [] ∨ T = ['\n']) :
    ∀ {L : List Block}, BWF L →
      collapseBlank (bjoin L ++ T) = bjoin (mapWs cbRun L) ++ T := by
  intro L hL
  induction hL with
  | nil =>
    simp only [bjoin_nil, bjoin_cons, mapWs_nil, blockStr_nw, blockStr_ws]
    simpa using cb_fixed_tail hT
  | last m hm =>
    simp only [bjoin_nil, bjoin_cons, mapWs_nil, mapWs_cons_nw, mapWs_cons_ws, blockStr_nw, blockStr_ws]
    have hnl : ∀ c ∈ m, ¬ c = '\n' := by
      intro c hc heq
      have := hm.2 c hc
      rw [heq] at this
      simp [wsChar] at this
    simp only [List.append_nil]
    rw [cb_pre _ hnl, cb_fixed_tail hT]
  | step m r rest hm hr hrne hrest ih =>
    simp only [bjoin_cons, mapWs_cons_nw, mapWs_cons_ws, blockStr_nw, blockStr_ws]
    have hnl : ∀ c ∈ m, ¬ c = '\n' := by
      intro c hc heq
      have := hm.2 c hc
      rw [heq] at this
      simp [wsChar] at this
    obtain ⟨m2, s2, hb2, hm2⟩ := bjoin_head_nonws hrest hrne
    have hstop : ∀ x ∈ (bjoin rest ++ T).take 1, wsChar x = false := by
      rw [hb2, List.append_assoc]
      exact take1_stop_of_nwok hm2
    calc collapseBlank (m ++ (r ++ bjoin rest) ++ T)
        = collapseBlank (m ++ (r ++ (bjoin rest ++ T))) := by
          rw [List.append_assoc, List.append_assoc]
      _ = m ++ collapseBlank (r ++ (bjoin rest ++ T)) := cb_pre _ hnl
      _ = m ++ (cbRun r ++ collapseBlank (bjoin rest ++ T)) := by
          rw [cb_run hr.2 hstop]
      _ = m ++ (cbRun r ++ (bjoin (mapWs cbRun rest) ++ T)) := by rw [ih]
      _ = m ++ (cbRun r ++ bjoin (mapWs cbRun rest)) ++ T := by simp

theorem st_blocks {T : Str} (hT : T = [] ∨ T = ['\n']) :
    ∀ {L : List Block}, BWF L →
      stripTrailingWs (bjoin L ++ T) = bjoin (mapWs wsNorm L) := by
  intro L hL
  induction hL with
  | nil =>
    simp only [bjoin_nil, bjoin_cons, mapWs_nil, blockStr_nw, blockStr_ws]
    rcases hT with rfl | rfl
    · rw [List.append_nil]
      rw [stripTrailingWs]
    · exact st_allws (by simp [wsChar])
  | last m hm =>
    simp only [bjoin_nil, bjoin_cons, mapWs_nil, mapWs_cons_nw, mapWs_cons_ws, blockStr_nw, blockStr_ws]
    simp only [List.append_nil]
    rw [st_pre _ hm.2]
    rw [st_allws (by
      intro c hc
      rcases hT with rfl | rfl
      · simp at hc
      · simp at hc
        rw [hc]
        rfl)]
    simp
  | step m r rest hm hr hrne hrest ih =>
    simp only [bjoin_cons, mapWs_cons_nw, mapWs_cons_ws, blockStr_nw, blockStr_ws]
    obtain ⟨m2, s2, hb2, hm2⟩ := bjoin_head_nonws hrest hrne
    have hstop : ∀ x ∈ (bjoin rest ++ T).take 1, wsChar x = false := by
      rw [hb2, List.append_assoc]
      exact take1_stop_of_nwok hm2
    have hbne : bjoin rest ++ T ≠ [] := by
      rw [hb2]
      intro hq
      refine hm2.1 ?_
      cases hmm : m2 with
      | nil => rfl
      | cons a as =>
        rw [hmm] at hq
        simp at hq
    calc stripTrailingWs (m ++ (r ++ bjoin rest) ++ T)
        = stripTrailingWs (m ++ (r ++ (bjoin rest ++ T))) := by
          rw [List.append_assoc, List.append_assoc]
      _ = m ++ stripTrailingWs (r ++ (bjoin rest ++ T)) := st_pre _ hm.2
      _ = m ++ (wsNorm r ++ stripTrailingWs (bjoin rest ++ T)) := by
          rw [st_run hr.2 hstop hbne]
      _ = m ++ (wsNorm r ++ bjoin (mapWs wsNorm rest)) := by rw [ih]

/-- Post-processing of the pretty-printer output. -/
def normB (b : Str) : Str := stripTrailingWs (collapseBlank b)

theorem mapWs_wsNorm_cbRun : ∀ L : List Block,
    mapWs wsNorm (mapWs cbRun L) = mapWs wsNorm L := by
  intro L
  induction L with
  | nil => rfl
  | cons blk rest ih =>
    cases blk with
    | nw s => simp only [mapWs_cons_nw, ih]
    | ws s => simp only [mapWs_cons_ws, ih, wsNorm_cbRun]

theorem BWF_mapWs_cbRun : ∀ {L : List Block}, BWF L → BWF (mapWs cbRun L) := by
  intro L hL
  induction hL with
  | nil => exact BWF.nil
  | last m hm => exact BWF.last m hm
  | step m r rest hm hr hrne hrest ih =>
    simp only [mapWs_cons_nw, mapWs_cons_ws]
    refine BWF.step m (cbRun r) (mapWs cbRun rest) hm
      ⟨cbRun_ne hr.1, fun c hc => hr.2 c (cbRun_subset c hc)⟩ ?_ ih
    cases rest with
    | nil => exact absurd rfl hrne
    | cons b bs =>
      cases b with
      | nw s => simp only [mapWs_cons_nw]; simp
      | ws s => simp only [mapWs_cons_ws]; simp

theorem normB_blocks {L : List Block} (hL : BWF L) :
    normB (bjoin L) = bjoin (mapWs wsNorm L) := by
  rw [normB]
  have h1 := cb_blocks (Or.inl rfl) hL
  rw [List.append_nil, List.append_nil] at h1
  rw [h1]
  have h2 := st_blocks (Or.inl rfl) (BWF_mapWs_cbRun hL)
  rw [List.append_nil] at h2
  rw [h2, mapWs_wsNorm_cbRun]

theorem post_blocks_nl {L : List Block} (hL : BWF L) :
    stripTrailingWs (collapseBlank (bjoin L ++ ['\n'])) = bjoin (mapWs wsNorm L) := by
  have h1 := cb_blocks (Or.inr rfl) hL
  rw [h1]
  have h2 := st_blocks (Or.inr rfl) (BWF_mapWs_cbRun hL)
  rw [h2, mapWs_wsNorm_cbRun]

/-- A nonempty string with non-whitespace first and last characters. -/
def Flanked (s : Str) : Prop :=
  s ≠ [] ∧ (∀ x ∈ s.take 1, wsChar x = false) ∧ (∀ x ∈ s.reverse.take 1, wsChar x = false)

theorem take1_eq_of_pre {l1 l2 : Str} (h : l1 <+: l2) (hne : l1 ≠ []) :
    l2.take 1 = l1.take 1 := by
  obtain ⟨s, hs⟩ := h
  subst hs
  cases l1 with
  | nil => exact absurd rfl hne
  | cons c cs => simp

theorem blocksOf_nil : blocksOf [] = [] := by rw [blocksOf]

theorem blocksOf_ne {s : Str} (h : s ≠ []) : blocksOf s ≠ [] := by
  cases s with
  | nil => exact absurd rfl h
  | cons c cs =>
    rw [blocksOf]
    split <;> simp

theorem bjoin_blocksOf : ∀ (n : Nat) (s : Str), s.length ≤ n → bjoin (blocksOf s) = s := by
  intro n
  induction n with
  | zero =>
    intro s hlen
    have : s = [] := List.eq_nil_of_length_eq_zero (by omega)
    subst this
    rw [blocksOf_nil, bjoin_nil]
  | succ n ih =>
    intro s hlen
    cases s with
    | nil => rw [blocksOf_nil, bjoin_nil]
    | cons c cs =>
      rw [blocksOf]
      split
      · rw [bjoin_cons, blockStr_ws]
        rw [ih ((c :: cs).dropWhile wsChar) (by
          have h1 : (c :: cs).dropWhile wsChar = cs.dropWhile wsChar := by
            rw [List.dropWhile_cons]
            simp_all
          rw [h1]
          have := length_dropWhileLe wsChar cs
          simp only [List.length_cons] at hlen
          omega)]
        exact List.takeWhile_append_dropWhile wsChar (c :: cs)
      · rw [bjoin_cons, blockStr_nw]
        rw [ih ((c :: cs).dropWhile (fun x => !(wsChar x))) (by
          have h1 : (c :: cs).dropWhile (fun x => !(wsChar x)) =
              cs.dropWhile (fun x => !(wsChar x)) := by
            rw [List.dropWhile_cons]
            simp_all
          rw [h1]
          have := length_dropWhileLe (fun x => !(wsChar x)) cs
          simp only [List.length_cons] at hlen
          omega)]
        exact List.takeWhile_append_dropWhile _ (c :: cs)

theorem bjoin_blocksOf_eq (s : Str) : bjoin (blocksOf s) = s :=
  bjoin_blocksOf s.length s (Nat.le_refl _)

theorem suffix_last_nonws {a s : Str} (h : a <:+ s) (hne : a ≠ [])
    (hl : ∀ x ∈ s.reverse.take 1, wsChar x = false) :
    ∀ x ∈ a.reverse.take 1, wsChar x = false := by
  intro x hx
  refine hl x ?_
  rw [take1_eq_of_pre (List.reverse_prefix.mpr h) (by simpa using hne)]
  exact hx

theorem blocksOf_wf : ∀ (n : Nat) (s : Str), s.length ≤ n → Flanked s →
    BWF (blocksOf s) := by
  intro n
  induction n with
  | zero =>
    intro s hlen hf
    exact absurd (List.eq_nil_of_length_eq_zero (by omega)) hf.1
  | succ n ih =>
    intro s hlen hf
    obtain ⟨hne, hhead, hlast⟩ := hf
    cases s with
    | nil => exact absurd rfl hne
    | cons c cs =>
      have hcns : wsChar c = false := hhead c (by simp)
      rw [blocksOf]
      rw [if_neg (by simp [hcns])]
      have hm : NwOk ((c :: cs).takeWhile (fun x => !(wsChar x))) := by
        constructor
        · rw [List.takeWhile_cons, if_pos (by simp [hcns])]
          simp
        · intro x hx
          have := mem_takeWhile_true hx
          simpa using this
      cases hd : (c :: cs).dropWhile (fun x => !(wsChar x)) with
      | nil =>
        rw [blocksOf_nil]
        exact BWF.last _ hm
      | cons d ds =>
        have hdws : wsChar d = true := by
          have := dropWhile_head_false (l := c :: cs) (p := fun x => !(wsChar x))
            (x := d) (by rw [hd]; simp)
          simpa using this
        rw [← hd]
        have hdlen : ((c :: cs).dropWhile (fun x => !(wsChar x))).length ≤ n := by
          have h1 : (c :: cs).dropWhile (fun x => !(wsChar x)) =
              cs.dropWhile (fun x => !(wsChar x)) := by
            rw [List.dropWhile_cons]
            simp [hcns]
          rw [h1]
          have := length_dropWhileLe (fun x => !(wsChar x)) cs
          simp only [List.length_cons] at hlen
          omega
        -- the remainder begins with a whitespace run
        rw [show blocksOf ((c :: cs).dropWhile (fun x => !(wsChar x))) =
            Block.ws (((c :: cs).dropWhile (fun x => !(wsChar x))).takeWhile wsChar) ::
            blocksOf (((c :: cs).dropWhile (fun x => !(wsChar x))).dropWhile wsChar) from by
          rw [hd, blocksOf, if_pos hdws]]
        have hrok : WsOk (((c :: cs).dropWhile (fun x => !(wsChar x))).takeWhile wsChar) := by
          refine ⟨?_, ?_⟩
          · rw [hd, List.takeWhile_cons, if_pos hdws]
            simp
          · intro x hx
            exact mem_takeWhile_true hx
        have hsuf1 : (c :: cs).dropWhile (fun x => !(wsChar x)) <:+ (c :: cs) :=
          List.dropWhile_suffix _
        have hsuf2 : ((c :: cs).dropWhile (fun x => !(wsChar x))).dropWhile wsChar
            <:+ (c :: cs) :=
          (List.dropWhile_suffix _).trans hsuf1
        cases hd2 : ((c :: cs).dropWhile (fun x => !(wsChar x))).dropWhile wsChar with
        | nil =>
          exfalso
          -- the string would end inside a whitespace run
          have hallws : ∀ x ∈ (c :: cs).dropWhile (fun x => !(wsChar x)), wsChar x = true := by
            intro x hx
            exact List.dropWhile_eq_nil_iff.mp hd2 x hx
          have hlast2 := suffix_last_nonws hsuf1 (by rw [hd]; simp) hlast
          rw [hd] at hlast2 hallws
          cases hrev : (d :: ds).reverse with
          | nil =>
            have := congrArg List.length hrev
            simp at this
          | cons y ys =>
            have h1 := hlast2 y (by rw [hrev]; simp)
            have h2 : y ∈ d :: ds := by
              refine List.mem_reverse.mp ?_
              rw [hrev]
              simp
            have h3 := hallws y h2
            rw [h3] at h1
            simp at h1
        | cons e es =>
          rw [← hd2]
          refine BWF.step _ _ _ hm hrok (by rw [hd2]; exact blocksOf_ne (by simp)) ?_
          refine ih _ ?_ ?_
          · have hlen2 : (((c :: cs).dropWhile (fun x => !(wsChar x))).dropWhile
                wsChar).length ≤ ((c :: cs).dropWhile (fun x => !(wsChar x))).length :=
              length_dropWhileLe _ _
            omega
          · refine ⟨by rw [hd2]; simp, ?_, ?_⟩
            · intro x hx
              have := dropWhile_head_false (l := (c :: cs).dropWhile (fun x => !(wsChar x)))
                (p := wsChar) hx
              exact this
            · exact suffix_last_nonws hsuf2 (by rw [hd2]; simp) hlast

theorem blocksOf_wf_eq {s : Str} (hf : Flanked s) : BWF (blocksOf s) :=
  blocksOf_wf s.length s (Nat.le_refl _) hf

theorem normB_rep {b : Str} (hf : Flanked b) :
    normB b = bjoin (mapWs wsNorm (blocksOf b)) := by
  conv_lhs => rw [← bjoin_blocksOf_eq b]
  exact normB_blocks (blocksOf_wf_eq hf)

theorem bjoin_append (L1 L2 : List Block) :
    bjoin (L1 ++ L2) = bjoin L1 ++ bjoin L2 := by
  induction L1 with
  | nil => rw [bjoin_nil]; rfl
  | cons blk rest ih =>
    rw [List.cons_append, bjoin_cons, bjoin_cons, ih, List.append_assoc]

theorem mapWs_append (f : Str → Str) (L1 L2 : List Block) :
    mapWs f (L1 ++ L2) = mapWs f L1 ++ mapWs f L2 := by
  induction L1 with
  | nil => rw [mapWs_nil]; rfl
  | cons blk rest ih =>
    cases blk with
    | nw s => rw [List.cons_append, mapWs_cons_nw, mapWs_cons_nw, ih]; rfl
    | ws s => rw [List.cons_append, mapWs_cons_ws, mapWs_cons_ws, ih]; rfl

/-- Snoc view of a well-formed block list: empty, a single non-whitespace
block, or anything followed by a whitespace block and a final non-whitespace
block. -/
theorem BWF_snoc_view : ∀ {L : List Block}, BWF L →
    L = [] ∨ (∃ m, L = [Block.nw m] ∧ NwOk m) ∨
    (∃ L0 r m, L = L0 ++ [Block.ws r, Block.nw m] ∧ WsOk r ∧ NwOk m ∧ BWF L) := by
  intro L hL
  induction hL with
  | nil => exact Or.inl rfl
  | last m hm => exact Or.inr (Or.inl ⟨m, rfl, hm⟩)
  | step m r rest hm hr hrne hrest ih =>
    refine Or.inr (Or.inr ?_)
    rcases ih with h0 | ⟨m2, hm2, hm2ok⟩ | ⟨L0, r2, m2, heq, hr2, hm2, _⟩
    · exact absurd h0 hrne
    · exact ⟨[Block.nw m], r, m2, by rw [hm2]; rfl, hr, hm2ok,
        BWF.step m r rest hm hr hrne hrest⟩
    · exact ⟨Block.nw m :: Block.ws r :: L0, r2, m2, by rw [heq]; rfl, hr2, hm2,
        BWF.step m r rest hm hr hrne hrest⟩

theorem wsNorm_rev_take1 (r : Str) :
    (wsNorm r).reverse.take 1 = r.reverse.take 1 := by
  by_cases hterm : ∃ c ∈ r, nlChar c = true
  · obtain ⟨u, e, t, he, ht, hr, hw⟩ := wsNorm_shape hterm
    rw [hw]
    conv_rhs => rw [hr]
    rw [show u ++ e :: t = u ++ (e :: t) from rfl, List.reverse_append]
    rw [take1_eq_of_pre ⟨u.reverse, rfl⟩ (by simp)]
  · push_neg at hterm
    rw [wsNorm_of_all_nonterm (fun c hc => by simpa using hterm c hc)]

theorem rev_take2_append_long {x m : Str} (h : 2 ≤ m.length) :
    (x ++ m).reverse.take 2 = m.reverse.take 2 := by
  rw [List.reverse_append]
  exact List.take_append_of_le_length (by simpa using h)

theorem rev_take2_single {x r : Str} {z : Char} (hr : r ≠ []) :
    (x ++ r ++ [z]).reverse.take 2 = z :: r.reverse.take 1 := by
  rw [List.reverse_append, List.reverse_append]
  cases hrev : r.reverse with
  | nil =>
    exact absurd (by simpa using congrArg List.reverse hrev) hr
  | cons y ys =>
    simp

theorem normB_rev_take2 {b : Str} (hf : Flanked b) :
    (normB b).reverse.take 2 = b.reverse.take 2 := by
  rw [normB_rep hf]
  conv_rhs => rw [← bjoin_blocksOf_eq b]
  have hwf := blocksOf_wf_eq hf
  rcases BWF_snoc_view hwf with h0 | ⟨m, hm, _⟩ | ⟨L0, r, m, heq, hr, hm, _⟩
  · rw [h0]; rfl
  · rw [hm, mapWs_cons_nw, mapWs_nil]
  · rw [heq, mapWs_append, mapWs_cons_ws, mapWs_cons_nw, mapWs_nil]
    rcases Nat.lt_or_ge m.length 2 with hml | hml
    · have hm1 : ∃ z, m = [z] := by
        cases m with
        | nil => exact absurd rfl hm.1
        | cons a as =>
          cases as with
          | nil => exact ⟨a, rfl⟩
          | cons b2 bs =>
            simp only [List.length_cons] at hml
            omega
      obtain ⟨z, rfl⟩ := hm1
      simp only [bjoin_append, bjoin_cons, bjoin_nil, blockStr_ws, blockStr_nw]
      rw [show bjoin (mapWs wsNorm L0) ++ (wsNorm r ++ ([z] ++ [])) =
        bjoin (mapWs wsNorm L0) ++ wsNorm r ++ [z] from by simp]
      rw [show bjoin L0 ++ (r ++ ([z] ++ [])) = bjoin L0 ++ r ++ [z] from by simp]
      rw [rev_take2_single (wsNorm_ne hr.1), rev_take2_single hr.1, wsNorm_rev_take1]
    · simp only [bjoin_append, bjoin_cons, bjoin_nil, blockStr_ws, blockStr_nw]
      rw [show bjoin (mapWs wsNorm L0) ++ (wsNorm r ++ (m ++ [])) =
        (bjoin (mapWs wsNorm L0) ++ wsNorm r) ++ m from by simp]
      rw [show bjoin L0 ++ (r ++ (m ++ [])) = (bjoin L0 ++ r) ++ m from by simp]
      rw [rev_take2_append_long hml, rev_take2_append_long hml]

theorem take2_append_long {m x : Str} (h : 2 ≤ m.length) :
    (m ++ x).take 2 = m.take 2 :=
  List.take_append_of_le_length h

theorem normB_take2 {b : Str} (hf : Flanked b) :
    (normB b).take 2 = b.take 2 ∨
    (∃ x y y2, b.take 2 = [x, y] ∧ (normB b).take 2 = [x, y2] ∧
      wsChar y = true ∧ wsChar y2 = true) := by
  have hwf := blocksOf_wf_eq hf
  have hrep := normB_rep hf
  have hjoin := bjoin_blocksOf_eq b
  revert hrep hjoin
  generalize blocksOf b = L at hwf
  intro hrep hjoin
  cases hwf with
  | nil =>
    left
    rw [hrep, ← hjoin, mapWs_nil]
  | last m hm =>
    left
    rw [hrep, ← hjoin, mapWs_cons_nw, mapWs_nil]
  | step m r rest hm hr hrne hrest =>
    rw [hrep, ← hjoin, mapWs_cons_nw, mapWs_cons_ws]
    simp only [bjoin_cons, blockStr_nw, blockStr_ws]
    rcases Nat.lt_or_ge m.length 2 with hml | hml
    · have hm1 : ∃ z, m = [z] := by
        cases m with
        | nil => exact absurd rfl hm.1
        | cons a as =>
          cases as with
          | nil => exact ⟨a, rfl⟩
          | cons b2 bs =>
            simp only [List.length_cons] at hml
            omega
      obtain ⟨z, rfl⟩ := hm1
      refine Or.inr ?_
      obtain ⟨y, r2, hyr⟩ := List.exists_cons_of_ne_nil hr.1
      obtain ⟨y2, r3, hyr2⟩ := List.exists_cons_of_ne_nil (wsNorm_ne hr.1)
      refine ⟨z, y, y2, ?_, ?_, ?_, ?_⟩
      · rw [hyr]; rfl
      · rw [hyr2]; rfl
      · exact hr.2 y (by rw [hyr]; simp)
      · refine hr.2 y2 (wsNorm_subset y2 ?_)
        rw [hyr2]
        simp
    · refine Or.inl ?_
      rw [take2_append_long hml, take2_append_long hml]

theorem normB_take1 {b : Str} (hf : Flanked b) : (normB b).take 1 = b.take 1 := by
  rcases normB_take2 hf with h | ⟨x, y, y2, hb2, hn2, _, _⟩
  · have := congrArg (List.take 1) h
    rwa [List.take_take, List.take_take] at this
  · have h1 := congrArg (List.take 1) hb2
    have h2 := congrArg (List.take 1) hn2
    rw [List.take_take] at h1 h2
    simp only [Nat.min_def] at h1 h2
    norm_num at h1 h2
    rw [h1, h2]

theorem count_bjoin_mapWs_wsNorm {c : Char} (hc : wsChar c = false) :
    ∀ {L : List Block}, BWF L →
      (bjoin (mapWs wsNorm L)).count c = (bjoin L).count c := by
  intro L hL
  have hzero : ∀ r : Str, (∀ x ∈ r, wsChar x = true) → r.count c = 0 := by
    intro r hall
    refine List.count_eq_zero.mpr ?_
    intro hmem
    have := hall c hmem
    rw [hc] at this
    exact Bool.false_ne_true this
  induction hL with
  | nil => rfl
  | last m hm => rw [mapWs_cons_nw, mapWs_nil]
  | step m r rest hm hr hrne hrest ih =>
    rw [mapWs_cons_nw, mapWs_cons_ws]
    simp only [bjoin_cons, blockStr_nw, blockStr_ws]
    rw [List.count_append, List.count_append, List.count_append, List.count_append, ih]
    rw [hzero (wsNorm r) (fun x hx => hr.2 x (wsNorm_subset x hx)), hzero r hr.2]

theorem normB_count {b : Str} {c : Char} (hf : Flanked b) (hc : wsChar c = false) :
    (normB b).count c = b.count c := by
  rw [normB_rep hf]
  conv_rhs => rw [← bjoin_blocksOf_eq b]
  exact count_bjoin_mapWs_wsNorm hc (blocksOf_wf_eq hf)

theorem normB_ne {b : Str} (hf : Flanked b) : normB b ≠ [] := by
  intro hz
  have h1 := normB_take1 hf
  rw [hz] at h1
  obtain ⟨x, t, hxt⟩ := List.exists_cons_of_ne_nil hf.1
  rw [hxt] at h1
  simp at h1

theorem normB_rev_take1 {b : Str} (hf : Flanked b) :
    (normB b).reverse.take 1 = b.reverse.take 1 := by
  have h := normB_rev_take2 hf
  have := congrArg (List.take 1) h
  rwa [List.take_take, List.take_take] at this

theorem normB_flanked {b : Str} (hf : Flanked b) : Flanked (normB b) := by
  refine ⟨normB_ne hf, ?_, ?_⟩
  · intro x hx
    refine hf.2.1 x ?_
    rw [← normB_take1 hf]
    exact hx
  · intro x hx
    refine hf.2.2 x ?_
    rw [← normB_rev_take1 hf]
    exact hx

theorem take1_cons_eq {s : Str} {x : Char} (h : s.take 1 = [x]) :
    ∃ t, s = x :: t := by
  cases s with
  | nil => simp at h
  | cons c cs =>
    simp at h
    exact ⟨cs, by rw [h]⟩

theorem shape_of_ends {s : Str} {x y : Char} (h1 : s.take 1 = [x])
    (h2 : s.reverse.take 1 = [y]) (h3 : 2 ≤ s.length) :
    ∃ mid, s = x :: (mid ++ [y]) := by
  obtain ⟨v, hv⟩ := take1_cons_eq h2
  have hs : s = v.reverse ++ [y] := by
    have := congrArg List.reverse hv
    rw [List.reverse_reverse, List.reverse_cons] at this
    exact this
  have hvne : v.reverse ≠ [] := by
    intro hz
    rw [hz] at hs
    rw [hs] at h3
    simp at h3
  have hpre : v.reverse <+: s := by
    rw [hs]
    exact ⟨[y], rfl⟩
  have ht1 : v.reverse.take 1 = [x] := by
    rw [← take1_eq_of_pre hpre hvne]
    exact h1
  obtain ⟨mid, hmid⟩ := take1_cons_eq ht1
  exact ⟨mid, by rw [hs, hmid]; rfl⟩

theorem isPrefixOf_two {x y : Char} {s : Str} :
    ([x, y] : Str).isPrefixOf s = true ↔ s.take 2 = [x, y] := by
  rw [List.isPrefixOf_iff_prefix, List.prefix_iff_eq_take]
  constructor
  · intro h
    exact h.symm
  · intro h
    exact h.symm

theorem isPrefixOf_one {x : Char} {s : Str} :
    ([x] : Str).isPrefixOf s = true ↔ s.take 1 = [x] := by
  rw [List.isPrefixOf_iff_prefix, List.prefix_iff_eq_take]
  constructor
  · intro h
    exact h.symm
  · intro h
    exact h.symm

theorem isSuffixOf_two {x y : Char} {s : Str} :
    ([x, y] : Str).isSuffixOf s = true ↔ s.reverse.take 2 = [y, x] := by
  rw [List.isSuffixOf_iff_suffix, ← List.reverse_prefix, List.prefix_iff_eq_take]
  constructor
  · intro h
    exact h.symm
  · intro h
    exact h.symm

theorem pre2_eq {s1 s2 : Str} {x y : Char} (hy : wsChar y = false)
    (h : s1.take 2 = s2.take 2 ∨
      (∃ a b1 b2, s1.take 2 = [a, b1] ∧ s2.take 2 = [a, b2] ∧
        wsChar b1 = true ∧ wsChar b2 = true)) :
    (([x, y] : Str).isPrefixOf s1) = (([x, y] : Str).isPrefixOf s2) := by
  rcases h with heq | ⟨a, b1, b2, h1, h2, hb1, hb2⟩
  · refine Bool.eq_iff_iff.mpr ?_
    rw [isPrefixOf_two, isPrefixOf_two, heq]
  · have hn1 : ([x, y] : Str).isPrefixOf s1 = false := by
      cases hb : ([x, y] : Str).isPrefixOf s1 with
      | false => rfl
      | true =>
        have := isPrefixOf_two.mp hb
        rw [h1] at this
        injection this with e1 e2
        injection e2 with e2 _
        rw [← e2] at hy
        rw [hy] at hb1
        exact absurd hb1 (by simp)
    have hn2 : ([x, y] : Str).isPrefixOf s2 = false := by
      cases hb : ([x, y] : Str).isPrefixOf s2 with
      | false => rfl
      | true =>
        have := isPrefixOf_two.mp hb
        rw [h2] at this
        injection this with e1 e2
        injection e2 with e2 _
        rw [← e2] at hy
        rw [hy] at hb2
        exact absurd hb2 (by simp)
    rw [hn1, hn2]

/-- Shape of a tag token produced by the tokenizer. -/
def TagBody (b : Str) : Prop :=
  ∃ tin, b = '<' :: (tin ++ ['>']) ∧ tin ≠ [] ∧ '>' ∉ tin

/-- Shape of an emitted text body: trimmed, nonempty and free of angle
brackets. -/
def TextBody (b : Str) : Prop := Flanked b ∧ '<' ∉ b ∧ '>' ∉ b

theorem TagBody_flanked {b : Str} (h : TagBody b) : Flanked b := by
  obtain ⟨tin, rfl, hne, hgt⟩ := h
  refine ⟨by simp, ?_, ?_⟩
  · intro x hx
    simp at hx
    rw [hx]
    rfl
  · intro x hx
    rw [List.reverse_cons, List.reverse_append] at hx
    simp at hx
    rw [hx]
    rfl

theorem normB_isClosingTag {b : Str} (hf : Flanked b) :
    isClosingTag (normB b) = isClosingTag b := by
  have h2 := normB_take2 hf
  show ("</".data.isPrefixOf (normB b)) = ("</".data.isPrefixOf b)
  have hd : "</".data = ['<', '/'] := rfl
  rw [hd]
  exact pre2_eq (by rfl) (by
    rcases h2 with h | ⟨x, y, y2, hb2, hn2, hy, hy2⟩
    · exact Or.inl h
    · exact Or.inr ⟨x, y2, y, hn2, hb2, hy2, hy⟩)

theorem normB_isTagToken {b : Str} (hf : Flanked b) :
    isTagToken (normB b) = isTagToken b := by
  show ("<".data.isPrefixOf (normB b)) = ("<".data.isPrefixOf b)
  have hd : "<".data = ['<'] := rfl
  rw [hd]
  refine Bool.eq_iff_iff.mpr ?_
  rw [isPrefixOf_one, isPrefixOf_one, normB_take1 hf]

theorem normB_noIndentTag {b : Str} (hf : Flanked b) :
    noIndentTag (normB b) = noIndentTag b := by
  show ("/>".data.isSuffixOf (normB b) || "<!".data.isPrefixOf (normB b)
      || "<?".data.isPrefixOf (normB b)) =
    ("/>".data.isSuffixOf b || "<!".data.isPrefixOf b || "<?".data.isPrefixOf b)
  have hsuf : ("/>".data.isSuffixOf (normB b)) = ("/>".data.isSuffixOf b) := by
    have hd : "/>".data = ['/', '>'] := rfl
    rw [hd]
    refine Bool.eq_iff_iff.mpr ?_
    rw [isSuffixOf_two, isSuffixOf_two, normB_rev_take2 hf]
  have h2 := normB_take2 hf
  have hpre2b : (∀ z : Char, wsChar z = false → ∀ x : Char,
      (([x, z] : Str).isPrefixOf (normB b)) = (([x, z] : Str).isPrefixOf b)) := by
    intro z hz x
    exact pre2_eq hz (by
      rcases h2 with h | ⟨a, y, y2, hb2, hn2, hy, hy2⟩
      · exact Or.inl h
      · exact Or.inr ⟨a, y2, y, hn2, hb2, hy2, hy⟩)
  have hb1 : ("<!".data.isPrefixOf (normB b)) = ("<!".data.isPrefixOf b) := by
    have hd : "<!".data = ['<', '!'] := rfl
    rw [hd]
    exact hpre2b '!' (by rfl) '<'
  have hb2 : ("<?".data.isPrefixOf (normB b)) = ("<?".data.isPrefixOf b) := by
    have hd : "<?".data = ['<', '?'] := rfl
    rw [hd]
    exact hpre2b '?' (by rfl) '<'
  rw [hsuf, hb1, hb2]

theorem BWF_mapWs_wsNorm : ∀ {L : List Block}, BWF L → BWF (mapWs wsNorm L) := by
  intro L hL
  induction hL with
  | nil => exact BWF.nil
  | last m hm => exact BWF.last m hm
  | step m r rest hm hr hrne hrest ih =>
    rw [mapWs_cons_nw, mapWs_cons_ws]
    refine BWF.step m (wsNorm r) (mapWs wsNorm rest) hm
      ⟨wsNorm_ne hr.1, fun c hc => hr.2 c (wsNorm_subset c hc)⟩ ?_ ih
    cases rest with
    | nil => exact absurd rfl hrne
    | cons blk bs =>
      cases blk with
      | nw s => rw [mapWs_cons_nw]; simp
      | ws s => rw [mapWs_cons_ws]; simp

theorem bjoin_ne_of_wf {L : List Block} (hL : BWF L) (hne : L ≠ []) :
    bjoin L ≠ [] := by
  obtain ⟨m, s, hb, hm⟩ := bjoin_head_nonws hL hne
  rw [hb]
  intro hq
  rcases List.append_eq_nil.mp hq with ⟨h1, _⟩
  exact hm.1 h1

theorem normB_length3 {b : Str} (hf : Flanked b) (hws : ∃ c ∈ b, wsChar c = true) :
    3 ≤ (normB b).length := by
  have hwf := blocksOf_wf_eq hf
  have hrep := normB_rep hf
  have hjoin := bjoin_blocksOf_eq b
  revert hrep hjoin
  generalize blocksOf b = L at hwf
  intro hrep hjoin
  cases hwf with
  | nil =>
    exfalso
    obtain ⟨c, hc, _⟩ := hws
    rw [← hjoin, bjoin_nil] at hc
    simp at hc
  | last m hm =>
    exfalso
    obtain ⟨c, hc, hcw⟩ := hws
    rw [← hjoin] at hc
    simp only [bjoin_cons, bjoin_nil, blockStr_nw, List.append_nil] at hc
    have := hm.2 c hc
    rw [hcw] at this
    simp at this
  | step m r rest hm hr hrne hrest =>
    rw [hrep, mapWs_cons_nw, mapWs_cons_ws]
    simp only [bjoin_cons, blockStr_nw, blockStr_ws, List.length_append]
    have h1 : 1 ≤ m.length := by
      cases m with
      | nil => exact absurd rfl hm.1
      | cons a as => simp
    have h2 : 1 ≤ (wsNorm r).length := by
      cases hq : wsNorm r with
      | nil => exact absurd hq (wsNorm_ne hr.1)
      | cons a as => simp
    have h3 : 1 ≤ (bjoin (mapWs wsNorm rest)).length := by
      cases hq : bjoin (mapWs wsNorm rest) with
      | nil =>
        exact absurd hq (bjoin_ne_of_wf (BWF_mapWs_wsNorm hrest) (by
          cases rest with
          | nil => exact absurd rfl hrne
          | cons blk bs =>
            cases blk with
            | nw s => rw [mapWs_cons_nw]; simp
            | ws s => rw [mapWs_cons_ws]; simp))
      | cons a as => simp
    omega

theorem normB_of_no_ws {b : Str} (h : ∀ c ∈ b, wsChar c = false) (hne : b ≠ []) :
    normB b = b := by
  have hf : Flanked b := ⟨hne, fun x hx => h x (List.mem_of_mem_take hx),
    fun x hx => h x (by
      have := List.mem_of_mem_take hx
      exact List.mem_reverse.mp this)⟩
  rw [normB_rep hf]
  cases b with
  | nil => exact absurd rfl hne
  | cons c cs =>
    rw [blocksOf]
    rw [if_neg (by simp [h c (by simp)])]
    have htk : (c :: cs).takeWhile (fun x => !(wsChar x)) = c :: cs :=
      List.takeWhile_eq_self_iff.mpr (fun x hx => by simp [h x hx])
    have hdr : (c :: cs).dropWhile (fun x => !(wsChar x)) = [] :=
      List.dropWhile_eq_nil_iff.mpr (fun x hx => by simp [h x hx])
    rw [htk, hdr, blocksOf_nil, mapWs_cons_nw, mapWs_nil]
    simp only [bjoin_cons, bjoin_nil, blockStr_nw, List.append_nil]

theorem normB_TagBody {b : Str} (ht : TagBody b) :
    TagBody (normB b) := by
  have hf := TagBody_flanked ht
  by_cases hws : ∃ c ∈ b, wsChar c = true
  · have hlen := normB_length3 hf hws
    have ht1 : (normB b).take 1 = ['<'] := by
      rw [normB_take1 hf]
      obtain ⟨tin, rfl, _, _⟩ := ht
      rfl
    have ht2 : (normB b).reverse.take 1 = ['>'] := by
      rw [normB_rev_take1 hf]
      obtain ⟨tin, rfl, _, _⟩ := ht
      rw [List.reverse_cons, List.reverse_append]
      rfl
    obtain ⟨mid, hmid⟩ := shape_of_ends ht1 ht2 (by omega)
    refine ⟨mid, hmid, ?_, ?_⟩
    · intro hz
      rw [hz] at hmid
      rw [hmid] at hlen
      simp at hlen
    · intro hmem
      have hcount : (normB b).count '>' = b.count '>' := normB_count hf (by rfl)
      obtain ⟨tin, hbt, htne, htgt⟩ := ht
      rw [hmid] at hcount
      rw [hbt] at hcount
      have hc1 : ('<' :: (mid ++ ['>'])).count '>' = mid.count '>' + 1 := by
        rw [List.count_cons, List.count_append]
        simp
      have hc2 : ('<' :: (tin ++ ['>'])).count '>' = tin.count '>' + 1 := by
        rw [List.count_cons, List.count_append]
        simp
      rw [hc1, hc2] at hcount
      have htz : tin.count '>' = 0 := List.count_eq_zero.mpr htgt
      have hmz : mid.count '>' = 0 := by omega
      exact (List.count_eq_zero.mp hmz) hmem
  · push_neg at hws
    have hall : ∀ c ∈ b, wsChar c = false := by
      intro c hc
      have := hws c hc
      simpa using this
    rw [normB_of_no_ws hall hf.1]
    exact ht

theorem normB_TextBody {b : Str} (ht : TextBody b) : TextBody (normB b) := by
  obtain ⟨hf, hlt, hgt⟩ := ht
  refine ⟨normB_flanked hf, ?_, ?_⟩
  · intro hmem
    have hc := normB_count hf (c := '<') (by rfl)
    rw [List.count_eq_zero.mpr hlt] at hc
    exact (List.count_eq_zero.mp hc) hmem
  · intro hmem
    have hc := normB_count hf (c := '>') (by rfl)
    rw [List.count_eq_zero.mpr hgt] at hc
    exact (List.count_eq_zero.mp hc) hmem

/-- A body left fixed by the post-processing: it is a well-formed block join
whose whitespace runs are already strip-normal. -/
def NormBody (b : Str) : Prop :=
  ∃ L, BWF L ∧ b = bjoin L ∧ mapWs wsNorm L = L

theorem mapWs_wsNorm_idem (L : List Block) :
    mapWs wsNorm (mapWs wsNorm L) = mapWs wsNorm L := by
  induction L with
  | nil => rfl
  | cons blk rest ih =>
    cases blk with
    | nw s => rw [mapWs_cons_nw, mapWs_cons_nw, ih]
    | ws s => rw [mapWs_cons_ws, mapWs_cons_ws, ih, wsNorm_idem]

theorem NormBody_normB {b : Str} (hf : Flanked b) : NormBody (normB b) :=
  ⟨mapWs wsNorm (blocksOf b), BWF_mapWs_wsNorm (blocksOf_wf_eq hf), normB_rep hf,
    mapWs_wsNorm_idem _⟩

theorem NormBody_fix {b : Str} (h : NormBody b) : normB b = b := by
  obtain ⟨L, hwf, rfl, hfix⟩ := h
  rw [normB_blocks hwf, hfix]

theorem BWF_append_sep {r : Str} (hr : WsOk r) :
    ∀ {L1 : List Block}, BWF L1 → ∀ {L2 : List Block}, L1 ≠ [] → BWF L2 → L2 ≠ [] →
      BWF (L1 ++ Block.ws r :: L2) := by
  intro L1 h1
  induction h1 with
  | nil =>
    intro L2 hne _ _
    exact absurd rfl hne
  | last m hm =>
    intro L2 _ h2 h2ne
    exact BWF.step m r L2 hm hr h2ne h2
  | step m r2 rest hm hr2 hrne hrest ih =>
    intro L2 _ h2 h2ne
    rw [List.cons_append, List.cons_append]
    refine BWF.step m r2 (rest ++ Block.ws r :: L2) hm hr2 ?_ (ih hrne h2 h2ne)
    cases rest with
    | nil => exact absurd rfl hrne
    | cons a as => simp

theorem bjoin_flanked {L : List Block} (hL : BWF L) (hne : L ≠ []) :
    Flanked (bjoin L) := by
  refine ⟨bjoin_ne_of_wf hL hne, ?_, ?_⟩
  · obtain ⟨m, s, hb, hm⟩ := bjoin_head_nonws hL hne
    rw [hb]
    exact take1_stop_of_nwok hm
  · rcases BWF_snoc_view hL with h0 | ⟨m, hm, hmok⟩ | ⟨L0, r, m, heq, hr, hmok, _⟩
    · exact absurd h0 hne
    · rw [hm]
      simp only [bjoin_cons, bjoin_nil, blockStr_nw, List.append_nil]
      intro x hx
      exact hmok.2 x (List.mem_reverse.mp (List.mem_of_mem_take hx))
    · rw [heq, bjoin_append]
      simp only [bjoin_cons, bjoin_nil, blockStr_ws, blockStr_nw, List.append_nil]
      intro x hx
      have hmne := hmok.1
      have hsuf : m <:+ bjoin L0 ++ (r ++ m) := ⟨bjoin L0 ++ r, by simp⟩
      rw [take1_eq_of_pre (List.reverse_prefix.mpr hsuf) (by
        intro hq
        exact hmne (by simpa using congrArg List.reverse hq))] at hx
      exact hmok.2 x (List.mem_reverse.mp (List.mem_of_mem_take hx))

theorem NormBody_flanked {b : Str} (h : NormBody b) (hne : b ≠ []) : Flanked b := by
  obtain ⟨L, hwf, rfl, _⟩ := h
  refine bjoin_flanked hwf ?_
  intro hz
  rw [hz, bjoin_nil] at hne
  exact hne rfl

theorem NormBody_merge {x y w : Str} (hx : NormBody x) (hxne : x ≠ [])
    (hy : NormBody y) (hyne : y ≠ []) (hw : WsOk w) (hwn : wsNorm w = w) :
    NormBody (x ++ w ++ y) := by
  obtain ⟨L1, h1, rfl, f1⟩ := hx
  obtain ⟨L2, h2, rfl, f2⟩ := hy
  have hL1ne : L1 ≠ [] := by
    intro hz
    rw [hz, bjoin_nil] at hxne
    exact hxne rfl
  have hL2ne : L2 ≠ [] := by
    intro hz
    rw [hz, bjoin_nil] at hyne
    exact hyne rfl
  refine ⟨L1 ++ Block.ws w :: L2, BWF_append_sep hw h1 hL1ne h2 hL2ne, ?_, ?_⟩
  · rw [bjoin_append, bjoin_cons, blockStr_ws]
    simp [List.append_assoc]
  · rw [mapWs_append, f1]
    rw [mapWs_cons_ws, f2, hwn]

theorem sep_wsok {ind : Str} (hind : ∀ c ∈ ind, c = ' ') :
    WsOk ('\n' :: ind) ∧ wsNorm ('\n' :: ind) = '\n' :: ind := by
  constructor
  · refine ⟨by simp, ?_⟩
    intro c hc
    rcases List.mem_cons.mp hc with rfl | hm
    · rfl
    · rw [hind c hm]
      rfl
  · have := wsNorm_last_term (a := []) (b := ind) (d := '\n') rfl (by
      intro c hc
      rw [hind c hc]
      rfl)
    simpa using this

theorem indAt_spaces (l : Int) : ∀ c ∈ indAt l, c = ' ' := by
  intro c hc
  rw [indAt] at hc
  exact List.eq_of_mem_replicate hc

/-- Concatenation of the emitted lines of the main loop. -/
def renderItems : List (Int × Str) → Str
  | [] => []
  | (l, b) :: rest => indAt l ++ b ++ '\n' :: renderItems rest

/-- Separator standing before the next line: a newline and its indent. -/
def sepFor : List (Int × Str) → Str
  | [] => []
  | (l, _) :: _ => '\n' :: indAt l

/-- The emitted lines joined by newline separators, without the indent of
the first line and without a trailing newline. -/
def flatFrom : List (Int × Str) → Str
  | [] => []
  | (_, b) :: rest => b ++ sepFor rest ++ flatFrom rest

/-- Token list that tokenization produces from a flat rendering, with a
pending whitespace prefix `p`. -/
def itemsToks : List (Int × Str) → Str → List Str
  | [], p => if p = [] then [] else [p]
  | (_, b) :: rest, p =>
    if isTagToken b then
      (if p = [] then ([] : List Str) else [p]) ++ b :: itemsToks rest (sepFor rest)
    else
      (p ++ b ++ sepFor rest) :: itemsToks rest []

/-- Merge adjacent text lines into one multi-line text body. -/
def mergeAdj : List (Int × Str) → List (Int × Str)
  | [] => []
  | [it] => [it]
  | (l1, b1) :: (l2, b2) :: rest =>
    if isTagToken b1 || isTagToken b2 then
      (l1, b1) :: mergeAdj ((l2, b2) :: rest)
    else
      mergeAdj ((l1, b1 ++ '\n' :: (indAt l2 ++ b2)) :: rest)
termination_by es => es.length
decreasing_by
  · simp [List.length_cons]
  · simp [List.length_cons]

/-- No two adjacent text items. -/
def noAdjText : List (Int × Str) → Prop
  | [] => True
  | [_] => True
  | (_, b1) :: (l2, b2) :: rest =>
    (isTagToken b1 = true ∨ isTagToken b2 = true) ∧ noAdjText ((l2, b2) :: rest)

/-- Discipline of the emitted lines of the main loop: which bodies appear,
at which level each line is emitted, and how the current level evolves. -/
inductive ItemsOk : Int → List (Int × Str) → Prop
  | nil (lvl : Int) : ItemsOk lvl []
  | closing (lvl : Int) (b : Str) (rest : List (Int × Str)) :
      TagBody b → isClosingTag b = true → 0 ≤ lvl - 1 →
      ItemsOk (lvl - 1) rest → ItemsOk lvl ((lvl - 1, b) :: rest)
  | noInd (lvl : Int) (b : Str) (rest : List (Int × Str)) :
      TagBody b → isClosingTag b = false → noIndentTag b = true →
      0 ≤ lvl → ItemsOk lvl rest → ItemsOk lvl ((lvl, b) :: rest)
  | opening (lvl : Int) (b : Str) (rest : List (Int × Str)) :
      TagBody b → isClosingTag b = false → noIndentTag b = false →
      0 ≤ lvl → ItemsOk (lvl + 1) rest → ItemsOk lvl ((lvl, b) :: rest)
  | text (lvl : Int) (b : Str) (rest : List (Int × Str)) :
      TextBody b → 0 ≤ lvl → ItemsOk lvl rest → ItemsOk lvl ((lvl, b) :: rest)

theorem TagBody_isTagToken {b : Str} (h : TagBody b) : isTagToken b = true := by
  obtain ⟨tin, rfl, _, _⟩ := h
  rw [isTagToken, show "<".data = ['<'] from rfl]
  simp [List.isPrefixOf]

theorem TextBody_not_tag {b : Str} (h : TextBody b) : isTagToken b = false := by
  obtain ⟨⟨hne, hhead, _⟩, hlt, _⟩ := h
  cases b with
  | nil => exact absurd rfl hne
  | cons c cs =>
    have hcne : c ≠ '<' := by
      intro hq
      rw [hq] at hlt
      exact hlt (by simp)
    cases hq : isTagToken (c :: cs) with
    | false => rfl
    | true =>
      exfalso
      have h1 : (['<'] : Str).isPrefixOf (c :: cs) = true := by
        rw [isTagToken, show "<".data = ['<'] from rfl] at hq
        exact hq
      have h2 := isPrefixOf_one.mp h1
      simp at h2
      exact hcne h2

theorem sepFor_mergeAdj : ∀ (n : Nat) (es : List (Int × Str)), es.length ≤ n →
    sepFor (mergeAdj es) = sepFor es := by
  intro n
  induction n with
  | zero =>
    intro es hlen
    have : es = [] := List.eq_nil_of_length_eq_zero (by omega)
    subst this
    rw [mergeAdj]
  | succ n ih =>
    intro es hlen
    match es with
    | [] => rw [mergeAdj]
    | [it] => rw [mergeAdj]
    | (l1, b1) :: (l2, b2) :: rest =>
      rw [mergeAdj]
      split
      · rw [sepFor, sepFor]
      · rw [ih ((l1, b1 ++ '\n' :: (indAt l2 ++ b2)) :: rest) (by
          simp only [List.length_cons] at hlen ⊢
          omega)]
        rw [sepFor, sepFor]

theorem renderItems_flat : ∀ (es : List (Int × Str)) (l : Int) (b : Str)
    (rest : List (Int × Str)), es = (l, b) :: rest →
    renderItems es = indAt l ++ (flatFrom es ++ ['\n']) := by
  intro es
  induction es with
  | nil => intro l b rest h; cases h
  | cons it tail ih =>
    intro l b rest h
    injection h with h1 h2
    subst h1
    subst h2
    rw [renderItems, flatFrom]
    cases tail with
    | nil =>
      rw [sepFor, flatFrom, renderItems]
      simp
    | cons it2 tail2 =>
      obtain ⟨l2, b2⟩ := it2
      rw [ih l2 b2 tail2 rfl, sepFor]
      simp

theorem flatFrom_mergeAdj : ∀ (n : Nat) (es : List (Int × Str)), es.length ≤ n →
    flatFrom (mergeAdj es) = flatFrom es := by
  intro n
  induction n with
  | zero =>
    intro es hlen
    have : es = [] := List.eq_nil_of_length_eq_zero (by omega)
    subst this
    rw [mergeAdj]
  | succ n ih =>
    intro es hlen
    match es with
    | [] => rw [mergeAdj]
    | [it] => rw [mergeAdj]
    | (l1, b1) :: (l2, b2) :: rest =>
      rw [mergeAdj]
      split
      · rw [flatFrom, ih ((l2, b2) :: rest) (by
          simp only [List.length_cons] at hlen ⊢
          omega), sepFor_mergeAdj (n := (l2, b2) :: rest |>.length) ((l2, b2) :: rest)
            (Nat.le_refl _)]
        rfl
      · rw [ih ((l1, b1 ++ '\n' :: (indAt l2 ++ b2)) :: rest) (by
          simp only [List.length_cons] at hlen ⊢
          omega)]
        cases rest with
        | nil => simp [flatFrom, sepFor]
        | cons it3 rest3 => simp [flatFrom, sepFor]

theorem TextBody_merge {b1 b2 : Str} (h1 : TextBody b1) (h2 : TextBody b2) (l2 : Int) :
    TextBody (b1 ++ '\n' :: (indAt l2 ++ b2)) := by
  obtain ⟨⟨hne1, hh1, hl1⟩, hlt1, hgt1⟩ := h1
  obtain ⟨⟨hne2, hh2, hl2⟩, hlt2, hgt2⟩ := h2
  refine ⟨⟨by simp, ?_, ?_⟩, ?_, ?_⟩
  · intro x hx
    refine hh1 x ?_
    rwa [take1_eq_of_pre ⟨'\n' :: (indAt l2 ++ b2), rfl⟩ hne1] at hx
  · intro x hx
    have hsuf : b2 <:+ b1 ++ '\n' :: (indAt l2 ++ b2) :=
      ⟨b1 ++ '\n' :: indAt l2, by simp⟩
    rw [take1_eq_of_pre (List.reverse_prefix.mpr hsuf) (by simpa using hne2)] at hx
    exact hl2 x hx
  · intro hmem
    rcases List.mem_append.mp hmem with hm | hm
    · exact hlt1 hm
    · rcases List.mem_cons.mp hm with he | hm2
      · cases he
      · rcases List.mem_append.mp hm2 with hm3 | hm4
        · have := indAt_spaces l2 _ hm3
          cases this
        · exact hlt2 hm4
  · intro hmem
    rcases List.mem_append.mp hmem with hm | hm
    · exact hgt1 hm
    · rcases List.mem_cons.mp hm with he | hm2
      · cases he
      · rcases List.mem_append.mp hm2 with hm3 | hm4
        · have := indAt_spaces l2 _ hm3
          cases this
        · exact hgt2 hm4

theorem mergeAdj_cons_tag {l : Int} {b : Str} {rest : List (Int × Str)}
    (hb : isTagToken b = true) :
    mergeAdj ((l, b) :: rest) = (l, b) :: mergeAdj rest := by
  cases rest with
  | nil => rw [mergeAdj, mergeAdj]
  | cons it2 r2 =>
    obtain ⟨l2, b2⟩ := it2
    rw [mergeAdj, if_pos (by rw [hb]; rfl)]

theorem ItemsOk_mergeAdj : ∀ (n : Nat) (es : List (Int × Str)) (lvl : Int),
    es.length ≤ n → ItemsOk lvl es → ItemsOk lvl (mergeAdj es) := by
  intro n
  induction n with
  | zero =>
    intro es lvl hlen _
    have : es = [] := List.eq_nil_of_length_eq_zero (by omega)
    subst this
    rw [mergeAdj]
    exact ItemsOk.nil lvl
  | succ n ih =>
    intro es lvl hlen hok
    match es, hok with
    | [], _ => rw [mergeAdj]; exact ItemsOk.nil lvl
    | (l1, b1) :: tail, hok =>
      cases tail with
      | nil =>
        rw [mergeAdj]
        exact hok
      | cons it2 rest =>
        obtain ⟨l2, b2⟩ := it2
        rw [mergeAdj]
        split
        · -- head survives untouched
          cases hok with
          | closing _ _ _ htb hcl hge hrest =>
            exact ItemsOk.closing lvl b1 _ htb hcl hge
              (ih _ _ (by simp only [List.length_cons] at hlen ⊢; omega) hrest)
          | noInd _ _ _ htb hcl hni hge hrest =>
            exact ItemsOk.noInd lvl b1 _ htb hcl hni hge
              (ih _ _ (by simp only [List.length_cons] at hlen ⊢; omega) hrest)
          | opening _ _ _ htb hcl hni hge hrest =>
            exact ItemsOk.opening lvl b1 _ htb hcl hni hge
              (ih _ _ (by simp only [List.length_cons] at hlen ⊢; omega) hrest)
          | text _ _ _ htb hge hrest =>
            exact ItemsOk.text lvl b1 _ htb hge
              (ih _ _ (by simp only [List.length_cons] at hlen ⊢; omega) hrest)
        · -- merge two adjacent text lines
          rename_i hcond
          have hb1 : isTagToken b1 = false := by
            cases hq : isTagToken b1 with
            | false => rfl
            | true => exact absurd (by rw [hq]; rfl) hcond
          have hb2 : isTagToken b2 = false := by
            cases hq : isTagToken b2 with
            | false => rfl
            | true => exact absurd (by rw [hq]; simp) hcond
          cases hok with
          | closing _ _ _ htb _ _ _ =>
            rw [TagBody_isTagToken htb] at hb1
            cases hb1
          | noInd _ _ _ htb _ _ _ _ =>
            rw [TagBody_isTagToken htb] at hb1
            cases hb1
          | opening _ _ _ htb _ _ _ _ =>
            rw [TagBody_isTagToken htb] at hb1
            cases hb1
          | text _ _ _ htb hge hrest =>
            cases hrest with
            | closing _ _ _ htb2 _ _ _ =>
              rw [TagBody_isTagToken htb2] at hb2
              cases hb2
            | noInd _ _ _ htb2 _ _ _ _ =>
              rw [TagBody_isTagToken htb2] at hb2
              cases hb2
            | opening _ _ _ htb2 _ _ _ _ =>
              rw [TagBody_isTagToken htb2] at hb2
              cases hb2
            | text _ _ _ htb2 hge2 hrest2 =>
              refine ih _ _ (by simp only [List.length_cons] at hlen ⊢; omega) ?_
              exact ItemsOk.text lvl _ _ (TextBody_merge htb htb2 lvl) hge hrest2

theorem noAdjText_cons2 (l1 l2 : Int) (b1 b2 : Str) (rest : List (Int × Str)) :
    noAdjText ((l1, b1) :: (l2, b2) :: rest) =
      ((isTagToken b1 = true ∨ isTagToken b2 = true) ∧ noAdjText ((l2, b2) :: rest)) :=
  rfl

theorem noAdjText_mergeAdj : ∀ (n : Nat) (es : List (Int × Str)), es.length ≤ n →
    noAdjText (mergeAdj es) := by
  intro n
  induction n with
  | zero =>
    intro es hlen
    have : es = [] := List.eq_nil_of_length_eq_zero (by omega)
    subst this
    rw [mergeAdj]
    exact trivial
  | succ n ih =>
    intro es hlen
    match es with
    | [] => rw [mergeAdj]; exact trivial
    | [it] => rw [mergeAdj]; exact trivial
    | (l1, b1) :: (l2, b2) :: rest =>
      rw [mergeAdj]
      split
      · rename_i hcond
        have htail := ih ((l2, b2) :: rest)
          (by simp only [List.length_cons] at hlen ⊢; omega)
        by_cases hb2 : isTagToken b2 = true
        · rw [mergeAdj_cons_tag hb2] at htail ⊢
          rw [noAdjText_cons2]
          exact ⟨Or.inr hb2, htail⟩
        · have hb1 : isTagToken b1 = true := by
            cases hq : isTagToken b1 with
            | true => rfl
            | false =>
              exfalso
              rcases Bool.or_eq_true_iff.mp hcond with h | h
              · rw [hq] at h; cases h
              · exact hb2 h
          cases hmt : mergeAdj ((l2, b2) :: rest) with
          | nil => exact trivial
          | cons it3 r3 =>
            obtain ⟨l3, b3⟩ := it3
            rw [noAdjText_cons2]
            rw [hmt] at htail
            exact ⟨Or.inl hb1, htail⟩
      · exact ih _ (by simp only [List.length_cons] at hlen ⊢; omega)

theorem mergeAdj_normBodies : ∀ (n : Nat) (es : List (Int × Str)), es.length ≤ n →
    (∀ it ∈ es, NormBody it.2 ∧ it.2 ≠ []) →
    ∀ it ∈ mergeAdj es, NormBody it.2 ∧ it.2 ≠ [] := by
  intro n
  induction n with
  | zero =>
    intro es hlen _
    have : es = [] := List.eq_nil_of_length_eq_zero (by omega)
    subst this
    rw [mergeAdj]
    intro it hit
    cases hit
  | succ n ih =>
    intro es hlen hall
    match es with
    | [] => rw [mergeAdj]; intro it hit; cases hit
    | [it0] => rw [mergeAdj]; exact hall
    | (l1, b1) :: (l2, b2) :: rest =>
      rw [mergeAdj]
      split
      · intro it hit
        rcases List.mem_cons.mp hit with rfl | hm
        · exact hall _ (by simp)
        · exact ih ((l2, b2) :: rest)
            (by simp only [List.length_cons] at hlen ⊢; omega)
            (fun it2 hit2 => hall it2 (List.mem_cons_of_mem _ hit2)) it hm
      · refine ih _ (by simp only [List.length_cons] at hlen ⊢; omega) ?_
        intro it hit
        rcases List.mem_cons.mp hit with rfl | hm
        · obtain ⟨hn1, hne1⟩ := hall (l1, b1) (by simp)
          obtain ⟨hn2, hne2⟩ := hall (l2, b2) (by simp)
          have hsep := sep_wsok (indAt_spaces l2)
          constructor
          · have := NormBody_merge hn1 hne1 hn2 hne2 hsep.1 hsep.2
            rw [show b1 ++ ('\n' :: indAt l2) ++ b2 =
              b1 ++ '\n' :: (indAt l2 ++ b2) from by simp] at this
            exact this
          · simp
        · exact hall it (by simp [hm])

theorem ItemsOk_map_norm : ∀ {lvl : Int} {es : List (Int × Str)}, ItemsOk lvl es →
    ItemsOk lvl (es.map (fun it => (it.1, normB it.2))) := by
  intro lvl es h
  induction h with
  | nil lvl => exact ItemsOk.nil lvl
  | closing lvl b rest htb hcl hge hrest ih =>
    rw [List.map_cons]
    exact ItemsOk.closing lvl (normB b) _ (normB_TagBody htb)
      (by rw [normB_isClosingTag (TagBody_flanked htb)]; exact hcl) hge ih
  | noInd lvl b rest htb hcl hni hge hrest ih =>
    rw [List.map_cons]
    exact ItemsOk.noInd lvl (normB b) _ (normB_TagBody htb)
      (by rw [normB_isClosingTag (TagBody_flanked htb)]; exact hcl)
      (by rw [normB_noIndentTag (TagBody_flanked htb)]; exact hni) hge ih
  | opening lvl b rest htb hcl hni hge hrest ih =>
    rw [List.map_cons]
    exact ItemsOk.opening lvl (normB b) _ (normB_TagBody htb)
      (by rw [normB_isClosingTag (TagBody_flanked htb)]; exact hcl)
      (by rw [normB_noIndentTag (TagBody_flanked htb)]; exact hni) hge ih
  | text lvl b rest htb hge hrest ih =>
    rw [List.map_cons]
    exact ItemsOk.text lvl (normB b) _ (normB_TextBody htb) hge ih

theorem ItemsOk_bodies : ∀ {lvl : Int} {es : List (Int × Str)}, ItemsOk lvl es →
    ∀ it ∈ es, Flanked it.2 ∧ (isTagToken it.2 = true → TagBody it.2) ∧
      (isTagToken it.2 = false → TextBody it.2) := by
  intro lvl es h
  induction h with
  | nil lvl => intro it hit; cases hit
  | closing lvl b rest htb hcl hge hrest ih =>
    intro it hit
    rcases List.mem_cons.mp hit with rfl | hm
    · refine ⟨TagBody_flanked htb, fun _ => htb, ?_⟩
      intro hq
      rw [TagBody_isTagToken htb] at hq
      cases hq
    · exact ih it hm
  | noInd lvl b rest htb hcl hni hge hrest ih =>
    intro it hit
    rcases List.mem_cons.mp hit with rfl | hm
    · refine ⟨TagBody_flanked htb, fun _ => htb, ?_⟩
      intro hq
      rw [TagBody_isTagToken htb] at hq
      cases hq
    · exact ih it hm
  | opening lvl b rest htb hcl hni hge hrest ih =>
    intro it hit
    rcases List.mem_cons.mp hit with rfl | hm
    · refine ⟨TagBody_flanked htb, fun _ => htb, ?_⟩
      intro hq
      rw [TagBody_isTagToken htb] at hq
      cases hq
    · exact ih it hm
  | text lvl b rest htb hge hrest ih =>
    intro it hit
    rcases List.mem_cons.mp hit with rfl | hm
    · refine ⟨htb.1, ?_, fun _ => htb⟩
      intro hq
      rw [TextBody_not_tag htb] at hq
      cases hq
    · exact ih it hm

theorem map_norm_normBodies {lvl : Int} {es : List (Int × Str)} (h : ItemsOk lvl es) :
    ∀ it ∈ es.map (fun it => (it.1, normB it.2)), NormBody it.2 ∧ it.2 ≠ [] := by
  intro it hit
  rw [List.mem_map] at hit
  obtain ⟨it0, hit0, rfl⟩ := hit
  have hf := (ItemsOk_bodies h it0 hit0).1
  exact ⟨NormBody_normB hf, normB_ne hf⟩

theorem emitAt_some {l : Int} {b x : Str} (h : emitAt l b = some x) :
    0 ≤ l ∧ x = indAt l ++ b ++ ['\n'] := by
  rw [emitAt] at h
  split at h
  · cases h
  · injection h with h
    refine ⟨by omega, ?_⟩
    rw [← h, indAt]

theorem emitAt_of_nonneg (l : Int) (b : Str) (h : 0 ≤ l) :
    emitAt l b = some (indAt l ++ b ++ ['\n']) := by
  rw [emitAt, if_neg (by omega), indAt]

/-- Tokens produced by the tokenizer: tags or angle-free nonempty text. -/
def TokOk (t : Str) : Prop := TagBody t ∨ (t ≠ [] ∧ '<' ∉ t ∧ '>' ∉ t)

theorem splitAtChar_no {stop : Char} :
    ∀ {s a b : Str}, splitAtChar stop s = some (a, b) → stop ∉ a := by
  intro s
  induction s with
  | nil => intro a b h; cases h
  | cons c cs ih =>
    intro a b h
    rw [splitAtChar] at h
    split at h
    · injection h with h
      injection h with h1 h2
      rw [← h1]
      simp
    · cases hr : splitAtChar stop cs with
      | none => rw [hr] at h; cases h
      | some p =>
        obtain ⟨p1, p2⟩ := p
        rw [hr] at h
        simp only [Option.map_some'] at h
        injection h with h
        injection h with h1 h2
        rw [← h1]
        intro hmem
        rcases List.mem_cons.mp hmem with rfl | hm
        · simp_all
        · exact ih hr hm

theorem tokenize_nil : tokenize [] = [] := by rw [tokenize]

theorem tokenize_lt_skip {cs t rest : Str}
    (h : splitAtChar '>' cs = some (t, rest)) (hemp : t = []) :
    tokenize ('<' :: cs) = tokenize cs := by
  rw [tokenize, if_pos rfl]
  split
  · next t2 rest2 heq =>
    rw [h] at heq
    obtain ⟨h1, h2⟩ : t = t2 ∧ rest = rest2 := by
      have := heq
      simp only [Option.some.injEq, Prod.mk.injEq] at this
      exact ⟨this.1, this.2⟩
    rw [if_pos (by rw [← h1]; exact hemp)]
  · next heq =>
    rw [h] at heq

theorem tokenize_lt_tag {cs t rest : Str}
    (h : splitAtChar '>' cs = some (t, rest)) (hemp : t ≠ []) :
    tokenize ('<' :: cs) = ('<' :: (t ++ ['>'])) :: tokenize rest := by
  rw [tokenize, if_pos rfl]
  split
  · next t2 rest2 heq =>
    rw [h] at heq
    obtain ⟨h1, h2⟩ : t = t2 ∧ rest = rest2 := by
      simp only [Option.some.injEq, Prod.mk.injEq] at heq
      exact ⟨heq.1, heq.2⟩
    rw [if_neg (by rw [← h1]; exact hemp), ← h1, ← h2]
  · next heq =>
    rw [h] at heq
    cases heq

theorem tokenize_lt_none {cs : Str} (h : splitAtChar '>' cs = none) :
    tokenize ('<' :: cs) = tokenize cs := by
  rw [tokenize, if_pos rfl]
  split
  · next t2 rest2 heq =>
    rw [h] at heq
    cases heq
  · next heq => rfl

theorem tokenize_gt (cs : Str) : tokenize ('>' :: cs) = tokenize cs := by
  rw [tokenize, if_neg (by decide), if_pos rfl]

theorem tokenize_text {c : Char} {cs : Str} (hc : ¬ c = '<') (hgt : ¬ c = '>') :
    tokenize (c :: cs) =
      (c :: cs).takeWhile (fun x => ¬ (x = '<' || x = '>')) ::
        tokenize ((c :: cs).drop
          ((c :: cs).takeWhile (fun x => ¬ (x = '<' || x = '>'))).length) := by
  rw [tokenize, if_neg hc, if_neg hgt]

theorem tokenize_toks : ∀ (s : Str), ∀ t ∈ tokenize s, TokOk t := by
  intro s
  induction s using tokenize.induct with
  | case1 =>
    intro t ht
    rw [tokenize_nil] at ht
    cases ht
  | case2 cs rest hsplit ih =>
    intro tk htk
    rw [tokenize_lt_skip hsplit rfl] at htk
    exact ih tk htk
  | case3 cs t rest hsplit hemp ih =>
    intro tk htk
    rw [tokenize_lt_tag hsplit hemp] at htk
    rcases List.mem_cons.mp htk with rfl | hm
    · exact Or.inl ⟨t, rfl, hemp, splitAtChar_no hsplit⟩
    · exact ih tk hm
  | case4 cs hsplit ih =>
    intro tk htk
    rw [tokenize_lt_none hsplit] at htk
    exact ih tk htk
  | case5 cs hne ih =>
    intro tk htk
    rw [tokenize_gt] at htk
    exact ih tk htk
  | case6 c cs hc hgt t ih =>
    intro tk htk
    rw [tokenize_text hc hgt] at htk
    rcases List.mem_cons.mp htk with rfl | hm
    · refine Or.inr ⟨?_, ?_, ?_⟩
      · rw [List.takeWhile_cons, if_pos (by simp [hc, hgt])]
        simp
      · intro hmem
        have := mem_takeWhile_true hmem
        simp at this
      · intro hmem
        have := mem_takeWhile_true hmem
        simp at this
    · exact ih tk hm


theorem trim_subset {s : Str} : ∀ c ∈ trim s, c ∈ s := by
  intro c hc
  rw [trim, List.mem_reverse] at hc
  have h1 : c ∈ (s.dropWhile wsChar).reverse :=
    (List.dropWhile_sublist wsChar).subset hc
  rw [List.mem_reverse] at h1
  exact (List.dropWhile_sublist wsChar).subset h1

theorem trim_flanked {s : Str} (hne : trim s ≠ []) : Flanked (trim s) := by
  refine ⟨hne, ?_, ?_⟩
  · intro x hx
    have hpre : trim s <+: s.dropWhile wsChar := by
      rw [trim]
      refine List.reverse_suffix.mp ?_
      rw [List.reverse_reverse]
      exact List.dropWhile_suffix wsChar
    rw [← take1_eq_of_pre hpre hne] at hx
    exact dropWhile_head_false hx
  · intro x hx
    rw [trim, List.reverse_reverse] at hx
    exact dropWhile_head_false hx

theorem trim_allws {s : Str} (h : ∀ c ∈ s, wsChar c = true) : trim s = [] := by
  have h1 : s.dropWhile wsChar = [] :=
    List.dropWhile_eq_nil_iff.mpr (fun x hx => h x hx)
  rw [trim, h1]
  rfl

theorem trim_pad {b w1 w2 : Str} (h1 : ∀ c ∈ w1, wsChar c = true)
    (h2 : ∀ c ∈ w2, wsChar c = true) (hb : Flanked b) :
    trim (w1 ++ b ++ w2) = b := by
  rw [trim, List.append_assoc]
  rw [dropWhile_run h1 (by
    intro x hx
    rw [take1_eq_of_pre (List.prefix_append b w2) hb.1] at hx
    exact hb.2.1 x hx)]
  rw [List.reverse_append]
  rw [dropWhile_run (by intro c hc; exact h2 c (by simpa using hc))
    (fun x hx => hb.2.2 x hx)]
  exact List.reverse_reverse b

theorem TokOk_tag {t : Str} (h : TokOk t) (ht : isTagToken t = true) : TagBody t := by
  rcases h with h | ⟨hne, hlt, _⟩
  · exact h
  · exfalso
    rw [isTagToken, show "<".data = ['<'] from rfl] at ht
    have h1 := isPrefixOf_one.mp ht
    obtain ⟨u, hu⟩ := take1_cons_eq h1
    exact hlt (by rw [hu]; simp)

theorem TokOk_text {t : Str} (h : TokOk t) (ht : isTagToken t = false) :
    t ≠ [] ∧ '<' ∉ t ∧ '>' ∉ t := by
  rcases h with h | h
  · rw [TagBody_isTagToken h] at ht
    cases ht
  · exact h

theorem closing_tag_token {t : Str} (h : isClosingTag t = true) :
    isTagToken t = true := by
  rw [isClosingTag, show "</".data = ['<', '/'] from rfl] at h
  have h2 := isPrefixOf_two.mp h
  rw [isTagToken, show "<".data = ['<'] from rfl, isPrefixOf_one]
  cases t with
  | nil => cases h2
  | cons c cs =>
    have e1 : c = '<' := by
      have h3 : c :: cs.take 1 = ['<', '/'] := by
        simpa using h2
      injection h3 with e1 _
    simp [e1]

theorem TextBody_trim {t : Str} (h : TokOk t) (ht : isTagToken t = false)
    (hne : trim t ≠ []) : TextBody (trim t) := by
  obtain ⟨_, hlt, hgt⟩ := TokOk_text h ht
  exact ⟨trim_flanked hne, fun hc => hlt (trim_subset _ hc),
    fun hc => hgt (trim_subset _ hc)⟩

theorem fmtLoop_nil (lvl : Int) : fmtLoop [] lvl = some [] := by
  rw [fmtLoop]

theorem fmtLoop_closing_none {t : Str} (rest : List Str) (lvl : Int)
    (hcl : isClosingTag t = true) (he : emitAt (lvl - 1) t = none) :
    fmtLoop (t :: rest) lvl = none := by
  rw [fmtLoop]
  simp [hcl, he]

theorem fmtLoop_closing_some {t line : Str} (rest : List Str) (lvl : Int)
    (hcl : isClosingTag t = true) (he : emitAt (lvl - 1) t = some line) :
    fmtLoop (t :: rest) lvl = (fmtLoop rest (lvl - 1)).map (line ++ ·) := by
  rw [fmtLoop]
  simp [hcl, he]

theorem fmtLoop_tag_none {t : Str} (rest : List Str) (lvl : Int)
    (hcl : isClosingTag t = false) (htag : isTagToken t = true)
    (he : emitAt lvl t = none) :
    fmtLoop (t :: rest) lvl = none := by
  rw [fmtLoop]
  simp [hcl, htag, he]

theorem fmtLoop_tag_noInd {t line : Str} (rest : List Str) (lvl : Int)
    (hcl : isClosingTag t = false) (htag : isTagToken t = true)
    (he : emitAt lvl t = some line) (hni : noIndentTag t = true) :
    fmtLoop (t :: rest) lvl = (fmtLoop rest lvl).map (line ++ ·) := by
  rw [fmtLoop]
  simp [hcl, htag, he, hni]

theorem fmtLoop_open_tag {t t2 line : Str} (rest2 : List Str) (lvl : Int)
    (hcl : isClosingTag t = false) (htag : isTagToken t = true)
    (he : emitAt lvl t = some line) (hni : noIndentTag t = false)
    (htag2 : isTagToken t2 = true) :
    fmtLoop (t :: t2 :: rest2) lvl =
      (fmtLoop (t2 :: rest2) (lvl + 1)).map (line ++ ·) := by
  rw [fmtLoop]
  simp [hcl, htag, he, hni, htag2]

theorem fmtLoop_open_text {t t2 line : Str} (rest2 : List Str) (lvl : Int)
    (hcl : isClosingTag t = false) (htag : isTagToken t = true)
    (he : emitAt lvl t = some line) (hni : noIndentTag t = false)
    (htag2 : isTagToken t2 = false) :
    fmtLoop (t :: t2 :: rest2) lvl =
      absorbText line (trim t2) lvl (fmtLoop rest2 (lvl + 1)) := by
  rw [fmtLoop]
  simp [hcl, htag, he, hni, htag2]

theorem fmtLoop_open_nil {t line : Str} (lvl : Int)
    (hcl : isClosingTag t = false) (htag : isTagToken t = true)
    (he : emitAt lvl t = some line) (hni : noIndentTag t = false) :
    fmtLoop [t] lvl = (fmtLoop [] (lvl + 1)).map (line ++ ·) := by
  conv_lhs => rw [fmtLoop]
  simp [hcl, htag, he, hni]

theorem fmtLoop_text {t : Str} (rest : List Str) (lvl : Int)
    (hcl : isClosingTag t = false) (htag : isTagToken t = false) :
    fmtLoop (t :: rest) lvl = emitText (trim t) lvl (fmtLoop rest lvl) := by
  rw [fmtLoop]
  simp [hcl, htag]

theorem fmtLoop_items : ∀ (ts : List Str) (lvl : Int),
    (∀ t ∈ ts, TokOk t) → ∀ out, fmtLoop ts lvl = some out →
    ∃ es, ItemsOk lvl es ∧ out = renderItems es := by
  intro ts lvl
  induction ts, lvl using fmtLoop.induct with
  | case1 lvl =>
    intro _ out hout
    rw [fmtLoop_nil] at hout
    injection hout with hout
    exact ⟨[], ItemsOk.nil lvl, by rw [← hout, renderItems]⟩
  | case2 t rest lvl hcl hemit =>
    intro _ out hout
    rw [fmtLoop_closing_none rest lvl hcl hemit] at hout
    cases hout
  | case3 t rest lvl hcl s hemit ih =>
    intro hall out hout
    rw [fmtLoop_closing_some rest lvl hcl hemit] at hout
    cases hq : fmtLoop rest (lvl - 1) with
    | none => rw [hq] at hout; cases hout
    | some out2 =>
      rw [hq] at hout
      simp only [Option.map_some'] at hout
      injection hout with hout
      obtain ⟨es, hok, hre⟩ := ih (fun x hx => hall x (List.mem_cons_of_mem t hx)) out2 hq
      obtain ⟨hge, hs⟩ := emitAt_some hemit
      refine ⟨(lvl - 1, t) :: es, ?_, ?_⟩
      · exact ItemsOk.closing lvl t es
          (TokOk_tag (hall t (List.mem_cons_self t rest)) (closing_tag_token hcl))
          hcl hge hok
      · rw [renderItems, ← hout, ← hre, hs]
        simp [List.append_assoc]
  | case4 t rest lvl hcl htag hemit =>
    intro _ out hout
    rw [fmtLoop_tag_none rest lvl (by simpa using hcl) htag hemit] at hout
    cases hout
  | case5 t rest lvl hcl htag s hemit hni ih =>
    intro hall out hout
    rw [fmtLoop_tag_noInd rest lvl (by simpa using hcl) htag hemit hni] at hout
    cases hq : fmtLoop rest lvl with
    | none => rw [hq] at hout; cases hout
    | some out2 =>
      rw [hq] at hout
      simp only [Option.map_some'] at hout
      injection hout with hout
      obtain ⟨es, hok, hre⟩ := ih (fun x hx => hall x (List.mem_cons_of_mem t hx)) out2 hq
      obtain ⟨hge, hs⟩ := emitAt_some hemit
      refine ⟨(lvl, t) :: es, ?_, ?_⟩
      · exact ItemsOk.noInd lvl t es
          (TokOk_tag (hall t (List.mem_cons_self t rest)) htag)
          (by simpa using hcl) hni hge hok
      · rw [renderItems, ← hout, ← hre, hs]
        simp [List.append_assoc]
  | case6 t lvl hcl htag s hemit hni t2 rest2 htag2 ih =>
    intro hall out hout
    rw [fmtLoop_open_tag rest2 lvl (by simpa using hcl) htag hemit
      (by simpa using hni) htag2] at hout
    cases hq : fmtLoop (t2 :: rest2) (lvl + 1) with
    | none => rw [hq] at hout; cases hout
    | some out2 =>
      rw [hq] at hout
      simp only [Option.map_some'] at hout
      injection hout with hout
      obtain ⟨es, hok, hre⟩ := ih (fun x hx => hall x (List.mem_cons_of_mem t hx)) out2 hq
      obtain ⟨hge, hs⟩ := emitAt_some hemit
      refine ⟨(lvl, t) :: es, ?_, ?_⟩
      · exact ItemsOk.opening lvl t es
          (TokOk_tag (hall t (List.mem_cons_self t (t2 :: rest2))) htag)
          (by simpa using hcl) (by simpa using hni) hge hok
      · rw [renderItems, ← hout, ← hre, hs]
        simp [List.append_assoc]
  | case7 t lvl hcl htag s hemit hni t2 rest2 htag2 ih =>
    intro hall out hout
    rw [fmtLoop_open_text rest2 lvl (by simpa using hcl) htag hemit
      (by simpa using hni) (by simpa using htag2), absorbText] at hout
    have htb : TagBody t := TokOk_tag (hall t (List.mem_cons_self t (t2 :: rest2))) htag
    obtain ⟨hge, hs⟩ := emitAt_some hemit
    split at hout
    · next hc =>
      cases hq : fmtLoop rest2 (lvl + 1) with
      | none => rw [hq] at hout; cases hout
      | some out2 =>
        rw [hq] at hout
        simp only [Option.map_some'] at hout
        injection hout with hout
        obtain ⟨es, hok, hre⟩ := ih
          (fun x hx => hall x (List.mem_cons_of_mem t (List.mem_cons_of_mem t2 hx)))
          out2 hq
        refine ⟨(lvl, t) :: es, ?_, ?_⟩
        · exact ItemsOk.opening lvl t es htb
            (by simpa using hcl) (by simpa using hni) hge hok
        · rw [renderItems, ← hout, ← hre, hs]
          simp [List.append_assoc]
    · next hc =>
      split at hout
      · cases hout
      · next extra hemit2 =>
        cases hq : fmtLoop rest2 (lvl + 1) with
        | none => rw [hq] at hout; cases hout
        | some out2 =>
          rw [hq] at hout
          simp only [Option.map_some'] at hout
          injection hout with hout
          obtain ⟨es, hok, hre⟩ := ih
            (fun x hx => hall x (List.mem_cons_of_mem t (List.mem_cons_of_mem t2 hx)))
            out2 hq
          obtain ⟨hge2, hs2⟩ := emitAt_some hemit2
          refine ⟨(lvl, t) :: (lvl + 1, trim t2) :: es, ?_, ?_⟩
          · refine ItemsOk.opening lvl t _ htb
              (by simpa using hcl) (by simpa using hni) hge ?_
            exact ItemsOk.text (lvl + 1) (trim t2) es
              (TextBody_trim
                (hall t2 (List.mem_cons_of_mem t (List.mem_cons_self t2 rest2)))
                (by simpa using htag2) hc)
              hge2 hok
          · rw [renderItems, renderItems, ← hout, ← hre, hs, hs2]
            simp [List.append_assoc]
  | case8 t lvl hcl htag s hemit hni ih =>
    intro hall out hout
    rw [fmtLoop_open_nil lvl (by simpa using hcl) htag hemit
      (by simpa using hni)] at hout
    rw [fmtLoop_nil] at hout
    simp only [Option.map_some'] at hout
    injection hout with hout
    obtain ⟨hge, hs⟩ := emitAt_some hemit
    refine ⟨[(lvl, t)], ?_, ?_⟩
    · exact ItemsOk.opening lvl t []
        (TokOk_tag (hall t (List.mem_cons_self t [])) htag)
        (by simpa using hcl) (by simpa using hni) hge (ItemsOk.nil (lvl + 1))
    · rw [renderItems, renderItems, ← hout, hs]
      simp [List.append_assoc]
  | case9 t rest lvl hcl htag ih =>
    intro hall out hout
    rw [fmtLoop_text rest lvl (by simpa using hcl) (by simpa using htag),
      emitText] at hout
    split at hout
    · next hc =>
      exact ih (fun x hx => hall x (List.mem_cons_of_mem t hx)) out hout
    · next hc =>
      split at hout
      · cases hout
      · next line hemit =>
        cases hq : fmtLoop rest lvl with
        | none => rw [hq] at hout; cases hout
        | some out2 =>
          rw [hq] at hout
          simp only [Option.map_some'] at hout
          injection hout with hout
          obtain ⟨es, hok, hre⟩ := ih (fun x hx => hall x (List.mem_cons_of_mem t hx)) out2 hq
          obtain ⟨hge, hs⟩ := emitAt_some hemit
          refine ⟨(lvl, trim t) :: es, ?_, ?_⟩
          · exact ItemsOk.text lvl (trim t) es
              (TextBody_trim (hall t (List.mem_cons_self t rest)) (by simpa using htag) hc)
              hge hok
          · rw [renderItems, ← hout, ← hre, hs]
            simp [List.append_assoc]

theorem noAdjText_tail {x : Int × Str} {r : List (Int × Str)}
    (h : noAdjText (x :: r)) : noAdjText r := by
  cases r with
  | nil => trivial
  | cons y s =>
    obtain ⟨_, hx⟩ := x
    obtain ⟨_, hy⟩ := y
    exact h.2

theorem sepFor_ws (rest : List (Int × Str)) : ∀ c ∈ sepFor rest, wsChar c = true := by
  cases rest with
  | nil => intro c hc; cases hc
  | cons hd tl =>
    obtain ⟨l, b⟩ := hd
    intro c hc
    rw [sepFor] at hc
    rcases List.mem_cons.mp hc with rfl | hm
    · rfl
    · rw [indAt_spaces l c hm]
      rfl

theorem nang_of_ws {c : Char} (h : wsChar c = true) :
    (fun x => ¬ (x = '<' || x = '>') : Char → Bool) c = true := by
  rw [wsChar] at h
  simp only [Bool.or_eq_true, decide_eq_true_eq] at h
  rcases h with ((rfl | rfl) | rfl) | rfl <;> decide

theorem nang_ne {c : Char}
    (h : (fun x => ¬ (x = '<' || x = '>') : Char → Bool) c = true) :
    ¬ c = '<' ∧ ¬ c = '>' := by
  simpa using h

theorem splitAtChar_run {stop : Char} {a : Str} (u : Str) (h : stop ∉ a) :
    splitAtChar stop (a ++ stop :: u) = some (a, u) := by
  induction a with
  | nil => rw [List.nil_append, splitAtChar, if_pos rfl]
  | cons c cs ih =>
    rw [List.cons_append, splitAtChar, if_neg (by
      intro hq
      exact h (by rw [hq]; exact List.mem_cons_self stop cs))]
    rw [ih (fun hm => h (List.mem_cons_of_mem c hm))]
    rfl

theorem tokenize_run {q u : Str} (hq : q ≠ [])
    (hqa : ∀ c ∈ q, (fun x => ¬ (x = '<' || x = '>') : Char → Bool) c = true)
    (hu : u = [] ∨ u.take 1 = ['<']) :
    tokenize (q ++ u) = q :: tokenize u := by
  obtain ⟨c, q', rfl⟩ := List.exists_cons_of_ne_nil hq
  obtain ⟨hc, hgt⟩ := nang_ne (hqa c (List.mem_cons_self c q'))
  have hstop : ∀ x ∈ u.take 1,
      (fun x => ¬ (x = '<' || x = '>') : Char → Bool) x = false := by
    intro x hx
    rcases hu with rfl | h1
    · cases hx
    · rw [h1] at hx
      rcases List.mem_singleton.mp hx with rfl
      decide
  rw [List.cons_append, tokenize_text hc hgt]
  have htw : (c :: (q' ++ u)).takeWhile (fun x => ¬ (x = '<' || x = '>')) = c :: q' := by
    rw [← List.cons_append]
    exact takeWhile_run hqa hstop
  rw [htw]
  have hdr : (c :: (q' ++ u)).drop (c :: q').length = u := by
    rw [← List.cons_append, List.drop_left]
  rw [hdr]

theorem tokenize_tag_step {tin : Str} (u : Str) (hne : tin ≠ []) (hno : '>' ∉ tin) :
    tokenize (('<' :: (tin ++ ['>'])) ++ u) = ('<' :: (tin ++ ['>'])) :: tokenize u := by
  have h1 : ('<' :: (tin ++ ['>'])) ++ u = '<' :: (tin ++ '>' :: u) := by
    simp
  rw [h1, tokenize_lt_tag (splitAtChar_run u hno) hne]

theorem flat_head_tag {l : Int} {b : Str} {rest : List (Int × Str)}
    (hb : TagBody b) :
    (flatFrom ((l, b) :: rest)).take 1 = ['<'] := by
  obtain ⟨tin, rfl, _, _⟩ := hb
  rw [flatFrom]
  simp

theorem tokenize_flat : ∀ (es : List (Int × Str)) (p : Str),
    (∀ c ∈ p, wsChar c = true) →
    (∀ it ∈ es, (isTagToken it.2 = true → TagBody it.2) ∧
      (isTagToken it.2 = false → TextBody it.2)) →
    noAdjText es →
    tokenize (p ++ flatFrom es) = itemsToks es p := by
  intro es
  induction es with
  | nil =>
    intro p hp _ _
    rw [flatFrom, List.append_nil, itemsToks]
    by_cases hpe : p = []
    · subst hpe
      rw [if_pos rfl, tokenize_nil]
    · rw [if_neg hpe]
      have h1 := tokenize_run hpe (fun c hc => nang_of_ws (hp c hc)) (Or.inl rfl)
      rw [List.append_nil] at h1
      rw [h1, tokenize_nil]
  | cons hd rest ih =>
    obtain ⟨l, b⟩ := hd
    intro p hp hcls hadj
    rw [flatFrom, itemsToks]
    cases htag : isTagToken b with
    | true =>
      rw [if_pos rfl]
      obtain ⟨tin, hb0, htne, htno⟩ :=
        (hcls (l, b) (List.mem_cons_self (l, b) rest)).1 htag
      have hb : b = '<' :: (tin ++ ['>']) := hb0
      have hrest : tokenize (sepFor rest ++ flatFrom rest) =
          itemsToks rest (sepFor rest) :=
        ih (sepFor rest) (sepFor_ws rest)
          (fun it hit => hcls it (List.mem_cons_of_mem (l, b) hit))
          (noAdjText_tail hadj)
      have hstep : tokenize (b ++ (sepFor rest ++ flatFrom rest)) =
          b :: itemsToks rest (sepFor rest) := by
        rw [hb, tokenize_tag_step (sepFor rest ++ flatFrom rest) htne htno,
          ← hb, hrest]
      by_cases hpe : p = []
      · subst hpe
        rw [List.nil_append, List.append_assoc, hstep]
        simp
      · rw [if_neg hpe]
        have hphead : tokenize (p ++ (b ++ (sepFor rest ++ flatFrom rest))) =
            p :: tokenize (b ++ (sepFor rest ++ flatFrom rest)) := by
          refine tokenize_run hpe (fun c hc => nang_of_ws (hp c hc)) (Or.inr ?_)
          rw [take1_eq_of_pre ⟨sepFor rest ++ flatFrom rest, rfl⟩
            (by rw [hb]; simp), hb]
          rfl
        rw [List.append_assoc, hphead, hstep]
        rfl
    | false =>
      rw [if_neg (by simp)]
      obtain ⟨hfl, hblt, hbgt⟩ :=
        (hcls (l, b) (List.mem_cons_self (l, b) rest)).2 htag
      have hqne : p ++ b ++ sepFor rest ≠ [] := by
        intro hz
        have hbz : b = [] := by
          rcases List.append_eq_nil.mp hz with ⟨h1, _⟩
          exact (List.append_eq_nil.mp h1).2
        exact hfl.1 hbz
      have hqa : ∀ c ∈ p ++ b ++ sepFor rest,
          (fun x => ¬ (x = '<' || x = '>') : Char → Bool) c = true := by
        intro c hc
        rcases List.mem_append.mp hc with hc1 | hc2
        · rcases List.mem_append.mp hc1 with hc3 | hc4
          · exact nang_of_ws (hp c hc3)
          · have h1 : c ≠ '<' := fun hq => hblt (hq ▸ hc4)
            have h2 : c ≠ '>' := fun hq => hbgt (hq ▸ hc4)
            simp [h1, h2]
        · exact nang_of_ws (sepFor_ws rest c hc2)
      have hflat : flatFrom rest = [] ∨ (flatFrom rest).take 1 = ['<'] := by
        cases rest with
        | nil => exact Or.inl rfl
        | cons hd2 r2 =>
          obtain ⟨l2, b2⟩ := hd2
          refine Or.inr ?_
          have htag2 : isTagToken b2 = true := by
            rcases hadj.1 with h1 | h2
            · rw [htag] at h1; cases h1
            · exact h2
          exact flat_head_tag ((hcls (l2, b2)
            (List.mem_cons_of_mem (l, b) (List.mem_cons_self (l2, b2) r2))).1 htag2)
      have hrun := tokenize_run hqne hqa hflat
      have hrest : tokenize ([] ++ flatFrom rest) = itemsToks rest [] :=
        ih [] (by intro c hc; cases hc)
          (fun it hit => hcls it (List.mem_cons_of_mem (l, b) hit))
          (noAdjText_tail hadj)
      rw [List.nil_append] at hrest
      have hassoc : p ++ (b ++ sepFor rest ++ flatFrom rest) =
          (p ++ b ++ sepFor rest) ++ flatFrom rest := by
        simp [List.append_assoc]
      rw [hassoc, hrun, hrest]

theorem not_tag_of_head {q : Str} (h : ∀ x ∈ q.take 1, ¬ x = '<') :
    isTagToken q = false := by
  cases hq : isTagToken q with
  | false => rfl
  | true =>
    rw [isTagToken, show "<".data = ['<'] from rfl] at hq
    have h1 := isPrefixOf_one.mp hq
    exact absurd rfl (h '<' (by rw [h1]; exact List.mem_singleton.mpr rfl))

theorem ws_not_tag {p : Str} (hws : ∀ c ∈ p, wsChar c = true) :
    isTagToken p = false := by
  refine not_tag_of_head ?_
  intro x hx
  have hxp : x ∈ p := List.take_subset 1 p hx
  intro hq
  have := hws x hxp
  rw [hq] at this
  exact absurd this (by decide)

theorem not_closing_of_not_tag {t : Str} (h : isTagToken t = false) :
    isClosingTag t = false := by
  cases hq : isClosingTag t with
  | false => rfl
  | true => rw [closing_tag_token hq] at h; cases h

theorem fmtLoop_ws_skip {p : Str} (ts : List Str) (lvl : Int) (hne : p ≠ [])
    (hp : ∀ c ∈ p, wsChar c = true) :
    fmtLoop (p :: ts) lvl = fmtLoop ts lvl := by
  have htag : isTagToken p = false := ws_not_tag hp
  rw [fmtLoop_text ts lvl (not_closing_of_not_tag htag) htag, trim_allws hp,
    emitText, if_pos rfl]

theorem sepFor_ne {hd : Int × Str} {tl : List (Int × Str)} :
    sepFor (hd :: tl) ≠ [] := by
  obtain ⟨l, b⟩ := hd
  rw [sepFor]
  simp

theorem text_tok_not_tag {p b w : Str} (hp : ∀ c ∈ p, wsChar c = true)
    (hb : TextBody b) : isTagToken (p ++ b ++ w) = false := by
  refine not_tag_of_head ?_
  intro x hx
  have h1 : (p ++ b ++ w).take 1 = (p ++ b).take 1 :=
    take1_eq_of_pre ⟨w, rfl⟩ (by
      intro hz
      rcases List.append_eq_nil.mp hz with ⟨_, hbz⟩
      exact hb.1.1 hbz)
  rw [h1] at hx
  cases p with
  | nil =>
    rw [List.nil_append] at hx
    intro hq
    exact hb.2.1 (hq ▸ List.take_subset 1 b hx)
  | cons c cs =>
    have h2 : ((c :: cs) ++ b).take 1 = [c] := by
      rw [List.cons_append]
      rfl
    rw [h2] at hx
    rcases List.mem_singleton.mp hx with rfl
    intro hq
    have := hp x (List.mem_cons_self x cs)
    rw [hq] at this
    exact absurd this (by decide)

theorem fmtLoop_ev : ∀ (n : Nat) (es : List (Int × Str)) (p : Str) (lvl : Int),
    es.length ≤ n → ItemsOk lvl es → noAdjText es →
    (∀ c ∈ p, wsChar c = true) →
    fmtLoop (itemsToks es p) lvl = some (renderItems es) := by
  intro n
  induction n with
  | zero =>
    intro es p lvl hlen hok hadj hp
    have hz : es = [] := List.eq_nil_of_length_eq_zero (by omega)
    subst hz
    rw [itemsToks, renderItems]
    by_cases hpe : p = []
    · rw [if_pos hpe, fmtLoop_nil]
    · rw [if_neg hpe, fmtLoop_ws_skip [] lvl hpe hp, fmtLoop_nil]
  | succ n ih =>
    intro es p lvl hlen hok hadj hp
    cases hok with
    | nil =>
      rw [itemsToks, renderItems]
      by_cases hpe : p = []
      · rw [if_pos hpe, fmtLoop_nil]
      · rw [if_neg hpe, fmtLoop_ws_skip [] lvl hpe hp, fmtLoop_nil]
    | closing lvl b rest htb hcl hge hrest =>
      have htag : isTagToken b = true := TagBody_isTagToken htb
      have he : emitAt (lvl - 1) b = some (indAt (lvl - 1) ++ b ++ ['\n']) :=
        emitAt_of_nonneg (lvl - 1) b hge
      have key : fmtLoop (b :: itemsToks rest (sepFor rest)) lvl =
          some (renderItems ((lvl - 1, b) :: rest)) := by
        rw [fmtLoop_closing_some (itemsToks rest (sepFor rest)) lvl hcl he]
        rw [ih rest (sepFor rest) (lvl - 1)
          (by simp only [List.length_cons] at hlen; omega) hrest
          (noAdjText_tail hadj) (sepFor_ws rest)]
        rw [renderItems]
        simp [List.append_assoc]
      rw [itemsToks, if_pos htag]
      by_cases hpe : p = []
      · rw [if_pos hpe, List.nil_append]
        exact key
      · rw [if_neg hpe, List.cons_append, List.nil_append,
          fmtLoop_ws_skip _ lvl hpe hp]
        exact key
    | noInd lvl b rest htb hcl hni hge hrest =>
      have htag : isTagToken b = true := TagBody_isTagToken htb
      have he : emitAt lvl b = some (indAt lvl ++ b ++ ['\n']) :=
        emitAt_of_nonneg lvl b hge
      have key : fmtLoop (b :: itemsToks rest (sepFor rest)) lvl =
          some (renderItems ((lvl, b) :: rest)) := by
        rw [fmtLoop_tag_noInd (itemsToks rest (sepFor rest)) lvl hcl htag he hni]
        rw [ih rest (sepFor rest) lvl
          (by simp only [List.length_cons] at hlen; omega) hrest
          (noAdjText_tail hadj) (sepFor_ws rest)]
        rw [renderItems]
        simp [List.append_assoc]
      rw [itemsToks, if_pos htag]
      by_cases hpe : p = []
      · rw [if_pos hpe, List.nil_append]
        exact key
      · rw [if_neg hpe, List.cons_append, List.nil_append,
          fmtLoop_ws_skip _ lvl hpe hp]
        exact key
    | opening lvl b rest htb hcl hni hge hrest =>
      have htag : isTagToken b = true := TagBody_isTagToken htb
      have he : emitAt lvl b = some (indAt lvl ++ b ++ ['\n']) :=
        emitAt_of_nonneg lvl b hge
      have key : fmtLoop (b :: itemsToks rest (sepFor rest)) lvl =
          some (renderItems ((lvl, b) :: rest)) := by
        cases rest with
        | nil =>
          rw [sepFor, itemsToks, if_pos rfl]
          rw [fmtLoop_open_nil lvl hcl htag he hni, fmtLoop_nil]
          rw [renderItems, renderItems]
          simp
        | cons hd2 rest2 =>
          obtain ⟨l2, b2⟩ := hd2
          cases htag2 : isTagToken b2 with
          | true =>
            rw [itemsToks, if_pos htag2, if_neg sepFor_ne, List.cons_append,
              List.nil_append]
            rw [fmtLoop_open_text (b2 :: itemsToks rest2 (sepFor rest2)) lvl hcl
              htag he hni (ws_not_tag (sepFor_ws ((l2, b2) :: rest2)))]
            rw [trim_allws (sepFor_ws ((l2, b2) :: rest2)), absorbText, if_pos rfl]
            have hrec : fmtLoop (itemsToks ((l2, b2) :: rest2) []) (lvl + 1) =
                some (renderItems ((l2, b2) :: rest2)) :=
              ih ((l2, b2) :: rest2) [] (lvl + 1)
                (by simp only [List.length_cons] at hlen ⊢; omega) hrest
                (noAdjText_tail hadj) (by intro c hc; cases hc)
            rw [itemsToks, if_pos htag2, if_pos rfl, List.nil_append] at hrec
            rw [hrec]
            simp [renderItems, List.append_assoc]
          | false =>
            cases hrest with
            | closing _ _ _ htb2 =>
              rw [TagBody_isTagToken htb2] at htag2; cases htag2
            | noInd _ _ _ htb2 =>
              rw [TagBody_isTagToken htb2] at htag2; cases htag2
            | opening _ _ _ htb2 =>
              rw [TagBody_isTagToken htb2] at htag2; cases htag2
            | text _ _ _ htb2 hge2 hrest2 =>
              rw [itemsToks, if_neg (by simp [htag2])]
              rw [fmtLoop_open_text (itemsToks rest2 []) lvl hcl htag he hni
                (text_tok_not_tag (sepFor_ws ((lvl + 1, b2) :: rest2)) htb2)]
              rw [absorbText,
                trim_pad (sepFor_ws ((lvl + 1, b2) :: rest2)) (sepFor_ws rest2)
                  htb2.1]
              rw [if_neg htb2.1.1]
              rw [emitAt_of_nonneg (lvl + 1) b2 (by omega)]
              rw [ih rest2 [] (lvl + 1)
                (by simp only [List.length_cons] at hlen ⊢; omega) hrest2
                (noAdjText_tail (noAdjText_tail hadj)) (by intro c hc; cases hc)]
              rw [renderItems, renderItems]
              simp [List.append_assoc]
      rw [itemsToks, if_pos htag]
      by_cases hpe : p = []
      · rw [if_pos hpe, List.nil_append]
        exact key
      · rw [if_neg hpe, List.cons_append, List.nil_append,
          fmtLoop_ws_skip _ lvl hpe hp]
        exact key
    | text lvl b rest htb hge hrest =>
      have htag : isTagToken b = false := TextBody_not_tag htb
      rw [itemsToks, if_neg (by simp [htag])]
      rw [fmtLoop_text (itemsToks rest []) lvl
        (not_closing_of_not_tag (text_tok_not_tag hp htb))
        (text_tok_not_tag hp htb)]
      rw [emitText, trim_pad hp (sepFor_ws rest) htb.1, if_neg htb.1.1]
      rw [emitAt_of_nonneg lvl b hge]
      rw [ih rest [] lvl (by simp only [List.length_cons] at hlen ⊢; omega) hrest
        (noAdjText_tail hadj) (by intro c hc; cases hc)]
      rw [renderItems]
      simp [List.append_assoc]

theorem indAt_zero : indAt 0 = [] := rfl

theorem post_nl {s : Str} (hf : Flanked s) :
    stripTrailingWs (collapseBlank (s ++ ['\n'])) = normB s := by
  conv_lhs => rw [← bjoin_blocksOf_eq s]
  rw [post_blocks_nl (blocksOf_wf_eq hf), ← normB_rep hf]

theorem normB_sep_append {x w y : Str} (hx : Flanked x) (hy : Flanked y)
    (hw : WsOk w) (hwn : wsNorm w = w) :
    normB (x ++ w ++ y) = normB x ++ w ++ normB y := by
  have hrep : x ++ w ++ y = bjoin (blocksOf x ++ Block.ws w :: blocksOf y) := by
    rw [bjoin_append, bjoin_cons, blockStr_ws, bjoin_blocksOf_eq, bjoin_blocksOf_eq]
    simp [List.append_assoc]
  have hwf : BWF (blocksOf x ++ Block.ws w :: blocksOf y) :=
    BWF_append_sep hw (blocksOf_wf_eq hx) (blocksOf_ne hx.1)
      (blocksOf_wf_eq hy) (blocksOf_ne hy.1)
  rw [hrep, normB_blocks hwf, mapWs_append, mapWs_cons_ws, bjoin_append,
    bjoin_cons, blockStr_ws, hwn, ← normB_rep hx, ← normB_rep hy]
  simp [List.append_assoc]

theorem flat_flanked : ∀ (es : List (Int × Str)), es ≠ [] →
    (∀ it ∈ es, Flanked it.2) → Flanked (flatFrom es) := by
  intro es
  induction es with
  | nil => intro h _; exact absurd rfl h
  | cons it rest ih =>
    obtain ⟨l, b⟩ := it
    intro _ hall
    have hbf : Flanked b := hall (l, b) (List.mem_cons_self _ _)
    cases rest with
    | nil =>
      rw [flatFrom, sepFor, flatFrom, List.append_nil, List.append_nil]
      exact hbf
    | cons it2 rest2 =>
      have hrf : Flanked (flatFrom (it2 :: rest2)) :=
        ih (by simp) (fun x hx => hall x (List.mem_cons_of_mem _ hx))
      rw [flatFrom]
      refine ⟨?_, ?_, ?_⟩
      · intro hz
        rcases List.append_eq_nil.mp hz with ⟨h1, _⟩
        rcases List.append_eq_nil.mp h1 with ⟨h2, _⟩
        exact hbf.1 h2
      · intro x hx
        rw [take1_eq_of_pre ⟨sepFor (it2 :: rest2) ++ flatFrom (it2 :: rest2),
          by simp [List.append_assoc]⟩ hbf.1] at hx
        exact hbf.2.1 x hx
      · intro x hx
        have hsuf : flatFrom (it2 :: rest2) <:+
            b ++ sepFor (it2 :: rest2) ++ flatFrom (it2 :: rest2) :=
          ⟨b ++ sepFor (it2 :: rest2), by simp [List.append_assoc]⟩
        rw [take1_eq_of_pre (List.reverse_prefix.mpr hsuf)
          (by simpa using hrf.1)] at hx
        exact hrf.2.2 x hx

theorem normB_flat : ∀ (es : List (Int × Str)), es ≠ [] →
    (∀ it ∈ es, Flanked it.2) →
    normB (flatFrom es) = flatFrom (es.map (fun it => (it.1, normB it.2))) := by
  intro es
  induction es with
  | nil => intro h _; exact absurd rfl h
  | cons it rest ih =>
    obtain ⟨l, b⟩ := it
    intro _ hall
    have hbf : Flanked b := hall (l, b) (List.mem_cons_self _ _)
    cases rest with
    | nil =>
      rw [flatFrom, sepFor, flatFrom, List.append_nil, List.append_nil,
        List.map_cons, List.map_nil, flatFrom, sepFor, flatFrom,
        List.append_nil, List.append_nil]
    | cons it2 rest2 =>
      obtain ⟨l2, b2⟩ := it2
      have hsep := sep_wsok (indAt_spaces l2)
      have hrf : Flanked (flatFrom ((l2, b2) :: rest2)) :=
        flat_flanked ((l2, b2) :: rest2) (by simp)
          (fun x hx => hall x (List.mem_cons_of_mem _ hx))
      rw [flatFrom, sepFor]
      rw [normB_sep_append hbf hrf hsep.1 hsep.2]
      rw [ih (by simp) (fun x hx => hall x (List.mem_cons_of_mem _ hx))]
      simp only [List.map_cons, flatFrom, sepFor.eq_def]

theorem map_norm_fix : ∀ {es : List (Int × Str)},
    (∀ it ∈ es, NormBody it.2) →
    es.map (fun it => (it.1, normB it.2)) = es := by
  intro es
  induction es with
  | nil => intro _; rfl
  | cons it rest ih =>
    intro h
    rw [List.map_cons, NormBody_fix (h it (List.mem_cons_self _ _)),
      ih (fun x hx => h x (List.mem_cons_of_mem _ hx))]

theorem ItemsOk_zero_head {l : Int} {b : Str} {rest : List (Int × Str)}
    (h : ItemsOk 0 ((l, b) :: rest)) : l = 0 := by
  cases h with
  | closing _ _ _ _ _ hge _ => omega
  | noInd _ _ _ _ _ _ _ _ => rfl
  | opening _ _ _ _ _ _ _ _ => rfl
  | text _ _ _ _ _ _ => rfl

theorem post_render {es : List (Int × Str)} (hok : ItemsOk 0 es) :
    stripTrailingWs (collapseBlank (renderItems es)) =
      flatFrom (es.map (fun it => (it.1, normB it.2))) := by
  cases hes : es with
  | nil =>
    rw [renderItems, List.map_nil, flatFrom, collapseBlank, stripTrailingWs]
  | cons it rest =>
    obtain ⟨l, b⟩ := it
    subst hes
    have hl0 : l = 0 := ItemsOk_zero_head hok
    subst hl0
    have hflan : ∀ it ∈ (0, b) :: rest, Flanked it.2 :=
      fun it hit => (ItemsOk_bodies hok it hit).1
    rw [renderItems_flat ((0, b) :: rest) 0 b rest rfl, indAt_zero,
      List.nil_append]
    rw [post_nl (flat_flanked ((0, b) :: rest) (by simp) hflan)]
    exact normB_flat ((0, b) :: rest) (by simp) hflan

/-- C9: The pretty-printer is a fixed point on its own output: for every
markup string `h`, feeding the result of `formatHtml h` back through
`formatHtml` reproduces it unchanged (and an aborted run stays aborted). -/
theorem claim_C9 (h : Str) : (formatHtml h).bind formatHtml = formatHtml h := by
  rw [formatHtml]
  cases hq : fmtLoop (tokenize h) 0 with
  | none => rfl
  | some out =>
    simp only [Option.map_some', Option.some_bind]
    obtain ⟨es, hok, rfl⟩ := fmtLoop_items (tokenize h) 0 (tokenize_toks h) out hq
    have hF := post_render hok
    have hok1 : ItemsOk 0 (es.map (fun it => (it.1, normB it.2))) :=
      ItemsOk_map_norm hok
    have hok2 : ItemsOk 0 (mergeAdj (es.map (fun it => (it.1, normB it.2)))) :=
      ItemsOk_mergeAdj _ _ 0 (Nat.le_refl _) hok1
    have hadj2 : noAdjText (mergeAdj (es.map (fun it => (it.1, normB it.2)))) :=
      noAdjText_mergeAdj _ _ (Nat.le_refl _)
    have hnb2 : ∀ it ∈ mergeAdj (es.map (fun it => (it.1, normB it.2))),
        NormBody it.2 ∧ it.2 ≠ [] :=
      mergeAdj_normBodies _ _ (Nat.le_refl _) (map_norm_normBodies hok)
    have hFm : flatFrom (es.map (fun it => (it.1, normB it.2))) =
        flatFrom (mergeAdj (es.map (fun it => (it.1, normB it.2)))) :=
      (flatFrom_mergeAdj _ _ (Nat.le_refl _)).symm
    rw [hF, hFm]
    set E := mergeAdj (es.map (fun it => (it.1, normB it.2))) with hE
    have htok : tokenize (flatFrom E) = itemsToks E [] := by
      have := tokenize_flat E [] (by intro c hc; cases hc)
        (fun it hit => (ItemsOk_bodies hok2 it hit).2)
        hadj2
      rwa [List.nil_append] at this
    have hev : fmtLoop (itemsToks E []) 0 = some (renderItems E) :=
      fmtLoop_ev E.length E [] 0 (Nat.le_refl _) hok2 hadj2
        (by intro c hc; cases hc)
    rw [formatHtml, htok, hev, Option.map_some']
    have hfix : E.map (fun it => (it.1, normB it.2)) = E :=
      map_norm_fix (fun it hit => (hnb2 it hit).1)
    rw [post_render hok2, hfix]

end Remi
